import Mathlib

/-!
A shallow embedding of the relation-monitoring program in `src/main.c`
(Progetto API 2019).

Modelling choices, each tied to the source:

* Identifiers (`char *` C strings) are byte lists (`Ident := List Nat`);
  `strlt` is the `strcmp < 0` order (bytes compared as unsigned char, with
  the terminating NUL making a proper prefix smaller).
* A red-black tree of entity pointers (`struct tree_t`) is represented by
  its in-order traversal: a list of identifiers strictly sorted by `strlt`.
  `rb_insert` becomes `treeInsert` (descends left on `strcmp < 0`, right
  otherwise), `tree_search` becomes `memb`, `rb_delete` after a successful
  `tree_search` becomes `treeErase`, and `tree->size` is the list length.
  In the source `tree->size` and `current_maximum` are `short unsigned int`
  (src/main.c:60, 90) and hold the node count only modulo 65536, so the
  list length models them faithfully only while every tree stays below
  65536 nodes; the facts proved below about output formatting and tree
  membership do not read the counters through that boundary.
* An entity's `rel_list` (type name -> tree, built by
  `list_insert_unordered`, keys unique) is an association list.
* The global `RELATION_TYPES` list (built by `list_insert`, kept in
  ascending `strcmp` order) is a list of `RelType` records carrying the
  `current_maximum` field of `list_t`.
* The entity hash table is represented by the list of live entities; the
  scans in `delent` and `restore_data_maximum` traverse that list.  The
  bucket order of the table is abstracted to the list order, which is
  sound for the properties proved here: the scans are shown to compute
  order-independent results.
-/

namespace PolimiApi2019

/-- A C identifier: the list of its bytes (nonzero `unsigned char`s). -/
abbrev Ident := List Nat

/-- The `strlt a b` models `strcmp(a, b) < 0`: lexicographic comparison of the
byte strings, bytes compared as unsigned char, the terminating NUL making a
strict prefix compare less. -/
def strlt : Ident → Ident → Bool
  | [], [] => false
  | [], _ :: _ => true
  | _ :: _, [] => false
  | a :: as, b :: bs => if a < b then true else if b < a then false else strlt as bs

/-- Strictly-ascending (hence duplicate-free) lists in `strlt` order: the
in-order traversals of the source's red-black trees. -/
abbrev Sorted (l : List Ident) : Prop := l.Pairwise (fun a b => strlt a b = true)

/-- The `memb x l` models a successful `tree_search` for `x` (comparison by
`strcmp == 0`): membership in the tree's in-order list. -/
def memb (x : Ident) : List Ident → Bool
  | [] => false
  | y :: ys => if x = y then true else memb x ys

/-- The `rb_insert`: descend left when `strcmp < 0`, right otherwise; on the
in-order list this inserts `x` in front of the first strictly greater
element. -/
def treeInsert (x : Ident) : List Ident → List Ident
  | [] => [x]
  | y :: ys => if strlt x y then x :: y :: ys else y :: treeInsert x ys

/-- The `rb_delete` of the node found by `tree_search`: remove the first
occurrence (the only one, for duplicate-free trees); leaves the list
unchanged when `x` is absent. -/
def treeErase (x : Ident) : List Ident → List Ident
  | [] => []
  | y :: ys => if x = y then ys else y :: treeErase x ys

/-! ### Association lists: `list_search` / in-place update on an entity's `rel_list` -/

/-- The `list_search` on an entity's `rel_list`: first entry whose key compares
`strcmp == 0`, yielding the in-order content of its tree. -/
def lookupA (k : Ident) : List (Ident × List Ident) → Option (List Ident)
  | [] => none
  | (k', v) :: rest => if k = k' then some v else lookupA k rest

/-- Overwrite the tree stored under key `k` (a mutation through the
`list_t *` pointer in C); entries with other keys are untouched, and a
missing key stays missing. -/
def setA (k : Ident) (v : List Ident) : List (Ident × List Ident) → List (Ident × List Ident)
  | [] => []
  | (k', v') :: rest => if k = k' then (k, v) :: rest else (k', v') :: setA k v rest

/-! ### The data model: entities, type descriptors, global state -/

/-- An `entity_t`: its identifier and its `rel_list` (type name mapped to
the in-order content of the in-neighbor tree). -/
structure Entity where
  id : Ident
  rels : List (Ident × List Ident)
  deriving DecidableEq

/-- A node of the global `RELATION_TYPES` list: type name, in-order content
of the report ("leaders") tree, and the `current_maximum` counter. -/
structure RelType where
  key : Ident
  leaders : List Ident
  current_maximum : Nat
  deriving DecidableEq

/-- The global mutable state: the live entities of the hash table (in scan
order) and the `RELATION_TYPES` list (in ascending key order). -/
structure St where
  entities : List Entity
  relTypes : List RelType
  deriving DecidableEq

/-- The `hash_search` in the global table: the unique live entity with this id. -/
def hash_search (s : St) (i : Ident) : Option Entity :=
  s.entities.find? (fun e => decide (e.id = i))

/-- The `list_search` on `RELATION_TYPES`. -/
def list_search_rt (l : List RelType) (k : Ident) : Option RelType :=
  l.find? (fun d => decide (d.key = k))

/-- In-degree of an entity for a type: the size of its in-neighbor tree for
that type (0 when the `rel_list` has no entry, or an empty one). -/
def deg (ty : Ident) (e : Entity) : Nat := ((lookupA ty e.rels).getD []).length

/-- Maximum in-degree for a type over a list of entities. -/
def maxDegL (ents : List Entity) (ty : Ident) : Nat := (ents.map (deg ty)).foldr max 0

/-- The true maximum in-degree for a type over all live entities. -/
def maxDeg (s : St) (ty : Ident) : Nat := maxDegL s.entities ty

/-- The `list_insert` on `RELATION_TYPES`: walk while `strcmp(cursor->key, key) < 0`
and link a fresh node (`current_maximum = 0`, empty tree) there. -/
def list_insert (l : List RelType) (k : Ident) : List RelType :=
  match l with
  | [] => [⟨k, [], 0⟩]
  | d :: rest => if strlt d.key k then d :: list_insert rest k else ⟨k, [], 0⟩ :: d :: rest

/-- The `list_delete` on `RELATION_TYPES`: unlink the node with this key. -/
def list_delete (l : List RelType) (k : Ident) : List RelType :=
  match l with
  | [] => []
  | d :: rest => if d.key = k then rest else d :: list_delete rest k

/-- Mutation through the `list_t *data_list` pointer: rewrite the descriptor
with key `k` in place. -/
def updRT (l : List RelType) (k : Ident) (f : RelType → RelType) : List RelType :=
  l.map (fun d => if d.key = k then f d else d)

/-- Mutation through the `entity_t *` pointer: rewrite the entity with id `i`
in place. -/
def updEnt (ents : List Entity) (i : Ident) (f : Entity → Entity) : List Entity :=
  ents.map (fun e => if e.id = i then f e else e)

/-! ### The five commands -/

/-- The `addent`: insert a fresh entity (empty `rel_list`) unless the id is
already present. -/
def addent (s : St) (i : Ident) : St :=
  match hash_search s i with
  | some _ => s
  | none => { s with entities := s.entities ++ [⟨i, []⟩] }

/-- The `addrel` (src/main.c:207-248): resolve both entities; get-or-create the
global descriptor and the target's per-type tree; insert `from` unless the
relation exists; then update the report data from the tree's new size. -/
def addrel (s : St) (f t ty : Ident) : St :=
  match hash_search s f, hash_search s t with
  | some _, some te =>
    -- data_list = list_search(RELATION_TYPES, type), created if missing
    let rts := match list_search_rt s.relTypes ty with
      | some _ => s.relTypes
      | none => list_insert s.relTypes ty
    -- rel_list = list_search(to->rel_list, type), created if missing
    -- (list_insert_unordered prepends)
    let rels1 := match lookupA ty te.rels with
      | some _ => te.rels
      | none => (ty, []) :: te.rels
    let tree0 := (lookupA ty rels1).getD []
    -- if tree_search(...) == NIL then rb_insert
    let rels2 := if memb f tree0 then rels1 else setA ty (treeInsert f tree0) rels1
    let k := ((lookupA ty rels2).getD []).length
    let s3 : St := { entities := updEnt s.entities t (fun e => { e with rels := rels2 }),
                     relTypes := rts }
    match list_search_rt rts ty with
    | some d =>
      if k = d.current_maximum then
        if memb t d.leaders then s3
        else { s3 with
               relTypes := updRT rts ty (fun d0 => { d0 with leaders := treeInsert t d0.leaders }) }
      else if k > d.current_maximum then
        { s3 with
          relTypes := updRT rts ty (fun d0 => { d0 with leaders := [t], current_maximum := k }) }
      else s3
    | none => s3
  | _, _ => s

/-- One step of the `restore_data_maximum` scan over the live entities:
running maximum `cm` and leaders tree `ldr`, updated from each entity's
tree for `ty` exactly as in src/main.c:411-435. -/
def restoreScan (ty : Ident) : List Entity → Nat → List Ident → Nat × List Ident
  | [], cm, ldr => (cm, ldr)
  | e :: rest, cm, ldr =>
    match lookupA ty e.rels with
    | none => restoreScan ty rest cm ldr
    | some tree =>
      if tree.length > 0 ∧ tree.length = cm then restoreScan ty rest cm (treeInsert e.id ldr)
      else if tree.length > cm then restoreScan ty rest tree.length [e.id]
      else restoreScan ty rest cm ldr

/-- The `restore_data_maximum` (src/main.c:403-442): reset `current_maximum` to
0, rescan every live entity rebuilding the data tree, and drop the
descriptor entirely if no relation of this type survives. -/
def restore_data_maximum (s : St) (ty : Ident) : St :=
  match list_search_rt s.relTypes ty with
  | none => s
  | some d =>
    let r := restoreScan ty s.entities 0 d.leaders
    if r.1 = 0 then { s with relTypes := list_delete s.relTypes ty }
    else { s with
           relTypes := updRT s.relTypes ty
             (fun d0 => { d0 with current_maximum := r.1, leaders := r.2 }) }

/-- The `delrel` (src/main.c:260-299): resolve the entities, the global
descriptor and the target's tree; delete the found node; if the old size
equalled `current_maximum`, either drop `to` from the data tree (several
leaders) or rebuild it via `restore_data_maximum` (sole leader). -/
def delrel (s : St) (f t ty : Ident) : St :=
  match hash_search s f, hash_search s t with
  | some _, some te =>
    match list_search_rt s.relTypes ty with
    | none => s
    | some d =>
      match lookupA ty te.rels with
      | none => s
      | some tree =>
        if memb f tree then
          let tree' := treeErase f tree
          let s1 : St := { s with
                           entities := updEnt s.entities t
                             (fun e => { e with rels := setA ty tree' e.rels }) }
          if tree'.length + 1 = d.current_maximum then
            if d.leaders.length > 1 then
              { s1 with
                relTypes := updRT s1.relTypes ty
                  (fun d0 => { d0 with leaders := treeErase t d0.leaders }) }
            else restore_data_maximum s1 ty
          else s1
        else s
  | _, _ => s

/-- The inner entity sweep of `delent` for one relation type: the dying
entity's own tree is wiped (`clear_tree`), any other entity loses the node
whose `tree_search` for the dying entity succeeds. -/
def sweepEnt (i ty : Ident) (x : Entity) : Entity :=
  match lookupA ty x.rels with
  | none => x
  | some tree =>
    if x.id = i then { x with rels := setA ty [] x.rels }
    else if memb i tree then { x with rels := setA ty (treeErase i tree) x.rels }
    else x

/-- The `delent`'s processing of one relation type (the body of the
`while (rel_cursor != NULL)` loop, src/main.c:322-360): sweep every live
entity, drop the dying entity from this type's data tree (done in the same
sweep when its `rel_list` entry exists), then `restore_data_maximum`. -/
def delentOneType (i ty : Ident) (s : St) : St :=
  let hasEntry := match hash_search s i with
    | some e => (lookupA ty e.rels).isSome
    | none => false
  let s1 : St :=
    { entities := s.entities.map (sweepEnt i ty),
      relTypes := if hasEntry then
          updRT s.relTypes ty (fun d0 => { d0 with leaders := treeErase i d0.leaders })
        else s.relTypes }
  restore_data_maximum s1 ty

/-- The type loop of `delent`: iterates over the snapshot of keys of
`RELATION_TYPES` (the C code saves `next` before `restore_data_maximum`
may unlink the current node; no other node is ever unlinked). -/
def delentTypes (i : Ident) : List Ident → St → St
  | [], s => s
  | ty :: rest, s => delentTypes i rest (delentOneType i ty s)

/-- The `delent` (src/main.c:309-364): if the id is live, process every
relation type, then remove the entity from the hash table. -/
def delent (s : St) (i : Ident) : St :=
  match hash_search s i with
  | none => s
  | some _ =>
    let s' := delentTypes i (s.relTypes.map RelType.key) s
    { s' with entities := s'.entities.filter (fun e => decide (e.id ≠ i)) }

/-! ### `report` output, as the exact byte stream -/

/-- The `print_string`: a double quote (byte 34), the bytes of the string,
a double quote, a space (byte 32). -/
def print_string (x : Ident) : List Nat := 34 :: (x ++ [34, 32])

/-- The decimal digits printf emits for `%d` on a non-negative value. -/
def decDigits (n : Nat) : List Nat :=
  if h : n < 10 then [48 + n] else decDigits (n / 10) ++ [48 + n % 10]
decreasing_by exact Nat.div_lt_self (by omega) (by omega)

/-- One descriptor's chunk of `report`: quoted type name, quoted leaders in
tree order, the decimal maximum, `';'` (byte 59) and a trailing space. -/
def reportOne (d : RelType) : List Nat :=
  print_string d.key ++ (d.leaders.map print_string).flatten ++ (decDigits d.current_maximum ++ [59, 32])

/-- The `report` (src/main.c:373-395): `none` when the list is empty, otherwise
every descriptor in list order; always a final newline (byte 10). -/
def report (s : St) : List Nat :=
  (if s.relTypes.isEmpty then [110, 111, 110, 101] else (s.relTypes.map reportOne).flatten) ++ [10]

/-! ### Commands and reachability -/

/-- The five state-changing commands of the input language (`report` reads
but does not mutate). -/
inductive Cmd where
  | addent : Ident → Cmd
  | delent : Ident → Cmd
  | addrel : Ident → Ident → Ident → Cmd
  | delrel : Ident → Ident → Ident → Cmd
  | report : Cmd
  deriving DecidableEq

/-- Effect of a command on the global state. -/
def exec (s : St) : Cmd → St
  | .addent i => addent s i
  | .delent i => delent s i
  | .addrel f t ty => addrel s f t ty
  | .delrel f t ty => delrel s f t ty
  | .report => s

/-- The state after `main`'s initialisation: empty table, empty type list. -/
def initSt : St := ⟨[], []⟩

/-- Run a command sequence. -/
def run (s : St) (cs : List Cmd) : St := cs.foldl exec s

/-- States the program can be in after some prefix of the input. -/
def Reachable (s : St) : Prop := ∃ cs, s = run initSt cs

/-! ### The global invariant (spec §3, properties P1/P2) -/

/-- The invariants the source maintains between commands: duplicate-free
entity ids, duplicate-free per-entity type keys, all trees strictly sorted,
the type list strictly sorted, and per descriptor the `current_maximum` /
leaders consistency (P1 and P2); additionally, a type with no descriptor
has no relations at all. -/
structure Inv (s : St) : Prop where
  entsNodup : (s.entities.map Entity.id).Nodup
  relKeysNodup : ∀ e ∈ s.entities, (e.rels.map Prod.fst).Nodup
  treesSorted : ∀ e ∈ s.entities, ∀ p ∈ e.rels, Sorted p.2
  rtSorted : (s.relTypes.map RelType.key).Pairwise (fun a b => strlt a b = true)
  ldrSorted : ∀ d ∈ s.relTypes, Sorted d.leaders
  maxEq : ∀ d ∈ s.relTypes, d.current_maximum = maxDeg s d.key
  maxPos : ∀ d ∈ s.relTypes, 1 ≤ d.current_maximum
  ldrChar : ∀ d ∈ s.relTypes, ∀ x : Ident,
      x ∈ d.leaders ↔ ∃ e ∈ s.entities, e.id = x ∧ deg d.key e = d.current_maximum
  orphan : ∀ ty : Ident, (∀ d ∈ s.relTypes, d.key ≠ ty) → ∀ e ∈ s.entities, deg ty e = 0

/-! ### Sample sessions used by the witnesses -/

/-- The `addent "a"; addent "b"; addrel "a" "b" "r"` (bytes of a, b, r). -/
def sampleCmds : List Cmd :=
  [Cmd.addent [97], Cmd.addent [98], Cmd.addrel [97] [98] [114]]

def sampleSt : St := run initSt sampleCmds

/-! ### Claim C2: the byte-exact `report` format

The following definitions transcribe the specification's wording for the
`report` line (C2's spec side): descriptors in ascending type-name order,
each leader set in ascending order, every token quoted and followed by a
single space, the decimal maximum followed by a semicolon, one final
newline. They are compared with `report`, which was translated from the
code. -/

/-- Spec side: insert an identifier into an ascending list. -/
def specInsertId (x : Ident) : List Ident → List Ident
  | [] => [x]
  | y :: ys => if strlt x y then x :: y :: ys else y :: specInsertId x ys

/-- Spec side: arrange identifiers in ascending byte order. -/
def specSortIds (l : List Ident) : List Ident := l.foldr specInsertId []

/-- Spec side: insert a descriptor into a list ascending by type name. -/
def specInsertRT (d : RelType) : List RelType → List RelType
  | [] => [d]
  | d0 :: rest => if strlt d.key d0.key then d :: d0 :: rest else d0 :: specInsertRT d rest

/-- Spec side: arrange descriptors in ascending type-name order. -/
def specSortRT (l : List RelType) : List RelType := l.foldr specInsertRT []

/-- Spec side: a token surrounded by double quotes (byte 34). -/
def quoted (x : Ident) : List Nat := 34 :: (x ++ [34])

/-- Spec side: the tokens of one descriptor — the quoted type name, the
quoted leaders in ascending order, the decimal maximum with `';'`. -/
def reportSpecTokens (d : RelType) : List (List Nat) :=
  (quoted d.key :: (specSortIds d.leaders).map quoted) ++ [decDigits d.current_maximum ++ [59]]

/-- Spec side of C2: the whole `report` line, every token followed by one
space (the conformance note's trailing space after each `;` included),
terminated by a single newline (byte 10). -/
def reportSpec (s : St) : List Nat :=
  (if s.relTypes.isEmpty then [110, 111, 110, 101]
   else ((specSortRT s.relTypes).map
     (fun d => ((reportSpecTokens d).map (fun tok => tok ++ [32])).flatten)).flatten) ++ [10]

/-- No identifier printed by `report` contains the newline byte. -/
abbrev NoNl (s : St) : Prop :=
  ∀ d ∈ s.relTypes, (∀ b ∈ d.key, b ≠ 10) ∧ (∀ x ∈ d.leaders, ∀ b ∈ x, b ≠ 10)

/-! ### Observational equivalence of states

`addrel` may create an empty `rel_list` entry that `delrel` cannot remove
again, so the pair need not restore the state on the nose. Two states that
differ only in such stale empty entries are indistinguishable: the
following relation makes that precise and is shown to be preserved by
every command. -/

/-- Two `rel_list`s holding the same tree for every type (a stale empty
entry is indistinguishable from a missing one). -/
def erelsEq (r1 r2 : List (Ident × List Ident)) : Prop :=
  ∀ ty : Ident, (lookupA ty r1).getD [] = (lookupA ty r2).getD []

/-- Same id, indistinguishable `rel_list`s. -/
def entEq (e1 e2 : Entity) : Prop := e1.id = e2.id ∧ erelsEq e1.rels e2.rels

/-- Observational equivalence: identical descriptor table, entities equal
up to stale empty `rel_list` entries. -/
def stEq (s1 s2 : St) : Prop :=
  s1.relTypes = s2.relTypes ∧ List.Forall₂ entEq s1.entities s2.entities

/-! ### Claim C8: the command dispatcher

`process_arguments` (src/main.c:454-475) dispatches on the first token and
returns a code; the C handlers mutate the globals, so the embedding returns
the new state together with the code. `process_input` (src/main.c:480-516)
processes one line per newline and stops as soon as the code is -1. -/

def addentTok : Ident := [97, 100, 100, 101, 110, 116]

def delentTok : Ident := [100, 101, 108, 101, 110, 116]

def addrelTok : Ident := [97, 100, 100, 114, 101, 108]

def delrelTok : Ident := [100, 101, 108, 114, 101, 108]

def reportTok : Ident := [114, 101, 112, 111, 114, 116]

def endTok : Ident := [101, 110, 100]

/-- The `process_arguments`: the state after the dispatched handler and the
returned code (`report` writes to stdout and leaves the state alone;
both `end` and an unrecognised command yield -1, src/main.c:469-474). -/
def process_arguments (s : St) (cmd a1 a2 a3 : Ident) : St × Int :=
  if cmd = addentTok then (addent s a1, 0)
  else if cmd = delentTok then (delent s a1, 1)
  else if cmd = addrelTok then (addrel s a1 a2 a3, 2)
  else if cmd = delrelTok then (delrel s a1 a2 a3, 3)
  else if cmd = reportTok then (s, 4)
  else if cmd = endTok then (s, -1)
  else (s, -1)

/-- The newline-driven loop of `process_input`, over already-tokenised
lines: each line calls `process_arguments` (missing arguments are the empty
leftover buffers) and the loop returns — processing nothing further — when
the code is -1. The returned bytes are everything `report` printed. -/
def process_lines (s : St) : List (List Ident) → List Nat
  | [] => []
  | toks :: rest =>
    let r := process_arguments s (toks.getD 0 []) (toks.getD 1 []) (toks.getD 2 [])
      (toks.getD 3 [])
    let out := if toks.getD 0 [] = reportTok then report s else []
    if r.2 = -1 then out else out ++ process_lines r.1 rest

/-- Spec side of C8: an unrecognised command line is skipped and processing
continues; only `end` stops the loop. -/
def process_lines_spec (s : St) : List (List Ident) → List Nat
  | [] => []
  | toks :: rest =>
    let c := toks.getD 0 []
    if c = endTok then []
    else
      let r := process_arguments s c (toks.getD 1 []) (toks.getD 2 []) (toks.getD 3 [])
      let out := if c = reportTok then report s else []
      out ++ process_lines_spec r.1 rest

/-! ### Claim C9: tokenizer buffer writes and the hash function

`process_input` stores every non-quote byte at
`arguments[arg_count][char_count]` in fixed `char arguments[4][100]`
buffers (src/main.c:481, 505-513) and a terminating 0 at the current cell
on each space or newline (src/main.c:493). `tokWrites` lists the cells
written, tracking the two counters exactly; on a newline the loop may also
return (code -1), so the list over-approximates the writes actually
performed — which is the safe direction for an in-bounds statement. -/

def tokWrites : List Nat → Nat → Nat → List (Nat × Nat)
  | [], _, _ => []
  | c :: rest, argc, charc =>
    if c = 32 then (argc, charc) :: tokWrites rest (argc + 1) 0
    else if c = 10 then (argc, charc) :: tokWrites rest 0 0
    else if c = 34 then tokWrites rest argc charc
    else (argc, charc) :: tokWrites rest argc (charc + 1)

/-- The raw bytes of one command line: tokens separated by single spaces,
terminated by a newline. -/
def lineRaw : List Ident → List Nat
  | [] => [10]
  | [tk] => tk ++ [10]
  | tk :: rest => tk ++ 32 :: lineRaw rest

/-- The `char` is signed on the reference platform: bytes at and above 128 read
back as negative values. -/
def signedChar (b : Nat) : Int := if b < 128 then (b : Int) else (b : Int) - 256

/-- The `shift_char_value` (src/main.c:692-700). -/
def shift_char_value (c : Int) : Int :=
  if c = 45 then 1
  else if c = 95 then 2
  else if 65 ≤ c ∧ c ≤ 90 then c - 62
  else if 97 ≤ c ∧ c ≤ 122 then c - 68
  else c

/-- The accumulating sum of `hash_string`: position index times itself
times the shifted character value. -/
def hsum : List Nat → Nat → Int
  | [], _ => 0
  | b :: rest, i => (i : Int) * (i : Int) * shift_char_value (signedChar b) + hsum rest (i + 1)

/-- The `hash_string` (src/main.c:709-719); C's `%` truncates toward zero. -/
def hash_string (x : List Nat) : Int := Int.tmod (hsum x 0) 10000

theorem strlt_irrefl (a : Ident) : strlt a a = false := by
  induction a with
  | nil => rfl
  | cons x xs ih => simp [strlt, ih]

theorem strlt_asymm {a b : Ident} (h : strlt a b = true) : strlt b a = false := by
  induction a generalizing b with
  | nil =>
    cases b with
    | nil => simpa [strlt] using h
    | cons y ys => rfl
  | cons x xs ih =>
    cases b with
    | nil => simp [strlt] at h
    | cons y ys =>
      simp only [strlt] at h ⊢
      by_cases hxy : x < y
      · simp [hxy, Nat.not_lt_of_lt hxy, Nat.ne_of_gt hxy]
      · by_cases hyx : y < x
        · simp [hxy, hyx] at h
        · have hxy' : x = y := Nat.le_antisymm (Nat.le_of_not_lt hyx) (Nat.le_of_not_lt hxy)
          subst hxy'
          simp only [hxy, if_false, hyx] at h ⊢
          simp [ih h]

theorem strlt_trans {a b c : Ident} (h1 : strlt a b = true) (h2 : strlt b c = true) :
    strlt a c = true := by
  induction a generalizing b c with
  | nil =>
    cases b with
    | nil => simp [strlt] at h1
    | cons y ys =>
      cases c with
      | nil => simp [strlt] at h2
      | cons z zs => rfl
  | cons x xs ih =>
    cases b with
    | nil => simp [strlt] at h1
    | cons y ys =>
      cases c with
      | nil => simp [strlt] at h2
      | cons z zs =>
        simp only [strlt] at h1 h2 ⊢
        by_cases hxy : x < y
        · by_cases hyz : y < z
          · have : x < z := Nat.lt_trans hxy hyz
            simp [this]
          · by_cases hzy : z < y
            · simp [hyz, hzy] at h2
            · have : y = z := Nat.le_antisymm (Nat.le_of_not_lt hzy) (Nat.le_of_not_lt hyz)
              subst this
              simp [hxy]
        · by_cases hyx : y < x
          · simp [hxy, hyx] at h1
          · have : x = y := Nat.le_antisymm (Nat.le_of_not_lt hyx) (Nat.le_of_not_lt hxy)
            subst this
            simp only [hxy, if_false] at h1 ⊢
            by_cases hyz : x < z
            · simp [hyz]
            · by_cases hzy : z < x
              · simp [hyz, hzy] at h2
              · have : x = z := Nat.le_antisymm (Nat.le_of_not_lt hzy) (Nat.le_of_not_lt hyz)
                subst this
                simp only [hyz, if_false, hzy] at h1 h2 ⊢
                exact ih h1 h2

theorem strlt_connex {a b : Ident} (h : a ≠ b) : strlt a b = true ∨ strlt b a = true := by
  induction a generalizing b with
  | nil =>
    cases b with
    | nil => exact absurd rfl h
    | cons y ys => exact Or.inl rfl
  | cons x xs ih =>
    cases b with
    | nil => exact Or.inr rfl
    | cons y ys =>
      by_cases hxy : x < y
      · exact Or.inl (by simp [strlt, hxy])
      · by_cases hyx : y < x
        · exact Or.inr (by simp [strlt, hyx])
        · have hx : x = y := Nat.le_antisymm (Nat.le_of_not_lt hyx) (Nat.le_of_not_lt hxy)
          subst hx
          have hxs : xs ≠ ys := fun hh => h (by rw [hh])
          rcases ih hxs with h' | h'
          · exact Or.inl (by simp [strlt, h'])
          · exact Or.inr (by simp [strlt, h'])

theorem strlt_not_both {a b : Ident} (h1 : strlt a b = false) (h2 : strlt b a = false) :
    a = b := by
  by_contra hne
  rcases strlt_connex hne with h | h
  · rw [h1] at h; exact Bool.false_ne_true h
  · rw [h2] at h; exact Bool.false_ne_true h

theorem memb_iff {x : Ident} {l : List Ident} : memb x l = true ↔ x ∈ l := by
  induction l with
  | nil => simp [memb]
  | cons y ys ih =>
    by_cases h : x = y
    · subst h; simp [memb]
    · simp [memb, h, ih]

theorem memb_eq_false_iff {x : Ident} {l : List Ident} : memb x l = false ↔ x ∉ l := by
  rw [← Bool.not_eq_true, not_iff_not]; exact memb_iff

theorem treeInsert_mem {x z : Ident} {l : List Ident} :
    z ∈ treeInsert x l ↔ z = x ∨ z ∈ l := by
  induction l with
  | nil => simp [treeInsert]
  | cons y ys ih =>
    by_cases h : strlt x y
    · simp [treeInsert, h]
    · simp [treeInsert, h, ih]
      tauto

theorem treeInsert_length (x : Ident) (l : List Ident) :
    (treeInsert x l).length = l.length + 1 := by
  induction l with
  | nil => rfl
  | cons y ys ih =>
    by_cases h : strlt x y
    · simp [treeInsert, h]
    · simp [treeInsert, h, ih]

theorem treeInsert_sorted {x : Ident} {l : List Ident} (hs : Sorted l) (hx : x ∉ l) :
    Sorted (treeInsert x l) := by
  induction l with
  | nil => simp [treeInsert, Sorted]
  | cons y ys ih =>
    rcases List.pairwise_cons.mp hs with ⟨hy, hys⟩
    by_cases h : strlt x y
    · simp only [treeInsert, if_pos h]
      refine List.pairwise_cons.mpr ⟨?_, hs⟩
      intro z hz
      rcases List.mem_cons.mp hz with hz | hz
      · subst hz; exact h
      · exact strlt_trans h (hy z hz)
    · have hxy : x ≠ y := fun hh => hx (hh ▸ List.mem_cons_self y ys)
      have hyx : strlt y x = true := by
        rcases strlt_connex hxy with h' | h'
        · rw [h'] at h; exact absurd rfl h
        · exact h'
      simp only [treeInsert, if_neg h]
      refine List.pairwise_cons.mpr ⟨?_, ih hys (fun hh => hx (List.mem_cons_of_mem y hh))⟩
      intro z hz
      rcases treeInsert_mem.mp hz with hz | hz
      · subst hz; exact hyx
      · exact hy z hz

theorem treeErase_mem_of_sorted {x z : Ident} {l : List Ident} (hs : Sorted l) :
    z ∈ treeErase x l ↔ z ∈ l ∧ z ≠ x := by
  induction l with
  | nil => simp [treeErase]
  | cons y ys ih =>
    rcases List.pairwise_cons.mp hs with ⟨hy, hys⟩
    by_cases h : x = y
    · subst h
      simp only [treeErase, if_pos rfl]
      constructor
      · intro hz
        refine ⟨List.mem_cons_of_mem _ hz, ?_⟩
        intro hzx; subst hzx
        have := hy z hz
        rw [strlt_irrefl] at this
        exact Bool.false_ne_true this
      · rintro ⟨hz, hzx⟩
        rcases List.mem_cons.mp hz with hz | hz
        · exact absurd hz hzx
        · exact hz
    · simp only [treeErase, if_neg h]
      constructor
      · intro hz
        rcases List.mem_cons.mp hz with hz | hz
        · exact ⟨by simp [hz], fun hzx => h (by rw [← hzx, hz])⟩
        · rcases (ih hys).mp hz with ⟨h1, h2⟩
          exact ⟨List.mem_cons_of_mem y h1, h2⟩
      · rintro ⟨hz, hzx⟩
        rcases List.mem_cons.mp hz with hz | hz
        · exact hz ▸ List.mem_cons_self y _
        · exact List.mem_cons_of_mem y ((ih hys).mpr ⟨hz, hzx⟩)

theorem treeErase_sorted {x : Ident} {l : List Ident} (hs : Sorted l) :
    Sorted (treeErase x l) := by
  induction l with
  | nil => simpa [treeErase] using hs
  | cons y ys ih =>
    rcases List.pairwise_cons.mp hs with ⟨hy, hys⟩
    by_cases h : x = y
    · simpa [treeErase, h] using hys
    · simp only [treeErase, if_neg h]
      refine List.pairwise_cons.mpr ⟨?_, ih hys⟩
      intro z hz
      exact hy z ((treeErase_mem_of_sorted hys).mp hz).1

theorem treeErase_length_of_mem {x : Ident} {l : List Ident} (h : x ∈ l) :
    (treeErase x l).length + 1 = l.length := by
  induction l with
  | nil => simp at h
  | cons y ys ih =>
    by_cases hxy : x = y
    · simp [treeErase, hxy]
    · rcases List.mem_cons.mp h with h | h
      · exact absurd h hxy
      · simp [treeErase, hxy, ih h]

theorem treeErase_not_mem {x : Ident} {l : List Ident} (h : x ∉ l) :
    treeErase x l = l := by
  induction l with
  | nil => rfl
  | cons y ys ih =>
    have hxy : x ≠ y := fun hh => h (hh ▸ List.mem_cons_self y ys)
    simp only [treeErase, if_neg hxy]
    rw [ih (fun hh => h (List.mem_cons_of_mem y hh))]

/-- Two strictly sorted lists with the same members are equal. -/
theorem sorted_ext {l1 l2 : List Ident} (h1 : Sorted l1) (h2 : Sorted l2)
    (h : ∀ x, x ∈ l1 ↔ x ∈ l2) : l1 = l2 := by
  induction l1 generalizing l2 with
  | nil =>
    cases l2 with
    | nil => rfl
    | cons y ys => exact absurd ((h y).mpr (List.mem_cons_self y ys)) (List.not_mem_nil y)
  | cons x xs ih =>
    cases l2 with
    | nil => exact absurd ((h x).mp (List.mem_cons_self x xs)) (List.not_mem_nil x)
    | cons y ys =>
      rcases List.pairwise_cons.mp h1 with ⟨hx, hxs⟩
      rcases List.pairwise_cons.mp h2 with ⟨hy, hys⟩
      have hxy : x = y := by
        by_contra hne
        rcases strlt_connex hne with hlt | hlt
        · rcases List.mem_cons.mp ((h x).mp (List.mem_cons_self x xs)) with hh | hh
          · exact hne hh
          · have := hy x hh
            rw [strlt_asymm hlt] at this
            exact Bool.false_ne_true this
        · rcases List.mem_cons.mp ((h y).mpr (List.mem_cons_self y ys)) with hh | hh
          · exact hne hh.symm
          · have := hx y hh
            rw [strlt_asymm hlt] at this
            exact Bool.false_ne_true this
      subst hxy
      have hmem : ∀ z, z ∈ xs ↔ z ∈ ys := by
        intro z
        constructor
        · intro hz
          rcases List.mem_cons.mp ((h z).mp (List.mem_cons_of_mem x hz)) with hh | hh
          · subst hh
            have := hx z hz
            rw [strlt_irrefl] at this
            exact absurd this Bool.false_ne_true
          · exact hh
        · intro hz
          rcases List.mem_cons.mp ((h z).mpr (List.mem_cons_of_mem x hz)) with hh | hh
          · subst hh
            have := hy z hz
            rw [strlt_irrefl] at this
            exact absurd this Bool.false_ne_true
          · exact hh
      rw [ih hxs hys hmem]

theorem sorted_nodup {l : List Ident} (h : Sorted l) : l.Nodup := by
  refine h.imp ?_
  intro a b hab
  intro he
  subst he
  rw [strlt_irrefl] at hab
  exact Bool.false_ne_true hab

theorem lookupA_setA_self {k : Ident} {v : List Ident} {l : List (Ident × List Ident)}
    (h : (lookupA k l).isSome) : lookupA k (setA k v l) = some v := by
  induction l with
  | nil => simp [lookupA] at h
  | cons p rest ih =>
    obtain ⟨k', v'⟩ := p
    by_cases hk : k = k'
    · simp [lookupA, setA, hk]
    · simp only [lookupA, setA, if_neg hk]
      exact ih (by simpa [lookupA, if_neg hk] using h)

theorem lookupA_setA_other {k k0 : Ident} {v : List Ident} {l : List (Ident × List Ident)}
    (h : k0 ≠ k) : lookupA k0 (setA k v l) = lookupA k0 l := by
  induction l with
  | nil => rfl
  | cons p rest ih =>
    obtain ⟨k', v'⟩ := p
    by_cases hk : k = k'
    · subst hk
      simp [lookupA, setA, if_neg h]
    · by_cases hk0 : k0 = k'
      · simp [lookupA, setA, if_neg hk, hk0]
      · simp [lookupA, setA, if_neg hk, if_neg hk0, ih]

theorem lookupA_setA_none {k : Ident} {v : List Ident} {l : List (Ident × List Ident)}
    (h : lookupA k l = none) : setA k v l = l := by
  induction l with
  | nil => rfl
  | cons p rest ih =>
    obtain ⟨k', v'⟩ := p
    by_cases hk : k = k'
    · simp [lookupA, hk] at h
    · simp only [setA, if_neg hk]
      rw [ih (by simpa [lookupA, if_neg hk] using h)]

theorem setA_keys (k : Ident) (v : List Ident) (l : List (Ident × List Ident)) :
    (setA k v l).map Prod.fst = l.map Prod.fst := by
  induction l with
  | nil => rfl
  | cons p rest ih =>
    obtain ⟨k', v'⟩ := p
    by_cases hk : k = k'
    · simp [setA, hk]
    · simp [setA, if_neg hk, ih]

/-! ### Basic lemmas about the state accessors -/

theorem hash_search_eq_some {s : St} {i : Ident} {e : Entity}
    (h : hash_search s i = some e) : e ∈ s.entities ∧ e.id = i := by
  have h1 := List.mem_of_find?_eq_some h
  have h2 := List.find?_some h
  simp only [decide_eq_true_eq] at h2
  exact ⟨h1, h2⟩

theorem hash_search_eq_none {s : St} {i : Ident}
    (h : hash_search s i = none) : ∀ e ∈ s.entities, e.id ≠ i := by
  intro e he
  have := List.find?_eq_none.mp h e he
  simpa using this

theorem hash_search_isSome {s : St} {i : Ident} {e : Entity}
    (he : e ∈ s.entities) (hid : e.id = i) : (hash_search s i).isSome := by
  cases hh : hash_search s i with
  | some _ => rfl
  | none => exact absurd hid (hash_search_eq_none hh e he)

theorem list_search_rt_eq_some {l : List RelType} {k : Ident} {d : RelType}
    (h : list_search_rt l k = some d) : d ∈ l ∧ d.key = k := by
  have h1 := List.mem_of_find?_eq_some h
  have h2 := List.find?_some h
  simp only [decide_eq_true_eq] at h2
  exact ⟨h1, h2⟩

theorem list_search_rt_eq_none {l : List RelType} {k : Ident}
    (h : list_search_rt l k = none) : ∀ d ∈ l, d.key ≠ k := by
  intro d hd
  have := List.find?_eq_none.mp h d hd
  simpa using this

theorem list_search_rt_isSome {l : List RelType} {k : Ident} {d : RelType}
    (hd : d ∈ l) (hk : d.key = k) : (list_search_rt l k).isSome := by
  cases hh : list_search_rt l k with
  | some _ => rfl
  | none => exact absurd hk (list_search_rt_eq_none hh d hd)

/-- With duplicate-free keys, a member with the searched key is the found one. -/
theorem list_search_rt_unique {l : List RelType} {k : Ident} {d d' : RelType}
    (hnd : (l.map RelType.key).Nodup)
    (h : list_search_rt l k = some d) (hd' : d' ∈ l) (hk' : d'.key = k) : d' = d := by
  induction l with
  | nil => simp at hd'
  | cons d0 rest ih =>
    rw [List.map_cons] at hnd
    rcases List.nodup_cons.mp hnd with ⟨h0, hrest⟩
    by_cases hk0 : d0.key = k
    · have hd0 : d = d0 := by
        have hh : list_search_rt (d0 :: rest) k = some d0 := by
          simp [list_search_rt, List.find?, hk0]
        rw [hh] at h
        exact (Option.some_inj.mp h).symm
      subst hd0
      rcases List.mem_cons.mp hd' with h1 | h1
      · exact h1
      · refine absurd ?_ h0
        have hmem := List.mem_map_of_mem RelType.key h1
        rw [hk', ← hk0] at hmem
        exact hmem
    · have hfind : list_search_rt (d0 :: rest) k = list_search_rt rest k := by
        simp [list_search_rt, List.find?, hk0]
      rcases List.mem_cons.mp hd' with h1 | h1
      · exact absurd (h1 ▸ hk') hk0
      · exact ih hrest (hfind ▸ h) h1

theorem mem_updEnt {ents : List Entity} {i : Ident} {f : Entity → Entity} {e' : Entity} :
    e' ∈ updEnt ents i f ↔ ∃ e ∈ ents, e' = if e.id = i then f e else e := by
  simp [updEnt, List.mem_map, eq_comm]

theorem updEnt_map_id {ents : List Entity} {i : Ident} {f : Entity → Entity}
    (hf : ∀ e, (f e).id = e.id) : (updEnt ents i f).map Entity.id = ents.map Entity.id := by
  simp only [updEnt, List.map_map]
  refine List.map_congr_left ?_
  intro e _
  by_cases h : e.id = i <;> simp [h, hf]

theorem mem_updRT {l : List RelType} {k : Ident} {f : RelType → RelType} {d' : RelType} :
    d' ∈ updRT l k f ↔ ∃ d ∈ l, d' = if d.key = k then f d else d := by
  simp [updRT, List.mem_map, eq_comm]

theorem updRT_map_key {l : List RelType} {k : Ident} {f : RelType → RelType}
    (hf : ∀ d, (f d).key = d.key) : (updRT l k f).map RelType.key = l.map RelType.key := by
  simp only [updRT, List.map_map]
  refine List.map_congr_left ?_
  intro d _
  by_cases h : d.key = k <;> simp [h, hf]

theorem list_search_rt_updRT_self {l : List RelType} {k : Ident} {f : RelType → RelType}
    (hf : ∀ d, (f d).key = d.key) :
    list_search_rt (updRT l k f) k = (list_search_rt l k).map f := by
  induction l with
  | nil => rfl
  | cons d rest ih =>
    by_cases h : d.key = k
    · simp [list_search_rt, updRT, List.find?, h, hf]
    · simp only [list_search_rt, updRT, List.map_cons, if_neg h, List.find?] at ih ⊢
      simp only [h, decide_False]
      exact ih

theorem list_delete_sublist (l : List RelType) (k : Ident) : (list_delete l k).Sublist l := by
  induction l with
  | nil => simp [list_delete]
  | cons d rest ih =>
    by_cases h : d.key = k
    · simp only [list_delete, if_pos h]
      exact List.sublist_cons_self d rest
    · simp only [list_delete, if_neg h]
      exact ih.cons₂ d

theorem mem_list_delete {l : List RelType} {k : Ident} {d' : RelType}
    (hnd : (l.map RelType.key).Nodup) :
    d' ∈ list_delete l k ↔ d' ∈ l ∧ d'.key ≠ k := by
  induction l with
  | nil => simp [list_delete]
  | cons d rest ih =>
    rw [List.map_cons] at hnd
    rcases List.nodup_cons.mp hnd with ⟨h0, hrest⟩
    by_cases h : d.key = k
    · simp only [list_delete, if_pos h]
      constructor
      · intro hd'
        refine ⟨List.mem_cons_of_mem _ hd', ?_⟩
        intro hk
        rw [← h] at hk
        exact h0 (hk ▸ List.mem_map_of_mem RelType.key hd')
      · rintro ⟨hd', hk⟩
        rcases List.mem_cons.mp hd' with h1 | h1
        · exact absurd (h ▸ congrArg RelType.key h1) hk
        · exact h1
    · simp only [list_delete, if_neg h, List.mem_cons, ih hrest]
      constructor
      · rintro (h1 | ⟨h1, h2⟩)
        · exact ⟨Or.inl h1, h1 ▸ h⟩
        · exact ⟨Or.inr h1, h2⟩
      · rintro ⟨h1 | h1, h2⟩
        · exact Or.inl h1
        · exact Or.inr ⟨h1, h2⟩

theorem list_insert_mem {l : List RelType} {k : Ident} {d' : RelType} :
    d' ∈ list_insert l k ↔ d' = ⟨k, [], 0⟩ ∨ d' ∈ l := by
  induction l with
  | nil => simp [list_insert]
  | cons d rest ih =>
    by_cases h : strlt d.key k
    · simp only [list_insert, if_pos h, List.mem_cons, ih]
      tauto
    · simp [list_insert, if_neg h]

theorem list_insert_map_key {l : List RelType} {k : Ident}
    (hk : k ∉ l.map RelType.key) :
    (list_insert l k).map RelType.key = treeInsert k (l.map RelType.key) := by
  induction l with
  | nil => rfl
  | cons d rest ih =>
    rw [List.map_cons] at hk
    have hk1 : k ≠ d.key := fun hh => hk (hh ▸ List.mem_cons_self _ _)
    have hk2 : k ∉ rest.map RelType.key := fun hh => hk (List.mem_cons_of_mem _ hh)
    by_cases h : strlt d.key k
    · have h' : strlt k d.key = false := strlt_asymm h
      simp [list_insert, treeInsert, h, h', ih hk2]
    · by_cases h2 : strlt k d.key
      · simp [list_insert, treeInsert, h, h2]
      · have hf1 : strlt k d.key = false := by simpa using h2
        have hf2 : strlt d.key k = false := by simpa using h
        exact absurd (strlt_not_both hf1 hf2) hk1

/-! ### `maxDeg` as a fold: bounds and attainment -/

theorem le_foldr_max {a : Nat} {l : List Nat} (h : a ∈ l) : a ≤ l.foldr max 0 := by
  induction l with
  | nil => simp at h
  | cons b rest ih =>
    rcases List.mem_cons.mp h with h | h
    · subst h; exact Nat.le_max_left _ _
    · exact Nat.le_trans (ih h) (Nat.le_max_right _ _)

theorem foldr_max_le {n : Nat} {l : List Nat} (h : ∀ a ∈ l, a ≤ n) : l.foldr max 0 ≤ n := by
  induction l with
  | nil => simp
  | cons b rest ih =>
    simp only [List.foldr_cons]
    exact Nat.max_le.mpr ⟨h b (List.mem_cons_self b rest), ih fun a ha => h a (List.mem_cons_of_mem b ha)⟩

theorem foldr_max_attained {l : List Nat} (h : l.foldr max 0 ≠ 0) : l.foldr max 0 ∈ l := by
  induction l with
  | nil => simp at h
  | cons b rest ih =>
    simp only [List.foldr_cons] at h ⊢
    by_cases hb : rest.foldr max 0 ≤ b
    · rw [Nat.max_eq_left hb]
      exact List.mem_cons_self b rest
    · have hlt : b < rest.foldr max 0 := Nat.lt_of_not_le hb
      rw [Nat.max_eq_right (Nat.le_of_lt hlt)] at h ⊢
      exact List.mem_cons_of_mem b (ih h)

theorem deg_le_maxDegL {ents : List Entity} {ty : Ident} {e : Entity} (he : e ∈ ents) :
    deg ty e ≤ maxDegL ents ty :=
  le_foldr_max (List.mem_map_of_mem (deg ty) he)

theorem maxDegL_le {ents : List Entity} {ty : Ident} {n : Nat}
    (h : ∀ e ∈ ents, deg ty e ≤ n) : maxDegL ents ty ≤ n := by
  refine foldr_max_le ?_
  intro a ha
  rcases List.mem_map.mp ha with ⟨e, he, rfl⟩
  exact h e he

theorem maxDegL_attained {ents : List Entity} {ty : Ident} (h : maxDegL ents ty ≠ 0) :
    ∃ e ∈ ents, deg ty e = maxDegL ents ty := by
  rcases List.mem_map.mp (foldr_max_attained h) with ⟨e, he, hd⟩
  exact ⟨e, he, hd⟩

theorem deg_le_maxDeg {s : St} {y : Ident} {e : Entity} (he : e ∈ s.entities) :
    deg y e ≤ maxDeg s y := deg_le_maxDegL he

theorem maxDeg_le {s : St} {ty : Ident} {n : Nat} (h : ∀ e ∈ s.entities, deg ty e ≤ n) :
    maxDeg s ty ≤ n := maxDegL_le h

theorem maxDeg_attained {s : St} {y : Ident} (h : maxDeg s y ≠ 0) :
    ∃ e ∈ s.entities, deg y e = maxDeg s y := maxDegL_attained h

theorem rtKeysNodup {s : St} (hInv : Inv s) : (s.relTypes.map RelType.key).Nodup := by
  refine hInv.rtSorted.imp ?_
  intro a b hab he
  subst he
  rw [strlt_irrefl] at hab
  exact Bool.false_ne_true hab

theorem inv_initSt : Inv initSt := by
  constructor <;> simp [initSt]

/-! ### Characterisation of the `restore_data_maximum` scan -/

theorem deg_of_lookup_none {ty : Ident} {e : Entity} (h : lookupA ty e.rels = none) :
    deg ty e = 0 := by simp [deg, h]

theorem deg_of_lookup_some {ty : Ident} {e : Entity} {tree : List Ident}
    (h : lookupA ty e.rels = some tree) : deg ty e = tree.length := by simp [deg, h]

/-- What one pass of the `restore_data_maximum` loop computes, starting from
running maximum `cm` and (possibly stale) tree `ldr`: the final maximum is
`max cm` (the maximum in-degree among the scanned entities), the final tree
is sorted, it is the untouched `ldr` exactly when the final maximum is 0,
and otherwise contains exactly the achievers of the final maximum (plus the
initial tree if the running maximum was never beaten).  The precondition
`cm = 0 ∨ …` says any non-trivial starting tree avoids the scanned ids. -/
theorem restoreScan_spec (ty : Ident) (ents : List Entity) :
    ∀ (cm : Nat) (ldr : List Ident),
    (ents.map Entity.id).Nodup →
    Sorted ldr →
    (cm = 0 ∨ ∀ e ∈ ents, e.id ∉ ldr) →
    (restoreScan ty ents cm ldr).1 = max cm ((ents.map (deg ty)).foldr max 0) ∧
    Sorted (restoreScan ty ents cm ldr).2 ∧
    ((restoreScan ty ents cm ldr).1 = 0 → (restoreScan ty ents cm ldr).2 = ldr) ∧
    ((restoreScan ty ents cm ldr).1 ≠ 0 → ∀ x : Ident,
       x ∈ (restoreScan ty ents cm ldr).2 ↔
         ((cm = (restoreScan ty ents cm ldr).1 ∧ x ∈ ldr) ∨
          ∃ e ∈ ents, e.id = x ∧ deg ty e = (restoreScan ty ents cm ldr).1)) := by
  induction ents with
  | nil =>
    intro cm ldr hnd hs hg
    refine ⟨by simp [restoreScan], by simpa [restoreScan] using hs, ?_, ?_⟩
    · intro _; simp [restoreScan]
    · intro _ x
      simp [restoreScan]
  | cons e rest ih =>
    intro cm ldr hnd hs hg
    rw [List.map_cons] at hnd
    rcases List.nodup_cons.mp hnd with ⟨hid, hndr⟩
    have hgr : ∀ {l' : List Ident}, (∀ e' ∈ e :: rest, e'.id ∉ l') →
        ∀ e' ∈ rest, e'.id ∉ l' :=
      fun hall e' he' => hall e' (List.mem_cons_of_mem e he')
    cases hl : lookupA ty e.rels with
    | none =>
      have hde : deg ty e = 0 := deg_of_lookup_none hl
      have heq : restoreScan ty (e :: rest) cm ldr = restoreScan ty rest cm ldr := by
        simp [restoreScan, hl]
      obtain ⟨ih1, ih2, ih3, ih4⟩ := ih cm ldr hndr hs
        (hg.imp id fun hall => hgr hall)
      rw [heq]
      refine ⟨?_, ih2, ih3, ?_⟩
      · rw [ih1, List.map_cons, List.foldr_cons, hde, Nat.zero_max]
      · intro hne x
        rw [ih4 hne x, List.exists_mem_cons_iff]
        constructor
        · rintro (h1 | h1)
          · exact Or.inl h1
          · exact Or.inr (Or.inr h1)
        · rintro (h1 | ⟨_, h1⟩ | h1)
          · exact Or.inl h1
          · rw [hde] at h1; exact absurd h1.symm hne
          · exact Or.inr h1
    | some tree =>
      have hde : deg ty e = tree.length := deg_of_lookup_some hl
      by_cases hc1 : tree.length > 0 ∧ tree.length = cm
      · -- tied with the running maximum: add the entity to the tree
        have hcm0 : cm ≠ 0 := by omega
        have hall : ∀ e' ∈ e :: rest, e'.id ∉ ldr := by
          rcases hg with h0 | h0
          · exact absurd h0 hcm0
          · exact h0
        have heid : e.id ∉ ldr := hall e (List.mem_cons_self e rest)
        have heq : restoreScan ty (e :: rest) cm ldr
            = restoreScan ty rest cm (treeInsert e.id ldr) := by
          simp only [restoreScan, hl]
          rw [if_pos hc1]
        have hg' : ∀ e' ∈ rest, e'.id ∉ treeInsert e.id ldr := by
          intro e' he' hmem
          rcases treeInsert_mem.mp hmem with h1 | h1
          · exact hid (h1 ▸ List.mem_map_of_mem Entity.id he')
          · exact hgr hall e' he' h1
        obtain ⟨ih1, ih2, ih3, ih4⟩ := ih cm (treeInsert e.id ldr) hndr
          (treeInsert_sorted hs heid) (Or.inr hg')
        rw [heq]
        have hM : (restoreScan ty rest cm (treeInsert e.id ldr)).1
            = max cm ((List.map (deg ty) (e :: rest)).foldr max 0) := by
          rw [ih1, List.map_cons, List.foldr_cons, hde, hc1.2, ← Nat.max_assoc, Nat.max_self]
        have hMne : (restoreScan ty rest cm (treeInsert e.id ldr)).1 ≠ 0 := by
          rw [ih1]; omega
        refine ⟨hM, ih2, fun h0 => absurd h0 hMne, ?_⟩
        intro _ x
        rw [ih4 hMne x, List.exists_mem_cons_iff]
        constructor
        · rintro (⟨hcmM, h1⟩ | h1)
          · rcases treeInsert_mem.mp h1 with h2 | h2
            · exact Or.inr (Or.inl ⟨h2.symm, by omega⟩)
            · exact Or.inl ⟨hcmM, h2⟩
          · exact Or.inr (Or.inr h1)
        · rintro (⟨hcmM, h1⟩ | ⟨h1, h2⟩ | h1)
          · exact Or.inl ⟨hcmM, treeInsert_mem.mpr (Or.inr h1)⟩
          · exact Or.inl ⟨by omega, treeInsert_mem.mpr (Or.inl h1.symm)⟩
          · exact Or.inr h1
      · by_cases hc2 : tree.length > cm
        · -- new strict maximum: restart the tree from this entity alone
          have heq : restoreScan ty (e :: rest) cm ldr
              = restoreScan ty rest tree.length [e.id] := by
            simp only [restoreScan, hl]
            rw [if_neg hc1, if_pos hc2]
          have hg' : ∀ e' ∈ rest, e'.id ∉ ([e.id] : List Ident) := by
            intro e' he' hmem
            rcases List.mem_singleton.mp hmem with h1
            exact hid (h1 ▸ List.mem_map_of_mem Entity.id he')
          obtain ⟨ih1, ih2, ih3, ih4⟩ := ih tree.length [e.id] hndr
            (by simp [Sorted]) (Or.inr hg')
          rw [heq]
          have hM : (restoreScan ty rest tree.length [e.id]).1
              = max cm ((List.map (deg ty) (e :: rest)).foldr max 0) := by
            rw [ih1, List.map_cons, List.foldr_cons, hde, ← Nat.max_assoc,
              Nat.max_eq_right (Nat.le_of_lt hc2)]
          have hMne : (restoreScan ty rest tree.length [e.id]).1 ≠ 0 := by
            rw [ih1]; omega
          refine ⟨hM, ih2, fun h0 => absurd h0 hMne, ?_⟩
          intro _ x
          have hcmne : cm ≠ (restoreScan ty rest tree.length [e.id]).1 := by
            rw [ih1]; omega
          rw [ih4 hMne x, List.exists_mem_cons_iff]
          constructor
          · rintro (⟨hlenM, h1⟩ | h1)
            · rcases List.mem_singleton.mp h1 with h2
              exact Or.inr (Or.inl ⟨h2.symm, by omega⟩)
            · exact Or.inr (Or.inr h1)
          · rintro (⟨hcmM, _⟩ | ⟨h1, h2⟩ | h1)
            · exact absurd hcmM hcmne
            · exact Or.inl ⟨by omega, List.mem_singleton.mpr h1.symm⟩
            · exact Or.inr h1
        · -- below the running maximum (or an empty tree): skip
          have heq : restoreScan ty (e :: rest) cm ldr = restoreScan ty rest cm ldr := by
            simp only [restoreScan, hl]
            rw [if_neg hc1, if_neg hc2]
          obtain ⟨ih1, ih2, ih3, ih4⟩ := ih cm ldr hndr hs
            (hg.imp id fun hall => hgr hall)
          rw [heq]
          have hlen : tree.length ≤ cm := by omega
          have hM : (restoreScan ty rest cm ldr).1
              = max cm ((List.map (deg ty) (e :: rest)).foldr max 0) := by
            rw [ih1, List.map_cons, List.foldr_cons, hde, ← Nat.max_assoc,
              Nat.max_eq_left hlen]
          refine ⟨hM, ih2, ih3, ?_⟩
          intro hne x
          have hdegne : deg ty e ≠ (restoreScan ty rest cm ldr).1 := by
            rw [ih1, hde]
            rcases Nat.eq_zero_or_pos tree.length with h0 | h0
            · rw [ih1] at hne; omega
            · omega
          rw [ih4 hne x, List.exists_mem_cons_iff]
          constructor
          · rintro (h1 | h1)
            · exact Or.inl h1
            · exact Or.inr (Or.inr h1)
          · rintro (h1 | ⟨_, h1⟩ | h1)
            · exact Or.inl h1
            · exact absurd h1 hdegne
            · exact Or.inr h1

/-! ### Further structural lemmas -/

theorem lookupA_eq_none_iff {k : Ident} {l : List (Ident × List Ident)} :
    lookupA k l = none ↔ k ∉ l.map Prod.fst := by
  induction l with
  | nil => simp [lookupA]
  | cons p rest ih =>
    obtain ⟨k', v'⟩ := p
    by_cases h : k = k'
    · simp [lookupA, h]
    · simp [lookupA, h, ih]

theorem lookupA_isSome_iff {k : Ident} {l : List (Ident × List Ident)} :
    (lookupA k l).isSome ↔ k ∈ l.map Prod.fst := by
  constructor
  · intro h
    by_contra hk
    rw [lookupA_eq_none_iff.mpr hk] at h
    simp at h
  · intro h
    cases hl : lookupA k l with
    | some _ => rfl
    | none => exact absurd h (lookupA_eq_none_iff.mp hl)

theorem mem_setA {k : Ident} {v : List Ident} {l : List (Ident × List Ident)} {p} :
    p ∈ setA k v l → p = (k, v) ∨ p ∈ l := by
  induction l with
  | nil => intro h; simp [setA] at h
  | cons q rest ih =>
    obtain ⟨k', v'⟩ := q
    by_cases h : k = k'
    · simp only [setA, if_pos h]
      intro h1
      rcases List.mem_cons.mp h1 with h2 | h2
      · exact Or.inl h2
      · exact Or.inr (List.mem_cons_of_mem _ h2)
    · simp only [setA, if_neg h]
      intro h1
      rcases List.mem_cons.mp h1 with h2 | h2
      · exact Or.inr (h2 ▸ List.mem_cons_self _ _)
      · rcases ih h2 with h3 | h3
        · exact Or.inl h3
        · exact Or.inr (List.mem_cons_of_mem _ h3)

/-- Duplicate-free ids make the entity of a given id unique. -/
theorem entity_id_unique {ents : List Entity} (hnd : (ents.map Entity.id).Nodup)
    {e1 e2 : Entity} (h1 : e1 ∈ ents) (h2 : e2 ∈ ents) (h : e1.id = e2.id) : e1 = e2 := by
  induction ents with
  | nil => simp at h1
  | cons e rest ih =>
    rw [List.map_cons] at hnd
    rcases List.nodup_cons.mp hnd with ⟨h0, hrest⟩
    rcases List.mem_cons.mp h1 with ha | ha <;> rcases List.mem_cons.mp h2 with hb | hb
    · rw [ha, hb]
    · subst ha
      exact absurd (h ▸ List.mem_map_of_mem Entity.id hb) h0
    · subst hb
      exact absurd (h ▸ List.mem_map_of_mem Entity.id ha) h0
    · exact ih hrest ha hb

/-- Membership in an `updEnt` image when the target id is unique. -/
theorem mem_updEnt_iff_of_nodup {ents : List Entity} {t : Ident} {g : Entity → Entity}
    {te : Entity} (hnd : (ents.map Entity.id).Nodup) (hte : te ∈ ents) (hid : te.id = t) :
    ∀ e', e' ∈ updEnt ents t g ↔ e' = g te ∨ ∃ e ∈ ents, e.id ≠ t ∧ e' = e := by
  intro e'
  rw [mem_updEnt]
  constructor
  · rintro ⟨e, he, rfl⟩
    by_cases h : e.id = t
    · have : e = te := entity_id_unique hnd he hte (h.trans hid.symm)
      subst this
      exact Or.inl (by rw [if_pos h])
    · exact Or.inr ⟨e, he, h, by rw [if_neg h]⟩
  · rintro (rfl | ⟨e, he, hne, heq⟩)
    · exact ⟨te, hte, (if_pos hid).symm⟩
    · subst heq
      exact ⟨e', he, (if_neg hne).symm⟩

theorem gte_mem_updEnt {ents : List Entity} {t : Ident} {g : Entity → Entity}
    {te : Entity} (hte : te ∈ ents) (hid : te.id = t) : g te ∈ updEnt ents t g := by
  rw [mem_updEnt]
  exact ⟨te, hte, by rw [if_pos hid]⟩

/-- The `updEnt` leaves `maxDegL` for a type unchanged if the rewrite preserves
the target's degree for that type. -/
theorem maxDegL_updEnt_other {ents : List Entity} {t : Ident} {g : Entity → Entity}
    {ty' : Ident} (hnd : (ents.map Entity.id).Nodup)
    (h : ∀ e ∈ ents, e.id = t → deg ty' (g e) = deg ty' e) :
    maxDegL (updEnt ents t g) ty' = maxDegL ents ty' := by
  unfold maxDegL updEnt
  rw [List.map_map]
  congr 1
  refine List.map_congr_left ?_
  intro e he
  by_cases hh : e.id = t
  · simp [hh, h e he hh]
  · simp [hh]

theorem list_search_rt_list_insert_self {l : List RelType} {k : Ident}
    (hk : ∀ d ∈ l, d.key ≠ k) : list_search_rt (list_insert l k) k = some ⟨k, [], 0⟩ := by
  induction l with
  | nil => simp [list_insert, list_search_rt, List.find?]
  | cons d rest ih =>
    by_cases h : strlt d.key k
    · have hdk : d.key ≠ k := hk d (List.mem_cons_self d rest)
      simp only [list_insert, if_pos h, list_search_rt, List.find?, hdk, decide_False]
      exact ih fun d' hd' => hk d' (List.mem_cons_of_mem d hd')
    · simp [list_insert, if_neg h, list_search_rt, List.find?]

/-! ### `restore_data_maximum` at the state level -/

/-- What `restore_data_maximum` does to a state whose descriptor for `ty`
exists: if no live entity has a relation of this type any more, the
descriptor is unlinked; otherwise its `current_maximum` becomes the true
maximum and its tree becomes exactly the sorted list of entities achieving
it. -/
theorem restore_spec {s : St} {ty : Ident} {d : RelType}
    (hd : list_search_rt s.relTypes ty = some d)
    (hnd : (s.entities.map Entity.id).Nodup)
    (hsort : Sorted d.leaders) :
    (maxDeg s ty = 0 →
      restore_data_maximum s ty = { s with relTypes := list_delete s.relTypes ty }) ∧
    (maxDeg s ty ≠ 0 → ∃ L : List Ident, Sorted L ∧
      (∀ x : Ident, x ∈ L ↔ ∃ e ∈ s.entities, e.id = x ∧ deg ty e = maxDeg s ty) ∧
      restore_data_maximum s ty = { s with relTypes :=
        (updRT s.relTypes ty
          (fun d0 => { d0 with current_maximum := maxDeg s ty, leaders := L })) }) := by
  obtain ⟨h1, h2, h3, h4⟩ := restoreScan_spec ty s.entities 0 d.leaders hnd hsort (Or.inl rfl)
  have hM : (restoreScan ty s.entities 0 d.leaders).1 = maxDeg s ty := by
    rw [h1, Nat.zero_max]; rfl
  constructor
  · intro h0
    have hr1 : (restoreScan ty s.entities 0 d.leaders).1 = 0 := by rw [hM, h0]
    simp only [restore_data_maximum, hd]
    rw [if_pos hr1]
  · intro h0
    have hr1 : (restoreScan ty s.entities 0 d.leaders).1 ≠ 0 := by rw [hM]; exact h0
    refine ⟨(restoreScan ty s.entities 0 d.leaders).2, h2, ?_, ?_⟩
    · intro x
      rw [h4 hr1 x, hM]
      constructor
      · rintro (⟨h5, _⟩ | h5)
        · exact absurd h5.symm h0
        · exact h5
      · intro h5
        exact Or.inr h5
    · simp only [restore_data_maximum, hd]
      rw [if_neg hr1, hM]

/-! ### Unfolding `addrel` -/

theorem addrel_no_from {s : St} {f t ty : Ident} (hf : hash_search s f = none) :
    addrel s f t ty = s := by
  cases ht : hash_search s t <;> simp only [addrel, hf, ht]

theorem addrel_no_to {s : St} {f t ty : Ident} (ht : hash_search s t = none) :
    addrel s f t ty = s := by
  cases hf : hash_search s f <;> simp only [addrel, hf, ht]

/-- The exact result of `addrel` when both entities exist and the relation
is not yet present, parameterised by the target's rewritten `rel_list`
(`rels2`) and the new tree size (`k`). -/
theorem addrel_eq_of {s : St} {f t ty : Ident} {fe te : Entity}
    {rels2 : List (Ident × List Ident)} {k : Nat}
    (hf : hash_search s f = some fe) (ht : hash_search s t = some te)
    (hmem : memb f ((lookupA ty te.rels).getD []) = false)
    (hrels2 : rels2 = (match lookupA ty te.rels with
      | some _ => setA ty (treeInsert f ((lookupA ty te.rels).getD [])) te.rels
      | none => (ty, treeInsert f []) :: te.rels))
    (hk : k = ((lookupA ty te.rels).getD []).length + 1) :
    addrel s f t ty = (match list_search_rt s.relTypes ty with
      | some d =>
          if k = d.current_maximum then
            if memb t d.leaders then
              { entities := updEnt s.entities t (fun e => { e with rels := rels2 }),
                relTypes := s.relTypes }
            else
              { entities := updEnt s.entities t (fun e => { e with rels := rels2 }),
                relTypes := (updRT s.relTypes ty
                  (fun d0 => { d0 with leaders := treeInsert t d0.leaders })) }
          else if k > d.current_maximum then
            { entities := updEnt s.entities t (fun e => { e with rels := rels2 }),
              relTypes := (updRT s.relTypes ty
                (fun d0 => { d0 with leaders := [t], current_maximum := k })) }
          else
            { entities := updEnt s.entities t (fun e => { e with rels := rels2 }),
              relTypes := s.relTypes }
      | none =>
          { entities := updEnt s.entities t (fun e => { e with rels := rels2 }),
            relTypes := (updRT (list_insert s.relTypes ty) ty
              (fun d0 => { d0 with leaders := [t], current_maximum := k })) }) := by
  cases hrl : lookupA ty te.rels with
  | none =>
    rw [hrl] at hrels2 hk
    simp only [Option.getD_none, List.length_nil, Nat.zero_add] at hk
    cases hrt : list_search_rt s.relTypes ty with
    | some d =>
      subst hrels2 hk
      simp [addrel, hf, ht, hrt, hrl, memb, lookupA, setA, treeInsert_length]
    | none =>
      have hnk : ∀ d0 ∈ s.relTypes, d0.key ≠ ty := list_search_rt_eq_none hrt
      have hfound : list_search_rt (list_insert s.relTypes ty) ty = some ⟨ty, [], 0⟩ :=
        list_search_rt_list_insert_self hnk
      subst hrels2 hk
      simp [addrel, hf, ht, hrt, hrl, hfound, memb, lookupA, setA, treeInsert_length]
  | some tree =>
    rw [hrl] at hrels2 hk hmem
    simp only [Option.getD_some] at hrels2 hk hmem
    have hlk : lookupA ty (setA ty (treeInsert f tree) te.rels) = some (treeInsert f tree) :=
      lookupA_setA_self (by rw [hrl]; rfl)
    cases hrt : list_search_rt s.relTypes ty with
    | some d =>
      subst hrels2 hk
      simp [addrel, hf, ht, hrt, hrl, hmem, hlk, treeInsert_length]
    | none =>
      have hnk : ∀ d0 ∈ s.relTypes, d0.key ≠ ty := list_search_rt_eq_none hrt
      have hfound : list_search_rt (list_insert s.relTypes ty) ty = some ⟨ty, [], 0⟩ :=
        list_search_rt_list_insert_self hnk
      subst hrels2 hk
      simp [addrel, hf, ht, hrt, hrl, hmem, hfound, hlk, treeInsert_length]

theorem lookupA_mem {k : Ident} {l : List (Ident × List Ident)} {v : List Ident}
    (h : lookupA k l = some v) : (k, v) ∈ l := by
  induction l with
  | nil => simp [lookupA] at h
  | cons p rest ih =>
    obtain ⟨k', v'⟩ := p
    by_cases hk : k = k'
    · simp only [lookupA, if_pos hk] at h
      subst hk
      rw [Option.some_inj.mp h]
      exact List.mem_cons_self _ _
    · simp only [lookupA, if_neg hk] at h
      exact List.mem_cons_of_mem _ (ih h)

theorem updEnt_eq_self {ents : List Entity} {t : Ident} {g : Entity → Entity}
    (h : ∀ e ∈ ents, e.id = t → g e = e) : updEnt ents t g = ents := by
  induction ents with
  | nil => rfl
  | cons e rest ih =>
    unfold updEnt at ih ⊢
    simp only [List.map_cons]
    rw [ih fun e' he' => h e' (List.mem_cons_of_mem e he')]
    by_cases he : e.id = t
    · rw [if_pos he, h e (List.mem_cons_self e rest) he]
    · rw [if_neg he]

/-- Transfer of "some entity with id `x` has degree `m`" across an `updEnt`
that does not change the relevant degree. -/
theorem achiever_updEnt_iff {ents : List Entity} {t : Ident} {g : Entity → Entity}
    {te : Entity} {ty' : Ident} {x : Ident} {m : Nat}
    (hnd : (ents.map Entity.id).Nodup) (hte : te ∈ ents) (hid : te.id = t)
    (hgid : (g te).id = te.id) (hdeg : deg ty' (g te) = deg ty' te) :
    (∃ e' ∈ updEnt ents t g, e'.id = x ∧ deg ty' e' = m) ↔
      (∃ e ∈ ents, e.id = x ∧ deg ty' e = m) := by
  constructor
  · rintro ⟨e', he', hx, hm⟩
    rcases (mem_updEnt_iff_of_nodup hnd hte hid e').mp he' with h1 | ⟨e, he, _, h1⟩
    · subst h1
      exact ⟨te, hte, by rw [← hgid]; exact hx, by rw [← hdeg]; exact hm⟩
    · subst h1
      exact ⟨e', he, hx, hm⟩
  · rintro ⟨e, he, hx, hm⟩
    by_cases hh : e.id = t
    · have heq : e = te := entity_id_unique hnd he hte (hh.trans hid.symm)
      subst heq
      exact ⟨g e, gte_mem_updEnt hte hid, by rw [hgid]; exact hx, by rw [hdeg]; exact hm⟩
    · exact ⟨e, (mem_updEnt_iff_of_nodup hnd hte hid e).mpr (Or.inr ⟨e, he, hh, rfl⟩), hx, hm⟩

/-- The `addrel` of an already-present relation is a no-op on the state
(src/main.c:231-247: the insert is skipped and the report update finds
nothing to change). -/
theorem addrel_present {s : St} {f t ty : Ident} {fe te : Entity}
    (hInv : Inv s)
    (hf : hash_search s f = some fe) (ht : hash_search s t = some te)
    (hpres : memb f ((lookupA ty te.rels).getD []) = true) :
    addrel s f t ty = s := by
  obtain ⟨hte, hteid⟩ := hash_search_eq_some ht
  cases hrl : lookupA ty te.rels with
  | none => rw [hrl] at hpres; simp [memb] at hpres
  | some tree =>
  rw [hrl] at hpres
  simp only [Option.getD_some] at hpres
  have hdeg : deg ty te = tree.length := deg_of_lookup_some hrl
  have htreepos : 0 < tree.length := by
    cases tree with
    | nil => simp [memb] at hpres
    | cons a l => simp
  cases hrt : list_search_rt s.relTypes ty with
  | none =>
    have h0 := hInv.orphan ty (list_search_rt_eq_none hrt) te hte
    omega
  | some d =>
  obtain ⟨hdmem, hdkey⟩ := list_search_rt_eq_some hrt
  have hcm : d.current_maximum = maxDeg s ty := by
    rw [hInv.maxEq d hdmem, hdkey]
  have hkle : tree.length ≤ d.current_maximum := by
    rw [hcm, ← hdeg]
    exact deg_le_maxDeg hte
  have hupd : updEnt s.entities t (fun e => { e with rels := te.rels }) = s.entities := by
    refine updEnt_eq_self ?_
    intro e he hid
    have : e = te := entity_id_unique hInv.entsNodup he hte (hid.trans hteid.symm)
    subst this
    rfl
  by_cases hkcm : tree.length = d.current_maximum
  · have hach : t ∈ d.leaders := by
      rw [hInv.ldrChar d hdmem t, hdkey]
      exact ⟨te, hte, hteid, by rw [hdeg, hkcm]⟩
    have hmemb : memb t d.leaders = true := memb_iff.mpr hach
    simp only [addrel, hf, ht, hrt, hrl, Option.getD_some, hpres, if_true, hupd,
      hkcm, if_pos rfl, hmemb]
  · simp only [addrel, hf, ht, hrt, hrl, Option.getD_some, hpres, if_true, hupd]
    rw [if_neg hkcm, if_neg (by omega)]

/-- The rewritten `rel_list` of the target of a fresh `addrel`: the tree for
`ty` gained `from`, every other entry is untouched, keys stay
duplicate-free and trees stay sorted. -/
theorem rels2_facts {te : Entity} {f ty : Ident} {rels2 : List (Ident × List Ident)}
    (hrels2 : rels2 = (match lookupA ty te.rels with
      | some _ => setA ty (treeInsert f ((lookupA ty te.rels).getD [])) te.rels
      | none => (ty, treeInsert f []) :: te.rels))
    (hnodup : (te.rels.map Prod.fst).Nodup)
    (hsorted : ∀ p ∈ te.rels, Sorted p.2)
    (habs : memb f ((lookupA ty te.rels).getD []) = false) :
    lookupA ty rels2 = some (treeInsert f ((lookupA ty te.rels).getD [])) ∧
    (∀ ty', ty' ≠ ty → lookupA ty' rels2 = lookupA ty' te.rels) ∧
    (rels2.map Prod.fst).Nodup ∧
    (∀ p ∈ rels2, Sorted p.2) := by
  cases hrl : lookupA ty te.rels with
  | none =>
    rw [hrl] at hrels2
    simp only at hrels2
    subst hrels2
    have hknotin : ty ∉ te.rels.map Prod.fst := lookupA_eq_none_iff.mp hrl
    refine ⟨by simp [lookupA, hrl], ?_, ?_, ?_⟩
    · intro ty' hne
      simp [lookupA, hne]
    · simp only [List.map_cons, List.nodup_cons]
      exact ⟨hknotin, hnodup⟩
    · intro p hp
      rcases List.mem_cons.mp hp with h1 | h1
      · subst h1
        exact treeInsert_sorted (by simp [Sorted]) (List.not_mem_nil f)
      · exact hsorted p h1
  | some tree =>
    rw [hrl] at hrels2 habs
    simp only [Option.getD_some] at hrels2 habs
    have hfnotin : f ∉ tree := memb_eq_false_iff.mp habs
    subst hrels2
    refine ⟨?_, ?_, ?_, ?_⟩
    · simp only [Option.getD_some]
      exact lookupA_setA_self (by rw [hrl]; rfl)
    · intro ty' hne
      exact lookupA_setA_other hne
    · rw [setA_keys]
      exact hnodup
    · intro p hp
      rcases mem_setA hp with h1 | h1
      · subst h1
        exact treeInsert_sorted (hsorted (ty, tree) (lookupA_mem hrl)) hfnotin
      · exact hsorted p h1

/-- Bundle the per-descriptor obligations into `Inv`. -/
theorem inv_mk {s' : St}
    (e1 : (s'.entities.map Entity.id).Nodup)
    (e2 : ∀ e ∈ s'.entities, (e.rels.map Prod.fst).Nodup)
    (e3 : ∀ e ∈ s'.entities, ∀ p ∈ e.rels, Sorted p.2)
    (r1 : (s'.relTypes.map RelType.key).Pairwise (fun a b => strlt a b = true))
    (r2 : ∀ d ∈ s'.relTypes, Sorted d.leaders ∧ d.current_maximum = maxDeg s' d.key ∧
      1 ≤ d.current_maximum ∧
      (∀ x : Ident, x ∈ d.leaders ↔ ∃ e ∈ s'.entities, e.id = x ∧ deg d.key e = d.current_maximum))
    (o : ∀ ty : Ident, (∀ d ∈ s'.relTypes, d.key ≠ ty) → ∀ e ∈ s'.entities, deg ty e = 0) :
    Inv s' :=
  ⟨e1, e2, e3, r1, fun d hd => (r2 d hd).1, fun d hd => (r2 d hd).2.1,
   fun d hd => (r2 d hd).2.2.1, fun d hd => (r2 d hd).2.2.2, o⟩

/-- A descriptor untouched by a command stays consistent when the maximum
degree and the achiever sets for its type are unchanged. -/
theorem desc_ok_transfer {s : St} {E' : List Entity} (hInv : Inv s) {d0 : RelType}
    (hd0 : d0 ∈ s.relTypes)
    (hmaxeq : maxDegL E' d0.key = maxDeg s d0.key)
    (hach : ∀ x m, (∃ e' ∈ E', e'.id = x ∧ deg d0.key e' = m) ↔
      (∃ e ∈ s.entities, e.id = x ∧ deg d0.key e = m)) :
    Sorted d0.leaders ∧ d0.current_maximum = maxDegL E' d0.key ∧ 1 ≤ d0.current_maximum ∧
    (∀ x : Ident, x ∈ d0.leaders ↔ ∃ e' ∈ E', e'.id = x ∧ deg d0.key e' = d0.current_maximum) :=
  ⟨hInv.ldrSorted _ hd0, by rw [hmaxeq]; exact hInv.maxEq _ hd0, hInv.maxPos _ hd0,
   fun x => by rw [hInv.ldrChar d0 hd0 x, hach x d0.current_maximum]⟩

/-- The `addrel` preserves the global invariant. -/
theorem inv_addrel {s : St} (hInv : Inv s) (f t ty : Ident) : Inv (addrel s f t ty) := by
  cases hf : hash_search s f with
  | none => rw [addrel_no_from hf]; exact hInv
  | some fe =>
  cases ht : hash_search s t with
  | none => rw [addrel_no_to ht]; exact hInv
  | some te =>
  obtain ⟨hte, hteid⟩ := hash_search_eq_some ht
  by_cases hpres : memb f ((lookupA ty te.rels).getD []) = true
  · rw [addrel_present hInv hf ht hpres]
    exact hInv
  · have hmemF : memb f ((lookupA ty te.rels).getD []) = false :=
      Bool.eq_false_iff.mpr hpres
    rw [addrel_eq_of hf ht hmemF rfl rfl]
    obtain ⟨R1, R2, R3, R4⟩ :=
      rels2_facts rfl (hInv.relKeysNodup te hte) (hInv.treesSorted te hte) hmemF
    set R := (match lookupA ty te.rels with
      | some _ => setA ty (treeInsert f ((lookupA ty te.rels).getD [])) te.rels
      | none => (ty, treeInsert f []) :: te.rels) with hRdef
    have hgmem : ({ te with rels := R } : Entity) ∈
        updEnt s.entities t (fun e => { e with rels := R }) :=
      gte_mem_updEnt hte hteid
    have hmemE := mem_updEnt_iff_of_nodup (g := fun e => { e with rels := R })
      hInv.entsNodup hte hteid
    have hndE : ((updEnt s.entities t (fun e => { e with rels := R })).map Entity.id).Nodup := by
      rw [updEnt_map_id (f := fun e => ({ e with rels := R } : Entity)) (fun e => rfl)]
      exact hInv.entsNodup
    have hRKE : ∀ e' ∈ updEnt s.entities t (fun e => { e with rels := R }),
        (e'.rels.map Prod.fst).Nodup := by
      intro e' he'
      rcases (hmemE e').mp he' with h1 | ⟨e, he, _, h1⟩
      · subst h1; exact R3
      · subst h1; exact hInv.relKeysNodup e' he
    have hTSE : ∀ e' ∈ updEnt s.entities t (fun e => { e with rels := R }),
        ∀ p ∈ e'.rels, Sorted p.2 := by
      intro e' he'
      rcases (hmemE e').mp he' with h1 | ⟨e, he, _, h1⟩
      · subst h1; exact R4
      · subst h1; exact hInv.treesSorted e' he
    have hdg_ty : deg ty ({ te with rels := R } : Entity)
        = ((lookupA ty te.rels).getD []).length + 1 := by
      simp [deg, R1, treeInsert_length]
    have hdg_other : ∀ ty', ty' ≠ ty → deg ty' ({ te with rels := R } : Entity) = deg ty' te := by
      intro ty' hne
      simp [deg, R2 ty' hne]
    have hdgte : deg ty te = ((lookupA ty te.rels).getD []).length := rfl
    have hmaxOther : ∀ ty', ty' ≠ ty →
        maxDegL (updEnt s.entities t (fun e => { e with rels := R })) ty' = maxDeg s ty' := by
      intro ty' hne
      refine maxDegL_updEnt_other hInv.entsNodup ?_
      intro e he hid
      have heq : e = te := entity_id_unique hInv.entsNodup he hte (hid.trans hteid.symm)
      subst heq
      exact hdg_other ty' hne
    have hachO : ∀ ty', ty' ≠ ty → ∀ (x : Ident) (m : Nat),
        (∃ e' ∈ updEnt s.entities t (fun e => { e with rels := R }), e'.id = x ∧ deg ty' e' = m) ↔
        (∃ e ∈ s.entities, e.id = x ∧ deg ty' e = m) := by
      intro ty' hne x m
      exact achiever_updEnt_iff hInv.entsNodup hte hteid rfl (hdg_other ty' hne)
    cases hrt : list_search_rt s.relTypes ty with
    | some d =>
      dsimp only
      obtain ⟨hdmem, hdkey⟩ := list_search_rt_eq_some hrt
      have hmaxd : maxDeg s ty = d.current_maximum := by
        rw [hInv.maxEq d hdmem, hdkey]
      have hTle : ((lookupA ty te.rels).getD []).length ≤ d.current_maximum := by
        rw [← hmaxd, ← hdgte]
        exact deg_le_maxDeg hte
      by_cases hkcm : ((lookupA ty te.rels).getD []).length + 1 = d.current_maximum
      · -- the new size ties the current maximum: `to` joins the leaders
        have hnotldr : t ∉ d.leaders := by
          intro hmem
          rcases (hInv.ldrChar d hdmem t).mp hmem with ⟨e, he, hid, hdeg⟩
          have heq : e = te := entity_id_unique hInv.entsNodup he hte (hid.trans hteid.symm)
          subst heq
          rw [hdkey, hdgte] at hdeg
          omega
        rw [if_pos hkcm, if_neg (by rw [memb_eq_false_iff.mpr hnotldr]; simp)]
        refine inv_mk hndE hRKE hTSE ?_ ?_ ?_
        · rw [updRT_map_key
            (f := fun d0 => { d0 with leaders := treeInsert t d0.leaders }) (fun d0 => rfl)]
          exact hInv.rtSorted
        · intro d' hd'
          rcases mem_updRT.mp hd' with ⟨d0, hd0, h1⟩
          by_cases hk0 : d0.key = ty
          · have hd0d : d0 = d := list_search_rt_unique (rtKeysNodup hInv) hrt hd0 hk0
            subst hd0d
            rw [if_pos hk0] at h1
            subst h1
            refine ⟨treeInsert_sorted (hInv.ldrSorted d0 hd0) hnotldr, ?_, hInv.maxPos d0 hd0, ?_⟩
            · show d0.current_maximum
                = maxDegL (updEnt s.entities t (fun e => { e with rels := R })) d0.key
              rw [hk0]
              refine Nat.le_antisymm ?_ ?_
              · rw [← hkcm, ← hdg_ty]
                exact deg_le_maxDegL hgmem
              · refine maxDegL_le ?_
                intro e' he'
                rcases (hmemE e').mp he' with h2 | ⟨e, he, _, h2⟩
                · subst h2
                  exact le_of_eq (hdg_ty.trans hkcm)
                · subst h2
                  calc deg ty e' ≤ maxDeg s ty := deg_le_maxDeg he
                  _ = d0.current_maximum := hmaxd
            · intro x
              show x ∈ treeInsert t d0.leaders ↔ _
              constructor
              · intro hx
                rcases treeInsert_mem.mp hx with h2 | h2
                · subst h2
                  refine ⟨{ te with rels := R }, hgmem, hteid, ?_⟩
                  show deg d0.key _ = d0.current_maximum
                  rw [hk0, hdg_ty, hkcm]
                · rcases (hInv.ldrChar d0 hd0 x).mp h2 with ⟨e, he, hid, hdeg⟩
                  have hneq : e.id ≠ t := by
                    intro hidt
                    have heq : e = te := entity_id_unique hInv.entsNodup he hte
                      (hidt.trans hteid.symm)
                    subst heq
                    rw [hk0, hdgte] at hdeg
                    omega
                  exact ⟨e, (hmemE e).mpr (Or.inr ⟨e, he, hneq, rfl⟩), hid, hdeg⟩
              · rintro ⟨e', he', hid, hdeg⟩
                rcases (hmemE e').mp he' with h2 | ⟨e, he, hne, h2⟩
                · subst h2
                  refine treeInsert_mem.mpr (Or.inl ?_)
                  rw [← hid]
                  exact hteid
                · subst h2
                  refine treeInsert_mem.mpr (Or.inr ?_)
                  rw [hInv.ldrChar d0 hd0 x]
                  exact ⟨e', he, hid, hdeg⟩
          · rw [if_neg hk0] at h1
            subst h1
            exact desc_ok_transfer hInv hd0 (hmaxOther d'.key hk0) (hachO d'.key hk0)
        · intro ty'' hky'' e' he'
          have hkeys : ∀ d0 ∈ s.relTypes, d0.key ≠ ty'' := by
            intro d0 hd0
            have himg : (if d0.key = ty then
                ({ d0 with leaders := treeInsert t d0.leaders } : RelType) else d0) ∈
                updRT s.relTypes ty (fun d0 => { d0 with leaders := treeInsert t d0.leaders }) :=
              mem_updRT.mpr ⟨d0, hd0, rfl⟩
            have hk := hky'' _ himg
            by_cases hk0 : d0.key = ty
            · rw [if_pos hk0] at hk
              exact hk
            · rw [if_neg hk0] at hk
              exact hk
          have hty'' : ty'' ≠ ty := fun h0 => hkeys d hdmem (hdkey.trans h0.symm)
          have hold := hInv.orphan ty'' hkeys
          rcases (hmemE e').mp he' with h1 | ⟨e, he, _, h1⟩
          · subst h1
            rw [hdg_other ty'' hty'']
            exact hold te hte
          · subst h1
            exact hold e' he
      · by_cases hkgt : ((lookupA ty te.rels).getD []).length + 1 > d.current_maximum
        · -- strictly new maximum: the data tree is cleared and rebuilt as {to}
          rw [if_neg hkcm, if_pos hkgt]
          refine inv_mk hndE hRKE hTSE ?_ ?_ ?_
          · rw [updRT_map_key (f := fun d0 => { d0 with leaders := [t], current_maximum := ((lookupA ty te.rels).getD []).length + 1 }) (fun d0 => rfl)]
            exact hInv.rtSorted
          · intro d' hd'
            rcases mem_updRT.mp hd' with ⟨d0, hd0, h1⟩
            by_cases hk0 : d0.key = ty
            · have hd0d : d0 = d := list_search_rt_unique (rtKeysNodup hInv) hrt hd0 hk0
              subst hd0d
              rw [if_pos hk0] at h1
              subst h1
              refine ⟨by simp [Sorted], ?_,
                by show 1 ≤ ((lookupA ty te.rels).getD []).length + 1; omega, ?_⟩
              · show ((lookupA ty te.rels).getD []).length + 1
                  = maxDegL (updEnt s.entities t (fun e => { e with rels := R })) d0.key
                rw [hk0]
                refine Nat.le_antisymm ?_ ?_
                · rw [← hdg_ty]
                  exact deg_le_maxDegL hgmem
                · refine maxDegL_le ?_
                  intro e' he'
                  rcases (hmemE e').mp he' with h2 | ⟨e, he, _, h2⟩
                  · subst h2
                    exact le_of_eq hdg_ty
                  · subst h2
                    have := deg_le_maxDeg (y := ty) he
                    omega
              · intro x
                show x ∈ [t] ↔ _
                constructor
                · intro hx
                  rcases List.mem_singleton.mp hx with rfl
                  refine ⟨{ te with rels := R }, hgmem, hteid, ?_⟩
                  show deg d0.key _ = _
                  rw [hk0, hdg_ty]
                · rintro ⟨e', he', hid, hdeg⟩
                  rcases (hmemE e').mp he' with h2 | ⟨e, he, hne, h2⟩
                  · subst h2
                    refine List.mem_singleton.mpr ?_
                    rw [← hid]
                    exact hteid
                  · subst h2
                    rw [hk0] at hdeg
                    have hdeg' : deg ty e' = ((lookupA ty te.rels).getD []).length + 1 := hdeg
                    have h3 := deg_le_maxDeg (y := ty) he
                    omega
            · rw [if_neg hk0] at h1
              subst h1
              exact desc_ok_transfer hInv hd0 (hmaxOther d'.key hk0) (hachO d'.key hk0)
          · intro ty'' hky'' e' he'
            have hkeys : ∀ d0 ∈ s.relTypes, d0.key ≠ ty'' := by
              intro d0 hd0
              have himg : (if d0.key = ty then
                  ({ d0 with leaders := [t], current_maximum := ((lookupA ty te.rels).getD []).length + 1 } : RelType)
                  else d0) ∈
                  updRT s.relTypes ty (fun d0 => { d0 with leaders := [t], current_maximum := ((lookupA ty te.rels).getD []).length + 1 }) :=
                mem_updRT.mpr ⟨d0, hd0, rfl⟩
              have hk := hky'' _ himg
              by_cases hk0 : d0.key = ty
              · rw [if_pos hk0] at hk
                exact hk
              · rw [if_neg hk0] at hk
                exact hk
            have hty'' : ty'' ≠ ty := fun h0 => hkeys d hdmem (hdkey.trans h0.symm)
            have hold := hInv.orphan ty'' hkeys
            rcases (hmemE e').mp he' with h1 | ⟨e, he, _, h1⟩
            · subst h1
              rw [hdg_other ty'' hty'']
              exact hold te hte
            · subst h1
              exact hold e' he
        · -- still below the maximum: the descriptor is untouched
          rw [if_neg hkcm, if_neg hkgt]
          refine inv_mk hndE hRKE hTSE hInv.rtSorted ?_ ?_
          · intro d' hd'
            by_cases hk0 : d'.key = ty
            · have hd0d : d' = d := list_search_rt_unique (rtKeysNodup hInv) hrt hd' hk0
              subst hd0d
              have hcmpos : 1 ≤ d'.current_maximum := hInv.maxPos d' hd'
              have hTlt : ((lookupA ty te.rels).getD []).length + 1 < d'.current_maximum := by
                omega
              refine ⟨hInv.ldrSorted d' hd', ?_, hcmpos, ?_⟩
              · show d'.current_maximum
                  = maxDegL (updEnt s.entities t (fun e => { e with rels := R })) d'.key
                rw [hk0]
                refine Nat.le_antisymm ?_ ?_
                · obtain ⟨e0, he0, hde0⟩ := maxDeg_attained (s := s) (y := ty) (by omega)
                  have hne0 : e0.id ≠ t := by
                    intro hidt
                    have heq : e0 = te := entity_id_unique hInv.entsNodup he0 hte
                      (hidt.trans hteid.symm)
                    subst heq
                    rw [hdgte] at hde0
                    omega
                  calc d'.current_maximum = maxDeg s ty := hmaxd.symm
                  _ = deg ty e0 := hde0.symm
                  _ ≤ _ := deg_le_maxDegL ((hmemE e0).mpr (Or.inr ⟨e0, he0, hne0, rfl⟩))
                · refine maxDegL_le ?_
                  intro e' he'
                  rcases (hmemE e').mp he' with h2 | ⟨e, he, _, h2⟩
                  · subst h2
                    rw [hdg_ty]
                    omega
                  · subst h2
                    have := deg_le_maxDeg (y := ty) he
                    omega
              · intro x
                rw [hInv.ldrChar d' hd' x]
                constructor
                · rintro ⟨e, he, hid, hdeg⟩
                  have hneq : e.id ≠ t := by
                    intro hidt
                    have heq : e = te := entity_id_unique hInv.entsNodup he hte
                      (hidt.trans hteid.symm)
                    subst heq
                    rw [hk0, hdgte] at hdeg
                    omega
                  exact ⟨e, (hmemE e).mpr (Or.inr ⟨e, he, hneq, rfl⟩), hid, hdeg⟩
                · rintro ⟨e', he', hid, hdeg⟩
                  rcases (hmemE e').mp he' with h2 | ⟨e, he, hne, h2⟩
                  · subst h2
                    rw [hk0, hdg_ty] at hdeg
                    omega
                  · subst h2
                    exact ⟨e', he, hid, hdeg⟩
            · exact desc_ok_transfer hInv hd' (hmaxOther d'.key hk0) (hachO d'.key hk0)
          · intro ty'' hky'' e' he'
            have hty'' : ty'' ≠ ty := fun h0 => hky'' d hdmem (hdkey.trans h0.symm)
            have hold := hInv.orphan ty'' hky''
            rcases (hmemE e').mp he' with h1 | ⟨e, he, _, h1⟩
            · subst h1
              rw [hdg_other ty'' hty'']
              exact hold te hte
            · subst h1
              exact hold e' he
    | none =>
      -- no descriptor yet: it is created with `to` as sole leader
      dsimp only
      have hnk : ∀ d0 ∈ s.relTypes, d0.key ≠ ty := list_search_rt_eq_none hrt
      have hkeys : ty ∉ s.relTypes.map RelType.key := by
        intro hmem
        rcases List.mem_map.mp hmem with ⟨d0, hd0, hk0⟩
        exact hnk d0 hd0 hk0
      have horph := hInv.orphan ty hnk
      have hT0 : ((lookupA ty te.rels).getD []).length = 0 := by
        rw [← hdgte]
        exact horph te hte
      refine inv_mk hndE hRKE hTSE ?_ ?_ ?_
      · rw [updRT_map_key (f := fun d0 => { d0 with leaders := [t], current_maximum := ((lookupA ty te.rels).getD []).length + 1 }) (fun d0 => rfl), list_insert_map_key hkeys]
        exact treeInsert_sorted hInv.rtSorted hkeys
      · intro d' hd'
        rcases mem_updRT.mp hd' with ⟨d0, hd0, h1⟩
        rcases list_insert_mem.mp hd0 with h2 | h2
        · subst h2
          rw [if_pos rfl] at h1
          subst h1
          refine ⟨by simp [Sorted], ?_,
            by show 1 ≤ ((lookupA ty te.rels).getD []).length + 1; omega, ?_⟩
          · show ((lookupA ty te.rels).getD []).length + 1
              = maxDegL (updEnt s.entities t (fun e => { e with rels := R })) ty
            refine Nat.le_antisymm ?_ ?_
            · rw [← hdg_ty]
              exact deg_le_maxDegL hgmem
            · refine maxDegL_le ?_
              intro e' he'
              rcases (hmemE e').mp he' with h3 | ⟨e, he, _, h3⟩
              · subst h3
                exact le_of_eq hdg_ty
              · subst h3
                rw [horph e' he]
                omega
          · intro x
            show x ∈ [t] ↔ ∃ e' ∈ updEnt s.entities t (fun e => { e with rels := R }),
              e'.id = x ∧ deg ty e' = ((lookupA ty te.rels).getD []).length + 1
            constructor
            · intro hx
              rcases List.mem_singleton.mp hx with rfl
              exact ⟨{ te with rels := R }, hgmem, hteid, hdg_ty⟩
            · rintro ⟨e', he', hid, hdeg⟩
              rcases (hmemE e').mp he' with h3 | ⟨e, he, hne, h3⟩
              · subst h3
                refine List.mem_singleton.mpr ?_
                rw [← hid]
                exact hteid
              · subst h3
                rw [horph e' he] at hdeg
                omega
        · have hk0 : d0.key ≠ ty := hnk d0 h2
          rw [if_neg hk0] at h1
          subst h1
          exact desc_ok_transfer hInv h2 (hmaxOther d'.key hk0) (hachO d'.key hk0)
      · intro ty'' hky'' e' he'
        have hfreshmem : ({ key := ty, leaders := [t], current_maximum := ((lookupA ty te.rels).getD []).length + 1 } : RelType) ∈
            updRT (list_insert s.relTypes ty) ty (fun d0 => { d0 with leaders := [t], current_maximum := ((lookupA ty te.rels).getD []).length + 1 }) := by
          refine mem_updRT.mpr ⟨⟨ty, [], 0⟩, list_insert_mem.mpr (Or.inl rfl), ?_⟩
          rw [if_pos rfl]
        have hty'' : ty'' ≠ ty := fun h0 => hky'' _ hfreshmem h0.symm
        have hkeys'' : ∀ d0 ∈ s.relTypes, d0.key ≠ ty'' := by
          intro d0 hd0
          have hk0 : d0.key ≠ ty := hnk d0 hd0
          have himg : (if d0.key = ty then
              ({ d0 with leaders := [t], current_maximum := ((lookupA ty te.rels).getD []).length + 1 } : RelType)
              else d0) ∈
              updRT (list_insert s.relTypes ty) ty (fun d0 => { d0 with leaders := [t], current_maximum := ((lookupA ty te.rels).getD []).length + 1 }) :=
            mem_updRT.mpr ⟨d0, list_insert_mem.mpr (Or.inr hd0), rfl⟩
          have hk := hky'' _ himg
          rw [if_neg hk0] at hk
          exact hk
        have hold := hInv.orphan ty'' hkeys''
        rcases (hmemE e').mp he' with h1 | ⟨e, he, _, h1⟩
        · subst h1
          rw [hdg_other ty'' hty'']
          exact hold te hte
        · subst h1
          exact hold e' he

/-! ### Unfolding `delrel` -/

theorem delrel_no_from {s : St} {f t ty : Ident} (hf : hash_search s f = none) :
    delrel s f t ty = s := by
  cases ht : hash_search s t <;> simp only [delrel, hf, ht]

theorem delrel_no_to {s : St} {f t ty : Ident} (ht : hash_search s t = none) :
    delrel s f t ty = s := by
  cases hf : hash_search s f <;> simp only [delrel, hf, ht]

theorem delrel_no_desc {s : St} {f t ty : Ident} {fe te : Entity}
    (hf : hash_search s f = some fe) (ht : hash_search s t = some te)
    (hrt : list_search_rt s.relTypes ty = none) : delrel s f t ty = s := by
  simp only [delrel, hf, ht, hrt]

theorem delrel_no_entry {s : St} {f t ty : Ident} {fe te : Entity} {d : RelType}
    (hf : hash_search s f = some fe) (ht : hash_search s t = some te)
    (hrt : list_search_rt s.relTypes ty = some d)
    (hrl : lookupA ty te.rels = none) : delrel s f t ty = s := by
  simp only [delrel, hf, ht, hrt, hrl]

theorem delrel_no_rel {s : St} {f t ty : Ident} {fe te : Entity} {d : RelType}
    {tree : List Ident}
    (hf : hash_search s f = some fe) (ht : hash_search s t = some te)
    (hrt : list_search_rt s.relTypes ty = some d)
    (hrl : lookupA ty te.rels = some tree)
    (hmem : memb f tree = false) : delrel s f t ty = s := by
  simp only [delrel, hf, ht, hrt, hrl, hmem, Bool.false_eq_true, if_false]

/-- The exact result of `delrel` when the relation exists. -/
theorem delrel_eq_of {s : St} {f t ty : Ident} {fe te : Entity} {d : RelType}
    {tree : List Ident}
    (hf : hash_search s f = some fe) (ht : hash_search s t = some te)
    (hrt : list_search_rt s.relTypes ty = some d)
    (hrl : lookupA ty te.rels = some tree)
    (hmem : memb f tree = true) :
    delrel s f t ty =
      (if (treeErase f tree).length + 1 = d.current_maximum then
         if d.leaders.length > 1 then
           { entities := updEnt s.entities t
               (fun e => { e with rels := setA ty (treeErase f tree) e.rels }),
             relTypes := (updRT s.relTypes ty
               (fun d0 => { d0 with leaders := treeErase t d0.leaders })) }
         else restore_data_maximum
           { s with entities := (updEnt s.entities t
               (fun e => { e with rels := setA ty (treeErase f tree) e.rels })) } ty
       else
         { s with entities := (updEnt s.entities t
             (fun e => { e with rels := setA ty (treeErase f tree) e.rels })) }) := by
  simp only [delrel, hf, ht, hrt, hrl, hmem, if_true]

/-- A duplicate-free list with more than one element has a member different
from any given `t`. -/
theorem exists_ne_of_one_lt_length {l : List Ident} {t : Ident}
    (hlen : 1 < l.length) (hnd : l.Nodup) : ∃ x ∈ l, x ≠ t := by
  cases l with
  | nil => simp at hlen
  | cons a rest =>
    cases rest with
    | nil => simp at hlen
    | cons b rest' =>
      by_cases hat : a = t
      · refine ⟨b, List.mem_cons_of_mem a (List.mem_cons_self b rest'), ?_⟩
        intro hbt
        rw [List.nodup_cons] at hnd
        exact hnd.1 (by rw [hat, ← hbt]; exact List.mem_cons_self b rest')
      · exact ⟨a, List.mem_cons_self a _, hat⟩

/-- The `delrel` preserves the global invariant. -/
theorem inv_delrel {s : St} (hInv : Inv s) (f t ty : Ident) : Inv (delrel s f t ty) := by
  cases hf : hash_search s f with
  | none => rw [delrel_no_from hf]; exact hInv
  | some fe =>
  cases ht : hash_search s t with
  | none => rw [delrel_no_to ht]; exact hInv
  | some te =>
  cases hrt : list_search_rt s.relTypes ty with
  | none => rw [delrel_no_desc hf ht hrt]; exact hInv
  | some d =>
  cases hrl : lookupA ty te.rels with
  | none => rw [delrel_no_entry hf ht hrt hrl]; exact hInv
  | some tree =>
  by_cases hmem : memb f tree = true
  case neg =>
    rw [delrel_no_rel hf ht hrt hrl (Bool.eq_false_iff.mpr hmem)]
    exact hInv
  case pos =>
  rw [delrel_eq_of hf ht hrt hrl hmem]
  obtain ⟨hte, hteid⟩ := hash_search_eq_some ht
  obtain ⟨hdmem, hdkey⟩ := list_search_rt_eq_some hrt
  have hfmem : f ∈ tree := memb_iff.mp hmem
  have htreeS : Sorted tree := hInv.treesSorted te hte (ty, tree) (lookupA_mem hrl)
  have herase : (treeErase f tree).length + 1 = tree.length := treeErase_length_of_mem hfmem
  have hdgte : deg ty te = tree.length := deg_of_lookup_some hrl
  have hmaxd : maxDeg s ty = d.current_maximum := by
    rw [hInv.maxEq d hdmem, hdkey]
  have hTle : tree.length ≤ d.current_maximum := by
    rw [← hmaxd, ← hdgte]
    exact deg_le_maxDeg hte
  have hcmpos : 1 ≤ d.current_maximum := hInv.maxPos d hdmem
  have hgmem : ({ te with rels := setA ty (treeErase f tree) te.rels } : Entity) ∈
      updEnt s.entities t (fun e => { e with rels := setA ty (treeErase f tree) e.rels }) :=
    gte_mem_updEnt hte hteid
  have hmemE := mem_updEnt_iff_of_nodup
    (g := fun e => { e with rels := setA ty (treeErase f tree) e.rels })
    hInv.entsNodup hte hteid
  have hndE : ((updEnt s.entities t
      (fun e => { e with rels := setA ty (treeErase f tree) e.rels })).map Entity.id).Nodup := by
    rw [updEnt_map_id
      (f := fun e => ({ e with rels := setA ty (treeErase f tree) e.rels } : Entity))
      (fun e => rfl)]
    exact hInv.entsNodup
  have hRKE : ∀ e' ∈ updEnt s.entities t
      (fun e => { e with rels := setA ty (treeErase f tree) e.rels }),
      (e'.rels.map Prod.fst).Nodup := by
    intro e' he'
    rcases (hmemE e').mp he' with h1 | ⟨e, he, _, h1⟩
    · subst h1
      show ((setA ty (treeErase f tree) te.rels).map Prod.fst).Nodup
      rw [setA_keys]
      exact hInv.relKeysNodup te hte
    · subst h1
      exact hInv.relKeysNodup e' he
  have hTSE : ∀ e' ∈ updEnt s.entities t
      (fun e => { e with rels := setA ty (treeErase f tree) e.rels }),
      ∀ p ∈ e'.rels, Sorted p.2 := by
    intro e' he'
    rcases (hmemE e').mp he' with h1 | ⟨e, he, _, h1⟩
    · subst h1
      intro p hp
      rcases mem_setA hp with h2 | h2
      · subst h2
        exact treeErase_sorted htreeS
      · exact hInv.treesSorted te hte p h2
    · subst h1
      exact hInv.treesSorted e' he
  have hdg_ty : deg ty ({ te with rels := setA ty (treeErase f tree) te.rels } : Entity)
      = (treeErase f tree).length := by
    show ((lookupA ty (setA ty (treeErase f tree) te.rels)).getD []).length = _
    rw [lookupA_setA_self (by rw [hrl]; rfl)]
    rfl
  have hdg_other : ∀ ty', ty' ≠ ty →
      deg ty' ({ te with rels := setA ty (treeErase f tree) te.rels } : Entity)
        = deg ty' te := by
    intro ty' hne
    show ((lookupA ty' (setA ty (treeErase f tree) te.rels)).getD []).length = _
    rw [lookupA_setA_other hne]
    rfl
  have hmaxOther : ∀ ty', ty' ≠ ty →
      maxDegL (updEnt s.entities t
        (fun e => { e with rels := setA ty (treeErase f tree) e.rels })) ty' = maxDeg s ty' := by
    intro ty' hne
    refine maxDegL_updEnt_other hInv.entsNodup ?_
    intro e he hid
    have heq : e = te := entity_id_unique hInv.entsNodup he hte (hid.trans hteid.symm)
    subst heq
    exact hdg_other ty' hne
  have hachO : ∀ ty', ty' ≠ ty → ∀ (x : Ident) (m : Nat),
      (∃ e' ∈ updEnt s.entities t
        (fun e => { e with rels := setA ty (treeErase f tree) e.rels }),
        e'.id = x ∧ deg ty' e' = m) ↔
      (∃ e ∈ s.entities, e.id = x ∧ deg ty' e = m) := by
    intro ty' hne x m
    exact achiever_updEnt_iff hInv.entsNodup hte hteid rfl (hdg_other ty' hne)
  by_cases hkcm : (treeErase f tree).length + 1 = d.current_maximum
  case neg =>
    -- the old size was below the maximum: descriptor untouched
    rw [if_neg hkcm]
    have hlt : tree.length < d.current_maximum := by omega
    refine inv_mk hndE hRKE hTSE hInv.rtSorted ?_ ?_
    · intro d' hd'
      by_cases hk0 : d'.key = ty
      · have hd'd : d' = d := list_search_rt_unique (rtKeysNodup hInv) hrt hd' hk0
        subst hd'd
        refine ⟨hInv.ldrSorted d' hd', ?_, hInv.maxPos d' hd', ?_⟩
        · show d'.current_maximum = maxDegL (updEnt s.entities t
            (fun e => { e with rels := setA ty (treeErase f tree) e.rels })) d'.key
          rw [hk0]
          refine Nat.le_antisymm ?_ ?_
          · obtain ⟨e0, he0, hde0⟩ := maxDeg_attained (s := s) (y := ty) (by omega)
            have hne0 : e0.id ≠ t := by
              intro hidt
              have heq : e0 = te := entity_id_unique hInv.entsNodup he0 hte
                (hidt.trans hteid.symm)
              subst heq
              rw [hdgte] at hde0
              omega
            calc d'.current_maximum = maxDeg s ty := hmaxd.symm
            _ = deg ty e0 := hde0.symm
            _ ≤ _ := deg_le_maxDegL ((hmemE e0).mpr (Or.inr ⟨e0, he0, hne0, rfl⟩))
          · refine maxDegL_le ?_
            intro e' he'
            rcases (hmemE e').mp he' with h2 | ⟨e, he, _, h2⟩
            · subst h2
              rw [hdg_ty]
              omega
            · subst h2
              have := deg_le_maxDeg (y := ty) he
              omega
        · intro x
          rw [hInv.ldrChar d' hd' x]
          constructor
          · rintro ⟨e, he, hid, hdeg⟩
            have hneq : e.id ≠ t := by
              intro hidt
              have heq : e = te := entity_id_unique hInv.entsNodup he hte
                (hidt.trans hteid.symm)
              subst heq
              rw [hk0, hdgte] at hdeg
              omega
            exact ⟨e, (hmemE e).mpr (Or.inr ⟨e, he, hneq, rfl⟩), hid, hdeg⟩
          · rintro ⟨e', he', hid, hdeg⟩
            rcases (hmemE e').mp he' with h2 | ⟨e, he, hne, h2⟩
            · subst h2
              rw [hk0] at hdeg
              have hdeg' : (treeErase f tree).length = d'.current_maximum := by
                rw [← hdg_ty]
                exact hdeg
              omega
            · subst h2
              exact ⟨e', he, hid, hdeg⟩
      · exact desc_ok_transfer hInv hd' (hmaxOther d'.key hk0) (hachO d'.key hk0)
    · intro ty'' hky'' e' he'
      have hty'' : ty'' ≠ ty := fun h0 => hky'' d hdmem (hdkey.trans h0.symm)
      have hold := hInv.orphan ty'' hky''
      rcases (hmemE e').mp he' with h1 | ⟨e, he, _, h1⟩
      · subst h1
        rw [hdg_other ty'' hty'']
        exact hold te hte
      · subst h1
        exact hold e' he
  case pos =>
  by_cases hldr : d.leaders.length > 1
  · -- several leaders: only delete `to` from the data tree
    rw [if_pos hkcm, if_pos hldr]
    have hldrS := hInv.ldrSorted d hdmem
    obtain ⟨x1, hx1mem, hx1ne⟩ := exists_ne_of_one_lt_length hldr (sorted_nodup hldrS)
    obtain ⟨e1, he1, he1id, he1deg⟩ := (hInv.ldrChar d hdmem x1).mp hx1mem
    rw [hdkey] at he1deg
    have he1ne : e1.id ≠ t := by rw [he1id]; exact hx1ne
    refine inv_mk hndE hRKE hTSE ?_ ?_ ?_
    · rw [updRT_map_key (f := fun d0 => { d0 with leaders := treeErase t d0.leaders })
        (fun d0 => rfl)]
      exact hInv.rtSorted
    · intro d' hd'
      rcases mem_updRT.mp hd' with ⟨d0, hd0, h1⟩
      by_cases hk0 : d0.key = ty
      · have hd0d : d0 = d := list_search_rt_unique (rtKeysNodup hInv) hrt hd0 hk0
        subst hd0d
        rw [if_pos hk0] at h1
        subst h1
        refine ⟨treeErase_sorted (hInv.ldrSorted d0 hd0), ?_, hInv.maxPos d0 hd0, ?_⟩
        · show d0.current_maximum = maxDegL (updEnt s.entities t
            (fun e => { e with rels := setA ty (treeErase f tree) e.rels })) d0.key
          rw [hk0]
          refine Nat.le_antisymm ?_ ?_
          · calc d0.current_maximum = deg ty e1 := he1deg.symm
            _ ≤ _ := deg_le_maxDegL ((hmemE e1).mpr (Or.inr ⟨e1, he1, he1ne, rfl⟩))
          · refine maxDegL_le ?_
            intro e' he'
            rcases (hmemE e').mp he' with h2 | ⟨e, he, _, h2⟩
            · subst h2
              rw [hdg_ty]
              omega
            · subst h2
              have := deg_le_maxDeg (y := ty) he
              omega
        · intro x
          show x ∈ treeErase t d0.leaders ↔ _
          rw [treeErase_mem_of_sorted (hInv.ldrSorted d0 hd0)]
          constructor
          · rintro ⟨hx, hxt⟩
            rcases (hInv.ldrChar d0 hd0 x).mp hx with ⟨e, he, hid, hdeg⟩
            have hneq : e.id ≠ t := by rw [hid]; exact hxt
            exact ⟨e, (hmemE e).mpr (Or.inr ⟨e, he, hneq, rfl⟩), hid, hdeg⟩
          · rintro ⟨e', he', hid, hdeg⟩
            rcases (hmemE e').mp he' with h2 | ⟨e, he, hne, h2⟩
            · subst h2
              rw [hk0] at hdeg
              have hdeg' : (treeErase f tree).length = d0.current_maximum := by
                rw [← hdg_ty]
                exact hdeg
              omega
            · subst h2
              refine ⟨(hInv.ldrChar d0 hd0 x).mpr ⟨e', he, hid, hdeg⟩, ?_⟩
              rw [← hid]
              exact hne
      · rw [if_neg hk0] at h1
        subst h1
        exact desc_ok_transfer hInv hd0 (hmaxOther d'.key hk0) (hachO d'.key hk0)
    · intro ty'' hky'' e' he'
      have hkeys : ∀ d0 ∈ s.relTypes, d0.key ≠ ty'' := by
        intro d0 hd0
        have himg : (if d0.key = ty then
            ({ d0 with leaders := treeErase t d0.leaders } : RelType) else d0) ∈
            updRT s.relTypes ty (fun d0 => { d0 with leaders := treeErase t d0.leaders }) :=
          mem_updRT.mpr ⟨d0, hd0, rfl⟩
        have hk := hky'' _ himg
        by_cases hk0 : d0.key = ty
        · rw [if_pos hk0] at hk
          exact hk
        · rw [if_neg hk0] at hk
          exact hk
      have hty'' : ty'' ≠ ty := fun h0 => hkeys d hdmem (hdkey.trans h0.symm)
      have hold := hInv.orphan ty'' hkeys
      rcases (hmemE e').mp he' with h1 | ⟨e, he, _, h1⟩
      · subst h1
        rw [hdg_other ty'' hty'']
        exact hold te hte
      · subst h1
        exact hold e' he
  · -- sole leader: full recompute
    rw [if_pos hkcm, if_neg hldr]
    have hrt1 : list_search_rt ({ s with entities := (updEnt s.entities t
        (fun e => { e with rels := setA ty (treeErase f tree) e.rels })) } : St).relTypes ty
        = some d := hrt
    obtain ⟨hres0, hresP⟩ := restore_spec hrt1 hndE (hInv.ldrSorted d hdmem)
    by_cases hM : maxDeg ({ s with entities := (updEnt s.entities t
        (fun e => { e with rels := setA ty (treeErase f tree) e.rels })) } : St) ty = 0
    · rw [hres0 hM]
      have hdegall : ∀ e' ∈ updEnt s.entities t
          (fun e => { e with rels := setA ty (treeErase f tree) e.rels }),
          deg ty e' = 0 := by
        intro e' he'
        have h1 : deg ty e' ≤ 0 := by
          rw [← hM]
          exact deg_le_maxDeg he'
        omega
      refine inv_mk hndE hRKE hTSE ?_ ?_ ?_
      · exact hInv.rtSorted.sublist ((list_delete_sublist s.relTypes ty).map RelType.key)
      · intro d' hd'
        rw [mem_list_delete (rtKeysNodup hInv)] at hd'
        obtain ⟨hd'mem, hk0⟩ := hd'
        exact desc_ok_transfer hInv hd'mem (hmaxOther d'.key hk0) (hachO d'.key hk0)
      · intro ty'' hky'' e' he'
        by_cases hty'' : ty'' = ty
        · subst hty''
          exact hdegall e' he'
        · have hold : ∀ d0 ∈ s.relTypes, d0.key ≠ ty'' := by
            intro d0 hd0 hk0eq
            by_cases hk0 : d0.key = ty
            · exact hty'' ((hk0eq.symm.trans hk0))
            · exact hky'' d0 ((mem_list_delete (rtKeysNodup hInv)).mpr ⟨hd0, hk0⟩) hk0eq
          have horphOld := hInv.orphan ty'' hold
          rcases (hmemE e').mp he' with h1 | ⟨e, he, _, h1⟩
          · subst h1
            rw [hdg_other ty'' hty'']
            exact horphOld te hte
          · subst h1
            exact horphOld e' he
    · obtain ⟨L, hLs, hLchar, heq⟩ := hresP hM
      rw [heq]
      have hMpos : 1 ≤ maxDeg ({ s with entities := (updEnt s.entities t
          (fun e => { e with rels := setA ty (treeErase f tree) e.rels })) } : St) ty :=
        Nat.one_le_iff_ne_zero.mpr hM
      refine inv_mk hndE hRKE hTSE ?_ ?_ ?_
      · rw [updRT_map_key (f := fun d0 => { d0 with current_maximum := maxDeg ({ s with entities := (updEnt s.entities t (fun e => { e with rels := setA ty (treeErase f tree) e.rels })) } : St) ty, leaders := L }) (fun d0 => rfl)]
        exact hInv.rtSorted
      · intro d' hd'
        rcases mem_updRT.mp hd' with ⟨d0, hd0, h1⟩
        by_cases hk0 : d0.key = ty
        · rw [if_pos hk0] at h1
          subst h1
          refine ⟨hLs, ?_, hMpos, ?_⟩
          · show maxDeg _ ty = maxDegL (updEnt s.entities t
              (fun e => { e with rels := setA ty (treeErase f tree) e.rels })) d0.key
            rw [hk0]
            rfl
          · intro x
            rw [hk0]
            exact hLchar x
        · rw [if_neg hk0] at h1
          subst h1
          exact desc_ok_transfer hInv hd0 (hmaxOther d'.key hk0) (hachO d'.key hk0)
      · intro ty'' hky'' e' he'
        have hkeys : ∀ d0 ∈ s.relTypes, d0.key ≠ ty'' := by
          intro d0 hd0
          have himg : (if d0.key = ty then
              ({ d0 with current_maximum := maxDeg ({ s with entities := (updEnt s.entities t (fun e => { e with rels := setA ty (treeErase f tree) e.rels })) } : St) ty, leaders := L } : RelType)
              else d0) ∈
              updRT s.relTypes ty (fun d0 => { d0 with current_maximum := maxDeg ({ s with entities := (updEnt s.entities t (fun e => { e with rels := setA ty (treeErase f tree) e.rels })) } : St) ty, leaders := L }) :=
            mem_updRT.mpr ⟨d0, hd0, rfl⟩
          have hk := hky'' _ himg
          by_cases hk0 : d0.key = ty
          · rw [if_pos hk0] at hk
            exact hk
          · rw [if_neg hk0] at hk
            exact hk
        have hty'' : ty'' ≠ ty := fun h0 => hkeys d hdmem (hdkey.trans h0.symm)
        have hold := hInv.orphan ty'' hkeys
        rcases (hmemE e').mp he' with h1 | ⟨e, he, _, h1⟩
        · subst h1
          rw [hdg_other ty'' hty'']
          exact hold te hte
        · subst h1
          exact hold e' he

/-! ### Lemmas on the `delent` sweep -/

theorem setA_same {k : Ident} {v : List Ident} {l : List (Ident × List Ident)}
    (h : lookupA k l = some v) : setA k v l = l := by
  induction l with
  | nil => rfl
  | cons p rest ih =>
    obtain ⟨k', v'⟩ := p
    by_cases hk : k = k'
    · simp only [lookupA, if_pos hk] at h
      have hv : v' = v := Option.some_inj.mp h
      subst hv
      subst hk
      simp [setA]
    · simp only [lookupA, if_neg hk] at h
      simp only [setA, if_neg hk]
      rw [ih h]

theorem updRT_id {l : List RelType} {k : Ident} {f : RelType → RelType}
    (h : ∀ d ∈ l, d.key ≠ k) : updRT l k f = l := by
  induction l with
  | nil => rfl
  | cons d rest ih =>
    simp only [updRT, List.map_cons]
    rw [if_neg (h d (List.mem_cons_self d rest))]
    have := ih fun d' hd' => h d' (List.mem_cons_of_mem d hd')
    simp only [updRT] at this
    rw [this]

theorem sweepEnt_id (i ty : Ident) (x : Entity) : (sweepEnt i ty x).id = x.id := by
  unfold sweepEnt
  cases lookupA ty x.rels with
  | none => rfl
  | some tree =>
    by_cases h1 : x.id = i
    · simp [h1]
    · by_cases h2 : memb i tree = true <;> simp [h1, h2]

theorem sweepEnt_keys (i ty : Ident) (x : Entity) :
    (sweepEnt i ty x).rels.map Prod.fst = x.rels.map Prod.fst := by
  unfold sweepEnt
  cases lookupA ty x.rels with
  | none => rfl
  | some tree =>
    by_cases h1 : x.id = i
    · simp [h1, setA_keys]
    · by_cases h2 : memb i tree = true <;> simp [h1, h2, setA_keys]

theorem sweepEnt_trees_sorted {i ty : Ident} {x : Entity}
    (hs : ∀ p ∈ x.rels, Sorted p.2) : ∀ p ∈ (sweepEnt i ty x).rels, Sorted p.2 := by
  unfold sweepEnt
  cases hrl : lookupA ty x.rels with
  | none => exact hs
  | some tree =>
    by_cases h1 : x.id = i
    · simp only [if_pos h1]
      intro p hp
      rcases mem_setA hp with h2 | h2
      · subst h2
        simp [Sorted]
      · exact hs p h2
    · by_cases h2 : memb i tree = true
      · simp only [if_neg h1, if_pos h2]
        intro p hp
        rcases mem_setA hp with h3 | h3
        · subst h3
          exact treeErase_sorted (hs (ty, tree) (lookupA_mem hrl))
        · exact hs p h3
      · simp only [if_neg h1, h2, Bool.false_eq_true, if_false]
        exact hs

theorem sweepEnt_deg_self {i ty : Ident} {x : Entity} (h : x.id = i) :
    deg ty (sweepEnt i ty x) = 0 := by
  unfold sweepEnt
  cases hrl : lookupA ty x.rels with
  | none => exact deg_of_lookup_none hrl
  | some tree =>
    simp only [if_pos h]
    show ((lookupA ty (setA ty [] x.rels)).getD []).length = 0
    rw [lookupA_setA_self (by rw [hrl]; rfl)]
    rfl

theorem sweepEnt_deg_other {i ty ty' : Ident} {x : Entity} (h : ty' ≠ ty) :
    deg ty' (sweepEnt i ty x) = deg ty' x := by
  unfold sweepEnt
  cases hrl : lookupA ty x.rels with
  | none => rfl
  | some tree =>
    by_cases h1 : x.id = i
    · simp only [if_pos h1]
      show ((lookupA ty' (setA ty [] x.rels)).getD []).length = _
      rw [lookupA_setA_other h]
      rfl
    · by_cases h2 : memb i tree = true
      · simp only [if_neg h1, if_pos h2]
        show ((lookupA ty' (setA ty (treeErase i tree) x.rels)).getD []).length = _
        rw [lookupA_setA_other h]
        rfl
      · simp only [if_neg h1, h2, Bool.false_eq_true, if_false]

theorem sweepEnt_eq_self {i ty : Ident} {x : Entity} (h : deg ty x = 0) :
    sweepEnt i ty x = x := by
  unfold sweepEnt
  cases hrl : lookupA ty x.rels with
  | none => rfl
  | some tree =>
    have htree : tree = [] := by
      have := deg_of_lookup_some hrl
      rw [h] at this
      exact List.length_eq_zero.mp this.symm
    subst htree
    by_cases h1 : x.id = i
    · simp only [if_pos h1]
      rw [setA_same hrl]
    · simp only [if_neg h1, memb, Bool.false_eq_true, if_false]

theorem map_sweep_ids (i ty : Ident) (l : List Entity) :
    (l.map (sweepEnt i ty)).map Entity.id = l.map Entity.id := by
  rw [List.map_map]
  refine List.map_congr_left ?_
  intro e _
  exact sweepEnt_id i ty e

theorem maxDegL_map_congr {l : List Entity} {g : Entity → Entity} {ty' : Ident}
    (h : ∀ e ∈ l, deg ty' (g e) = deg ty' e) : maxDegL (l.map g) ty' = maxDegL l ty' := by
  unfold maxDegL
  rw [List.map_map]
  congr 1
  exact List.map_congr_left fun e he => h e he

theorem achiever_map_iff {l : List Entity} {g : Entity → Entity} {ty' x : Ident} {m : Nat}
    (hid : ∀ e, (g e).id = e.id) (h : ∀ e ∈ l, deg ty' (g e) = deg ty' e) :
    (∃ e' ∈ l.map g, e'.id = x ∧ deg ty' e' = m) ↔ (∃ e ∈ l, e.id = x ∧ deg ty' e = m) := by
  constructor
  · rintro ⟨e', he', hx, hm⟩
    rcases List.mem_map.mp he' with ⟨e, he, h1⟩
    subst h1
    exact ⟨e, he, (hid e).symm.trans hx, (h e he).symm.trans hm⟩
  · rintro ⟨e, he, hx, hm⟩
    exact ⟨g e, List.mem_map_of_mem g he, (hid e).trans hx, (h e he).trans hm⟩

theorem restore_no_desc {s : St} {ty : Ident} (h : list_search_rt s.relTypes ty = none) :
    restore_data_maximum s ty = s := by
  simp only [restore_data_maximum, h]

/-- One type's processing inside `delent` preserves the invariant; the
entities end up swept, and every descriptor either has the processed key or
is an untouched old one. -/
theorem delentOneType_spec {s : St} (hInv : Inv s) (i ty : Ident) :
    Inv (delentOneType i ty s) ∧
    (delentOneType i ty s).entities = s.entities.map (sweepEnt i ty) ∧
    (∀ d' ∈ (delentOneType i ty s).relTypes, d'.key = ty ∨ d' ∈ s.relTypes) := by
  have hndE1 : ((s.entities.map (sweepEnt i ty)).map Entity.id).Nodup := by
    rw [map_sweep_ids]
    exact hInv.entsNodup
  have hRK1 : ∀ e' ∈ s.entities.map (sweepEnt i ty), (e'.rels.map Prod.fst).Nodup := by
    intro e' he'
    rcases List.mem_map.mp he' with ⟨e, he, h1⟩
    subst h1
    rw [sweepEnt_keys]
    exact hInv.relKeysNodup e he
  have hTS1 : ∀ e' ∈ s.entities.map (sweepEnt i ty), ∀ p ∈ e'.rels, Sorted p.2 := by
    intro e' he'
    rcases List.mem_map.mp he' with ⟨e, he, h1⟩
    subst h1
    exact sweepEnt_trees_sorted (hInv.treesSorted e he)
  have hmaxO1 : ∀ ty', ty' ≠ ty →
      maxDegL (s.entities.map (sweepEnt i ty)) ty' = maxDeg s ty' :=
    fun ty' hne => maxDegL_map_congr fun e _ => sweepEnt_deg_other hne
  have hach1 : ∀ ty', ty' ≠ ty → ∀ (x : Ident) (m : Nat),
      (∃ e' ∈ s.entities.map (sweepEnt i ty), e'.id = x ∧ deg ty' e' = m) ↔
      (∃ e ∈ s.entities, e.id = x ∧ deg ty' e = m) :=
    fun ty' hne x m => achiever_map_iff (sweepEnt_id i ty) (fun e _ => sweepEnt_deg_other hne)
  cases hrt : list_search_rt s.relTypes ty with
  | none =>
    -- the type has no descriptor: every tree for it is empty, nothing happens
    have hnk := list_search_rt_eq_none hrt
    have horph := hInv.orphan ty hnk
    have hsweep : s.entities.map (sweepEnt i ty) = s.entities := by
      have h1 : s.entities.map (sweepEnt i ty) = s.entities.map id :=
        List.map_congr_left fun e he => sweepEnt_eq_self (horph e he)
      rw [h1, List.map_id]
    have hRT1 : ∀ b : Bool, (if b = true then
        updRT s.relTypes ty (fun d0 => { d0 with leaders := treeErase i d0.leaders })
        else s.relTypes) = s.relTypes := by
      intro b
      cases b
      · rw [if_neg (by simp)]
      · rw [if_pos rfl]
        exact updRT_id hnk
    have heq : delentOneType i ty s = s := by
      simp only [delentOneType]
      rw [hRT1, hsweep]
      have hs : ({ entities := s.entities, relTypes := s.relTypes } : St) = s := rfl
      rw [hs]
      exact restore_no_desc hrt
    rw [heq]
    refine ⟨hInv, hsweep.symm, fun d' hd' => Or.inr hd'⟩
  | some d =>
    obtain ⟨hdmem, hdkey⟩ := list_search_rt_eq_some hrt
    simp only [delentOneType]
    set RT1 := (if (match hash_search s i with
        | some e => (lookupA ty e.rels).isSome
        | none => false) = true then
        updRT s.relTypes ty (fun d0 => { d0 with leaders := treeErase i d0.leaders })
        else s.relTypes) with hRT1def
    have hRT1keys : RT1.map RelType.key = s.relTypes.map RelType.key := by
      rw [hRT1def]
      split
      · exact updRT_map_key (fun d0 => rfl)
      · rfl
    have hRT1nd : (RT1.map RelType.key).Nodup := by
      rw [hRT1keys]
      exact rtKeysNodup hInv
    have hRT1sorted : (RT1.map RelType.key).Pairwise (fun a b => strlt a b = true) := by
      rw [hRT1keys]
      exact hInv.rtSorted
    have hRT1mem : ∀ d' ∈ RT1, d'.key = ty ∨ (d' ∈ s.relTypes ∧ d'.key ≠ ty) := by
      intro d' hd'
      rw [hRT1def] at hd'
      by_cases hk0 : d'.key = ty
      · exact Or.inl hk0
      · refine Or.inr ⟨?_, hk0⟩
        revert hd'
        split
        · intro hd'
          rcases mem_updRT.mp hd' with ⟨d0, hd0, h1⟩
          by_cases hk1 : d0.key = ty
          · rw [if_pos hk1] at h1
            subst h1
            exact absurd hk1 hk0
          · rw [if_neg hk1] at h1
            subst h1
            exact hd0
        · intro hd'
          exact hd'
    have hd1 : ∃ d1, list_search_rt RT1 ty = some d1 ∧ Sorted d1.leaders ∧ d1.key = ty := by
      rw [hRT1def]
      split
      · refine ⟨{ d with leaders := treeErase i d.leaders }, ?_, ?_, hdkey⟩
        · rw [list_search_rt_updRT_self
            (f := fun d0 => { d0 with leaders := treeErase i d0.leaders }) (fun d0 => rfl), hrt]
          rfl
        · exact treeErase_sorted (hInv.ldrSorted d hdmem)
      · exact ⟨d, hrt, hInv.ldrSorted d hdmem, hdkey⟩
    obtain ⟨d1, hd1find, hd1sorted, hd1key⟩ := hd1
    have hrt1 : list_search_rt ({ entities := s.entities.map (sweepEnt i ty), relTypes := RT1 } : St).relTypes ty = some d1 := hd1find
    obtain ⟨hres0, hresP⟩ := restore_spec hrt1 hndE1 hd1sorted
    by_cases hM : maxDeg ({ entities := s.entities.map (sweepEnt i ty), relTypes := RT1 } : St) ty = 0
    · rw [hres0 hM]
      have hdegall : ∀ e' ∈ s.entities.map (sweepEnt i ty), deg ty e' = 0 := by
        intro e' he'
        have h1 : deg ty e' ≤ 0 := by
          rw [← hM]
          exact deg_le_maxDeg (s := { entities := s.entities.map (sweepEnt i ty), relTypes := RT1 }) he'
        omega
      refine ⟨inv_mk hndE1 hRK1 hTS1 ?_ ?_ ?_, rfl, ?_⟩
      · exact hRT1sorted.sublist ((list_delete_sublist RT1 ty).map RelType.key)
      · intro d' hd'
        rw [mem_list_delete hRT1nd] at hd'
        obtain ⟨hd'RT1, hk0⟩ := hd'
        rcases hRT1mem d' hd'RT1 with h1 | ⟨h1, _⟩
        · exact absurd h1 hk0
        · exact desc_ok_transfer hInv h1 (hmaxO1 d'.key hk0) (hach1 d'.key hk0)
      · intro ty'' hky'' e' he'
        by_cases hty'' : ty'' = ty
        · subst hty''
          exact hdegall e' he'
        · have hold : ∀ d0 ∈ s.relTypes, d0.key ≠ ty'' := by
            intro d0 hd0 hk0eq
            by_cases hk0 : d0.key = ty
            · exact hty'' (hk0eq.symm.trans hk0)
            · have hd0RT1 : d0 ∈ RT1 := by
                rw [hRT1def]
                split
                · exact mem_updRT.mpr ⟨d0, hd0, (if_neg hk0).symm⟩
                · exact hd0
              exact hky'' d0 ((mem_list_delete hRT1nd).mpr ⟨hd0RT1, hk0⟩) hk0eq
          have horphOld := hInv.orphan ty'' hold
          rcases List.mem_map.mp he' with ⟨e, he, h1⟩
          subst h1
          rw [sweepEnt_deg_other hty'']
          exact horphOld e he
      · intro d' hd'
        rw [mem_list_delete hRT1nd] at hd'
        rcases hRT1mem d' hd'.1 with h1 | ⟨h1, _⟩
        · exact Or.inl h1
        · exact Or.inr h1
    · obtain ⟨L, hLs, hLchar, heq⟩ := hresP hM
      rw [heq]
      have hMpos : 1 ≤ maxDeg ({ entities := s.entities.map (sweepEnt i ty), relTypes := RT1 } : St) ty := Nat.one_le_iff_ne_zero.mpr hM
      refine ⟨inv_mk hndE1 hRK1 hTS1 ?_ ?_ ?_, rfl, ?_⟩
      · rw [updRT_map_key (f := fun d0 => { d0 with current_maximum := maxDeg ({ entities := s.entities.map (sweepEnt i ty), relTypes := RT1 } : St) ty, leaders := L }) (fun d0 => rfl)]
        exact hRT1sorted
      · intro d' hd'
        rcases mem_updRT.mp hd' with ⟨d0, hd0, h1⟩
        by_cases hk0 : d0.key = ty
        · rw [if_pos hk0] at h1
          subst h1
          refine ⟨hLs, ?_, hMpos, ?_⟩
          · show maxDeg _ ty = maxDegL (s.entities.map (sweepEnt i ty)) d0.key
            rw [hk0]
            rfl
          · intro x
            rw [hk0]
            exact hLchar x
        · rw [if_neg hk0] at h1
          subst h1
          rcases hRT1mem d' hd0 with h1 | ⟨h1, _⟩
          · exact absurd h1 hk0
          · exact desc_ok_transfer hInv h1 (hmaxO1 d'.key hk0) (hach1 d'.key hk0)
      · intro ty'' hky'' e' he'
        have hkeys : ∀ d0 ∈ RT1, d0.key ≠ ty'' := by
          intro d0 hd0
          have himg : (if d0.key = ty then
              ({ d0 with current_maximum := maxDeg ({ entities := s.entities.map (sweepEnt i ty), relTypes := RT1 } : St) ty, leaders := L } : RelType)
              else d0) ∈
              updRT RT1 ty (fun d0 => { d0 with current_maximum := maxDeg ({ entities := s.entities.map (sweepEnt i ty), relTypes := RT1 } : St) ty, leaders := L }) :=
            mem_updRT.mpr ⟨d0, hd0, rfl⟩
          have hk := hky'' _ himg
          by_cases hk0 : d0.key = ty
          · rw [if_pos hk0] at hk
            exact hk
          · rw [if_neg hk0] at hk
            exact hk
        have hd1RT1 : d1 ∈ RT1 := (list_search_rt_eq_some hd1find).1
        have hty'' : ty'' ≠ ty := fun h0 => hkeys d1 hd1RT1 (hd1key.trans h0.symm)
        have hold : ∀ d0 ∈ s.relTypes, d0.key ≠ ty'' := by
          intro d0 hd0
          by_cases hk0 : d0.key = ty
          · rw [hk0]
            exact fun h0 => hty'' h0.symm
          · refine hkeys d0 ?_
            rw [hRT1def]
            split
            · exact mem_updRT.mpr ⟨d0, hd0, (if_neg hk0).symm⟩
            · exact hd0
        have horphOld := hInv.orphan ty'' hold
        rcases List.mem_map.mp he' with ⟨e, he, h1⟩
        subst h1
        rw [sweepEnt_deg_other hty'']
        exact horphOld e he
      · intro d' hd'
        rcases mem_updRT.mp hd' with ⟨d0, hd0, h1⟩
        by_cases hk0 : d0.key = ty
        · rw [if_pos hk0] at h1
          subst h1
          exact Or.inl hk0
        · rw [if_neg hk0] at h1
          subst h1
          rcases hRT1mem d' hd0 with h1 | ⟨h1, _⟩
          · exact Or.inl h1
          · exact Or.inr h1

/-- The type loop of `delent` preserves the invariant; afterwards the dying
entity has in-degree 0 for every type that still has a descriptor. -/
theorem inv_delentTypes (i : Ident) :
    ∀ (ks : List Ident) (s : St), Inv s →
    (∀ d ∈ s.relTypes, d.key ∈ ks ∨ (∀ e ∈ s.entities, e.id = i → deg d.key e = 0)) →
    Inv (delentTypes i ks s) ∧
    (∀ d ∈ (delentTypes i ks s).relTypes, ∀ e ∈ (delentTypes i ks s).entities,
      e.id = i → deg d.key e = 0) := by
  intro ks
  induction ks with
  | nil =>
    intro s hInv hprop
    refine ⟨hInv, ?_⟩
    intro d hd e he hei
    rcases hprop d hd with h1 | h1
    · simp at h1
    · exact h1 e he hei
  | cons ty rest ih =>
    intro s hInv hprop
    obtain ⟨hInv1, hent1, hdesc1⟩ := delentOneType_spec hInv i ty
    show Inv (delentTypes i rest (delentOneType i ty s)) ∧ _
    refine ih (delentOneType i ty s) hInv1 ?_
    intro d' hd'
    by_cases hk : d'.key = ty
    · refine Or.inr ?_
      intro e' he' hei
      rw [hent1] at he'
      rcases List.mem_map.mp he' with ⟨e, he, h2⟩
      subst h2
      have heid : e.id = i := by rw [← sweepEnt_id i ty e]; exact hei
      rw [hk]
      exact sweepEnt_deg_self heid
    · rcases hdesc1 d' hd' with h1 | h1
      · exact absurd h1 hk
      · rcases hprop d' h1 with h2 | h2
        · rcases List.mem_cons.mp h2 with h3 | h3
          · exact absurd h3 hk
          · exact Or.inl h3
        · refine Or.inr ?_
          intro e' he' hei
          rw [hent1] at he'
          rcases List.mem_map.mp he' with ⟨e, he, h3⟩
          subst h3
          have heid : e.id = i := by rw [← sweepEnt_id i ty e]; exact hei
          rw [sweepEnt_deg_other hk]
          exact h2 e he heid

/-- Removing an entity whose in-degree is 0 for every descriptor keeps the
invariant (the final `hash_delete` of `delent`). -/
theorem inv_filter {s' : St} (hInv : Inv s') (i : Ident)
    (hdeg0 : ∀ d ∈ s'.relTypes, ∀ e ∈ s'.entities, e.id = i → deg d.key e = 0) :
    Inv { s' with entities := (s'.entities.filter (fun e => decide (e.id ≠ i))) } := by
  have hmemF : ∀ e : Entity, e ∈ s'.entities.filter (fun e => decide (e.id ≠ i)) ↔
      e ∈ s'.entities ∧ e.id ≠ i := by
    intro e
    rw [List.mem_filter]
    simp
  refine inv_mk ?_ ?_ ?_ hInv.rtSorted ?_ ?_
  · exact hInv.entsNodup.sublist (List.Sublist.map Entity.id (List.filter_sublist _))
  · intro e he
    exact hInv.relKeysNodup e ((hmemF e).mp he).1
  · intro e he
    exact hInv.treesSorted e ((hmemF e).mp he).1
  · intro d hd
    have hcm := hInv.maxEq d hd
    have hpos := hInv.maxPos d hd
    refine ⟨hInv.ldrSorted d hd, ?_, hpos, ?_⟩
    · show d.current_maximum
        = maxDegL (s'.entities.filter (fun e => decide (e.id ≠ i))) d.key
      refine Nat.le_antisymm ?_ ?_
      · obtain ⟨e0, he0, hde0⟩ := maxDeg_attained (s := s') (y := d.key) (by omega)
        have hne0 : e0.id ≠ i := by
          intro h0
          have hz := hdeg0 d hd e0 he0 h0
          omega
        calc d.current_maximum = deg d.key e0 := by rw [hcm, hde0]
        _ ≤ _ := deg_le_maxDegL ((hmemF e0).mpr ⟨he0, hne0⟩)
      · refine maxDegL_le ?_
        intro e he
        rw [hcm]
        exact deg_le_maxDeg ((hmemF e).mp he).1
    · intro x
      rw [hInv.ldrChar d hd x]
      constructor
      · rintro ⟨e, he, hid, hdeg⟩
        have hne : e.id ≠ i := by
          intro h0
          have hz := hdeg0 d hd e he h0
          omega
        exact ⟨e, (hmemF e).mpr ⟨he, hne⟩, hid, hdeg⟩
      · rintro ⟨e, he, hid, hdeg⟩
        exact ⟨e, ((hmemF e).mp he).1, hid, hdeg⟩
  · intro ty'' hky'' e he
    exact hInv.orphan ty'' hky'' e ((hmemF e).mp he).1

theorem delent_no {s : St} {i : Ident} (h : hash_search s i = none) : delent s i = s := by
  simp only [delent, h]

theorem delent_eq {s : St} {i : Ident} {e : Entity} (h : hash_search s i = some e) :
    delent s i = { delentTypes i (s.relTypes.map RelType.key) s with
      entities := ((delentTypes i (s.relTypes.map RelType.key) s).entities.filter
        (fun e => decide (e.id ≠ i))) } := by
  simp only [delent, h]

/-- The `delent` preserves the global invariant. -/
theorem inv_delent {s : St} (hInv : Inv s) (i : Ident) : Inv (delent s i) := by
  cases hh : hash_search s i with
  | none => rw [delent_no hh]; exact hInv
  | some e =>
  rw [delent_eq hh]
  obtain ⟨hInv', hzero⟩ := inv_delentTypes i (s.relTypes.map RelType.key) s hInv
    (fun d hd => Or.inl (List.mem_map_of_mem RelType.key hd))
  exact inv_filter hInv' i hzero

/-- The `addent` preserves the global invariant. -/
theorem inv_addent {s : St} (hInv : Inv s) (i : Ident) : Inv (addent s i) := by
  cases hh : hash_search s i with
  | some e => simp only [addent, hh]; exact hInv
  | none =>
  simp only [addent, hh]
  have hid : ∀ e ∈ s.entities, e.id ≠ i := hash_search_eq_none hh
  have hdeg0 : ∀ ty' : Ident, deg ty' (⟨i, []⟩ : Entity) = 0 := fun _ => rfl
  have hmemA : ∀ e : Entity, e ∈ s.entities ++ [⟨i, []⟩] ↔
      e ∈ s.entities ∨ e = ⟨i, []⟩ := by
    intro e
    rw [List.mem_append, List.mem_singleton]
  refine inv_mk ?_ ?_ ?_ hInv.rtSorted ?_ ?_
  · rw [List.map_append]
    rw [List.nodup_append]
    refine ⟨hInv.entsNodup, by simp, ?_⟩
    intro a ha hb
    simp only [List.map_cons, List.map_nil, List.mem_singleton] at hb
    rcases List.mem_map.mp ha with ⟨e, he, h1⟩
    subst h1
    exact hid e he hb
  · intro e he
    rcases (hmemA e).mp he with h1 | h1
    · exact hInv.relKeysNodup e h1
    · subst h1
      simp
  · intro e he
    rcases (hmemA e).mp he with h1 | h1
    · exact hInv.treesSorted e h1
    · subst h1
      intro p hp
      simp at hp
  · intro d hd
    have hcm := hInv.maxEq d hd
    have hpos := hInv.maxPos d hd
    refine ⟨hInv.ldrSorted d hd, ?_, hpos, ?_⟩
    · show d.current_maximum = maxDegL (s.entities ++ [⟨i, []⟩]) d.key
      refine Nat.le_antisymm ?_ ?_
      · obtain ⟨e0, he0, hde0⟩ := maxDeg_attained (s := s) (y := d.key) (by omega)
        calc d.current_maximum = deg d.key e0 := by rw [hcm, hde0]
        _ ≤ _ := deg_le_maxDegL ((hmemA e0).mpr (Or.inl he0))
      · refine maxDegL_le ?_
        intro e he
        rcases (hmemA e).mp he with h1 | h1
        · rw [hcm]
          exact deg_le_maxDeg h1
        · subst h1
          rw [hdeg0]
          omega
    · intro x
      rw [hInv.ldrChar d hd x]
      constructor
      · rintro ⟨e, he, hid1, hdeg⟩
        exact ⟨e, (hmemA e).mpr (Or.inl he), hid1, hdeg⟩
      · rintro ⟨e, he, hid1, hdeg⟩
        rcases (hmemA e).mp he with h1 | h1
        · exact ⟨e, h1, hid1, hdeg⟩
        · subst h1
          rw [hdeg0] at hdeg
          omega
  · intro ty'' hky'' e he
    rcases (hmemA e).mp he with h1 | h1
    · exact hInv.orphan ty'' hky'' e h1
    · subst h1
      exact hdeg0 ty''

/-- Every command preserves the global invariant. -/
theorem inv_exec {s : St} (hInv : Inv s) (c : Cmd) : Inv (exec s c) := by
  cases c with
  | addent i => exact inv_addent hInv i
  | delent i => exact inv_delent hInv i
  | addrel f t ty => exact inv_addrel hInv f t ty
  | delrel f t ty => exact inv_delrel hInv f t ty
  | report => exact hInv

/-- The invariant holds after any run from the initial state. -/
theorem inv_run (cs : List Cmd) : Inv (run initSt cs) := by
  suffices h : ∀ s, Inv s → Inv (run s cs) from h initSt inv_initSt
  induction cs with
  | nil => intro s h; exact h
  | cons c rest ih =>
    intro s h
    exact ih _ (inv_exec h c)

/-- The invariant holds in every reachable state. -/
theorem inv_reachable {s : St} (h : Reachable s) : Inv s := by
  obtain ⟨cs, rfl⟩ := h
  exact inv_run cs

/-! ### Locating the rewritten target entity -/

theorem find_updEnt {ents : List Entity} {t : Ident} {g : Entity → Entity} {te : Entity}
    (hnd : (ents.map Entity.id).Nodup) (hte : te ∈ ents) (hid : te.id = t)
    (hgid : ∀ e, (g e).id = e.id) :
    (updEnt ents t g).find? (fun e => decide (e.id = t)) = some (g te) := by
  induction ents with
  | nil => simp at hte
  | cons e rest ih =>
    rw [List.map_cons] at hnd
    rcases List.nodup_cons.mp hnd with ⟨h0, hrest⟩
    by_cases he : e.id = t
    · have hete : te = e := by
        rcases List.mem_cons.mp hte with h1 | h1
        · exact h1
        · exact absurd (hid.trans he.symm ▸ List.mem_map_of_mem Entity.id h1) h0
      subst hete
      unfold updEnt
      simp only [List.map_cons, if_pos he, List.find?]
      rw [decide_eq_true ((hgid te).trans he)]
    · have hterest : te ∈ rest := by
        rcases List.mem_cons.mp hte with h1 | h1
        · exact absurd (h1 ▸ hid) he
        · exact h1
      unfold updEnt
      simp only [List.map_cons, if_neg he, List.find?]
      rw [decide_eq_false he]
      exact ih hrest hterest

theorem hash_search_updEnt {ents : List Entity} {rts : List RelType} {t : Ident}
    {g : Entity → Entity} {te : Entity}
    (hnd : (ents.map Entity.id).Nodup) (hte : te ∈ ents) (hid : te.id = t)
    (hgid : ∀ e, (g e).id = e.id) :
    hash_search ({ entities := updEnt ents t g, relTypes := rts } : St) t = some (g te) :=
  find_updEnt hnd hte hid hgid

theorem addrel_ids {s : St} (hInv : Inv s) (f t ty : Ident) :
    (addrel s f t ty).entities.map Entity.id = s.entities.map Entity.id := by
  cases hf : hash_search s f with
  | none => rw [addrel_no_from hf]
  | some fe =>
  cases ht : hash_search s t with
  | none => rw [addrel_no_to ht]
  | some te =>
  by_cases hpres : memb f ((lookupA ty te.rels).getD []) = true
  · rw [addrel_present hInv hf ht hpres]
  · have hmemF : memb f ((lookupA ty te.rels).getD []) = false :=
      Bool.eq_false_iff.mpr hpres
    rw [addrel_eq_of hf ht hmemF rfl rfl]
    cases list_search_rt s.relTypes ty with
    | none =>
      dsimp only
      refine updEnt_map_id ?_
      intro e
      rfl
    | some d =>
      dsimp only
      split_ifs <;> (refine updEnt_map_id ?_; intro e; rfl)

theorem hash_search_isSome_of_ids {s s' : St}
    (hids : s'.entities.map Entity.id = s.entities.map Entity.id) {i : Ident} {e : Entity}
    (h : hash_search s i = some e) : (hash_search s' i).isSome := by
  obtain ⟨he, hid⟩ := hash_search_eq_some h
  have h1 : i ∈ s'.entities.map Entity.id := by
    rw [hids, ← hid]
    exact List.mem_map_of_mem Entity.id he
  rcases List.mem_map.mp h1 with ⟨e', he', hid'⟩
  exact hash_search_isSome he' hid'

/-- After a fresh `addrel`, the relation is present in the target's tree. -/
theorem addrel_target {s : St} {f t ty : Ident} {fe te : Entity}
    (hInv : Inv s)
    (hf : hash_search s f = some fe) (ht : hash_search s t = some te)
    (hmemF : memb f ((lookupA ty te.rels).getD []) = false) :
    ∃ te1, hash_search (addrel s f t ty) t = some te1 ∧
      memb f ((lookupA ty te1.rels).getD []) = true := by
  obtain ⟨hte, hteid⟩ := hash_search_eq_some ht
  obtain ⟨R1, R2, R3, R4⟩ :=
    rels2_facts rfl (hInv.relKeysNodup te hte) (hInv.treesSorted te hte) hmemF
  rw [addrel_eq_of hf ht hmemF rfl rfl]
  set R := (match lookupA ty te.rels with
    | some _ => setA ty (treeInsert f ((lookupA ty te.rels).getD [])) te.rels
    | none => (ty, treeInsert f []) :: te.rels) with hRdef
  have hfound : ∀ rts : List RelType,
      hash_search (St.mk (updEnt s.entities t (fun e => { e with rels := R })) rts) t = some ({ te with rels := R } : Entity) :=
    fun rts => hash_search_updEnt hInv.entsNodup hte hteid (fun e => rfl)
  have hpres1 : memb f ((lookupA ty R).getD []) = true := by
    rw [R1]
    exact memb_iff.mpr (treeInsert_mem.mpr (Or.inl rfl))
  cases list_search_rt s.relTypes ty with
  | none => exact ⟨{ te with rels := R }, hfound _, hpres1⟩
  | some d =>
    dsimp only
    by_cases h1 : ((lookupA ty te.rels).getD []).length + 1 = d.current_maximum
    · rw [if_pos h1]
      by_cases h2 : memb t d.leaders = true
      · rw [if_pos h2]
        exact ⟨{ te with rels := R }, hfound _, hpres1⟩
      · rw [if_neg h2]
        exact ⟨{ te with rels := R }, hfound _, hpres1⟩
    · rw [if_neg h1]
      by_cases h2 : ((lookupA ty te.rels).getD []).length + 1 > d.current_maximum
      · rw [if_pos h2]
        exact ⟨{ te with rels := R }, hfound _, hpres1⟩
      · rw [if_neg h2]
        exact ⟨{ te with rels := R }, hfound _, hpres1⟩

/-! ### Tracking trees across the `delent` sweeps -/

theorem mem_of_mem_treeErase {x z : Ident} {l : List Ident}
    (h : z ∈ treeErase x l) : z ∈ l := by
  induction l with
  | nil => simpa [treeErase] using h
  | cons y ys ih =>
    by_cases hxy : x = y
    · simp only [treeErase, if_pos hxy] at h
      exact List.mem_cons_of_mem y h
    · simp only [treeErase, if_neg hxy] at h
      rcases List.mem_cons.mp h with h1 | h1
      · exact List.mem_cons.mpr (Or.inl h1)
      · exact List.mem_cons_of_mem y (ih h1)

theorem sweepEnt_lookup_other {i ty ty' : Ident} {x : Entity} (h : ty' ≠ ty) :
    lookupA ty' (sweepEnt i ty x).rels = lookupA ty' x.rels := by
  unfold sweepEnt
  cases hrl : lookupA ty x.rels with
  | none => rfl
  | some tree =>
    by_cases h1 : x.id = i
    · simp only [if_pos h1]
      show lookupA ty' (setA ty [] x.rels) = _
      exact lookupA_setA_other h
    · by_cases h2 : memb i tree = true
      · simp only [if_neg h1, if_pos h2]
        show lookupA ty' (setA ty (treeErase i tree) x.rels) = _
        exact lookupA_setA_other h
      · simp only [if_neg h1, h2, Bool.false_eq_true, if_false]

theorem sweepEnt_tree_sub (i ty ty' : Ident) (x : Entity) :
    ∀ z ∈ (lookupA ty' (sweepEnt i ty x).rels).getD [],
      z ∈ (lookupA ty' x.rels).getD [] := by
  by_cases h : ty' = ty
  · subst h
    intro z hz
    revert hz
    unfold sweepEnt
    cases hrl : lookupA ty' x.rels with
    | none =>
      intro hz
      rw [hrl] at hz
      exact hz
    | some tree =>
      by_cases h1 : x.id = i
      · simp only [if_pos h1]
        intro hz
        rw [lookupA_setA_self (by rw [hrl]; rfl)] at hz
        simp at hz
      · by_cases h2 : memb i tree = true
        · simp only [if_neg h1, if_pos h2]
          intro hz
          rw [lookupA_setA_self (by rw [hrl]; rfl)] at hz
          exact mem_of_mem_treeErase hz
        · simp only [if_neg h1, h2, Bool.false_eq_true, if_false]
          intro hz
          rw [hrl] at hz
          exact hz
  · rw [sweepEnt_lookup_other h]
    intro z hz
    exact hz

theorem sweepEnt_no_source {i ty : Ident} {x : Entity}
    (hs : ∀ p ∈ x.rels, Sorted p.2) :
    i ∉ (lookupA ty (sweepEnt i ty x).rels).getD [] := by
  unfold sweepEnt
  cases hrl : lookupA ty x.rels with
  | none =>
    rw [hrl]
    simp
  | some tree =>
    by_cases h1 : x.id = i
    · simp only [if_pos h1]
      rw [lookupA_setA_self (by rw [hrl]; rfl)]
      simp
    · by_cases h2 : memb i tree = true
      · simp only [if_neg h1, if_pos h2]
        rw [lookupA_setA_self (by rw [hrl]; rfl)]
        show i ∉ treeErase i tree
        intro hmem
        have hsort : Sorted tree := hs (ty, tree) (lookupA_mem hrl)
        rw [treeErase_mem_of_sorted hsort] at hmem
        exact hmem.2 rfl
      · simp only [if_neg h1, h2, Bool.false_eq_true, if_false]
        rw [hrl]
        show i ∉ tree
        exact memb_eq_false_iff.mp (Bool.eq_false_iff.mpr h2)

/-- Every entity surviving the type loop of `delent` corresponds to a live
entity of the original state with the same id and pointwise smaller trees. -/
theorem delentTypes_ent_corr (i : Ident) : ∀ (ks : List Ident) (s : St), Inv s →
    ∀ e' ∈ (delentTypes i ks s).entities, ∃ e ∈ s.entities, e'.id = e.id ∧
      ∀ ty' : Ident, ∀ z ∈ (lookupA ty' e'.rels).getD [],
        z ∈ (lookupA ty' e.rels).getD [] := by
  intro ks
  induction ks with
  | nil =>
    intro s hInv e' he'
    exact ⟨e', he', rfl, fun ty' z hz => hz⟩
  | cons ty rest ih =>
    intro s hInv e' he'
    obtain ⟨hInv1, hents1, _⟩ := delentOneType_spec hInv i ty
    obtain ⟨e1, he1, hid1, hsub1⟩ := ih (delentOneType i ty s) hInv1 e' he'
    rw [hents1] at he1
    rcases List.mem_map.mp he1 with ⟨e, he, heq⟩
    subst heq
    refine ⟨e, he, hid1.trans (sweepEnt_id i ty e), ?_⟩
    intro ty' z hz
    exact sweepEnt_tree_sub i ty ty' e z (hsub1 ty' z hz)

theorem delentTypes_keep_no (i ty : Ident) : ∀ (ks : List Ident) (s : St), Inv s →
    (∀ e ∈ s.entities, i ∉ (lookupA ty e.rels).getD []) →
    ∀ e' ∈ (delentTypes i ks s).entities, i ∉ (lookupA ty e'.rels).getD [] := by
  intro ks
  induction ks with
  | nil => intro s _ hno e' he'; exact hno e' he'
  | cons ty0 rest ih =>
    intro s hInv hno e' he'
    obtain ⟨hInv1, hents1, _⟩ := delentOneType_spec hInv i ty0
    refine ih (delentOneType i ty0 s) hInv1 ?_ e' he'
    rw [hents1]
    intro e1 he1
    rcases List.mem_map.mp he1 with ⟨e, he, heq⟩
    subst heq
    intro hz
    exact hno e he (sweepEnt_tree_sub i ty0 ty e i hz)

/-- Once the type loop has processed `ty`, the dying entity is gone from
every live entity's tree for `ty`. -/
theorem delentTypes_no_source (i ty : Ident) : ∀ (ks : List Ident) (s : St), Inv s →
    ty ∈ ks →
    ∀ e' ∈ (delentTypes i ks s).entities, i ∉ (lookupA ty e'.rels).getD [] := by
  intro ks
  induction ks with
  | nil =>
    intro s _ hty
    simp at hty
  | cons ty0 rest ih =>
    intro s hInv hty e' he'
    obtain ⟨hInv1, hents1, _⟩ := delentOneType_spec hInv i ty0
    by_cases h0 : ty0 = ty
    · subst h0
      refine delentTypes_keep_no i ty0 rest (delentOneType i ty0 s) hInv1 ?_ e' he'
      rw [hents1]
      intro e1 he1
      rcases List.mem_map.mp he1 with ⟨e, he, heq⟩
      subst heq
      exact sweepEnt_no_source (hInv.treesSorted e he)
    · rcases List.mem_cons.mp hty with h1 | h1
      · exact absurd h1.symm h0
      · exact ih (delentOneType i ty0 s) hInv1 h1 e' he'

/-- The type loop never invents a descriptor key. -/
theorem delentTypes_keys_sub (i : Ident) : ∀ (ks : List Ident) (s : St), Inv s →
    ∀ d' ∈ (delentTypes i ks s).relTypes,
      d'.key ∈ ks ∨ ∃ d0 ∈ s.relTypes, d'.key = d0.key := by
  intro ks
  induction ks with
  | nil =>
    intro s _ d' hd'
    exact Or.inr ⟨d', hd', rfl⟩
  | cons ty0 rest ih =>
    intro s hInv d' hd'
    obtain ⟨hInv1, _, hkeys1⟩ := delentOneType_spec hInv i ty0
    rcases ih (delentOneType i ty0 s) hInv1 d' hd' with h1 | h1
    · exact Or.inl (List.mem_cons_of_mem ty0 h1)
    · obtain ⟨d1, hd1, hk1⟩ := h1
      rcases hkeys1 d1 hd1 with h2 | h2
      · exact Or.inl (by rw [hk1, h2]; exact List.mem_cons_self ty0 rest)
      · exact Or.inr ⟨d1, h2, hk1⟩

/-! ### Claim C5 -/

/-- C5. `delent` of an unknown id is a no-op. `delent` of a live entity
removes it from the registry; for every type with a descriptor it removes
the dying id as a source from every surviving entity's tree; and after
deleting the sole source of all relations of some type, that type has no
descriptor any more — hence does not appear in `report`. -/
theorem C5_delent {s : St} (h : Reachable s) (i : Ident) :
    (hash_search s i = none → delent s i = s) ∧
    (∀ e0, hash_search s i = some e0 →
      ((∀ e' ∈ (delent s i).entities, e'.id ≠ i) ∧
       (∀ e' ∈ (delent s i).entities, ∀ d ∈ s.relTypes,
         i ∉ (lookupA d.key e'.rels).getD []) ∧
       (∀ ty : Ident,
         (∀ e ∈ s.entities, ∀ z ∈ (lookupA ty e.rels).getD [], z = i) →
         ∀ d' ∈ (delent s i).relTypes, d'.key ≠ ty))) := by
  have hInv := inv_reachable h
  refine ⟨fun h0 => delent_no h0, ?_⟩
  intro e0 h0
  have hInvD : Inv (delent s i) := inv_delent hInv i
  have hmemF : ∀ e' ∈ (delent s i).entities,
      e' ∈ (delentTypes i (s.relTypes.map RelType.key) s).entities ∧ e'.id ≠ i := by
    intro e' he'
    rw [delent_eq h0] at he'
    have h1 := List.mem_filter.mp he'
    exact ⟨h1.1, of_decide_eq_true h1.2⟩
  refine ⟨fun e' he' => (hmemF e' he').2, ?_, ?_⟩
  · intro e' he' d hd
    exact delentTypes_no_source i d.key (s.relTypes.map RelType.key) s hInv
      (List.mem_map_of_mem RelType.key hd) e' (hmemF e' he').1
  · intro ty hsole d' hd' hkey
    have hz : ∀ e' ∈ (delent s i).entities, deg ty e' = 0 := by
      intro e' he'
      have hnil : (lookupA ty e'.rels).getD [] = [] := by
        rw [List.eq_nil_iff_forall_not_mem]
        intro z hzmem
        obtain ⟨e, he, _, hsub⟩ := delentTypes_ent_corr i (s.relTypes.map RelType.key) s hInv
          e' (hmemF e' he').1
        have hzi : z = i := hsole e he z (hsub ty z hzmem)
        by_cases hinks : ty ∈ s.relTypes.map RelType.key
        · rw [hzi] at hzmem
          exact delentTypes_no_source i ty (s.relTypes.map RelType.key) s hInv hinks
            e' (hmemF e' he').1 hzmem
        · have horph : deg ty e = 0 := by
            refine hInv.orphan ty ?_ e he
            intro d0 hd0 hk0
            exact hinks (hk0 ▸ List.mem_map_of_mem RelType.key hd0)
          have hnil0 : (lookupA ty e.rels).getD [] = [] := List.length_eq_zero.mp horph
          have h2 := hsub ty z hzmem
          rw [hnil0] at h2
          exact absurd h2 (List.not_mem_nil z)
      show ((lookupA ty e'.rels).getD []).length = 0
      rw [hnil]
      rfl
    have hmax0 : maxDeg (delent s i) ty = 0 :=
      Nat.le_zero.mp (maxDeg_le (fun e he => Nat.le_of_eq (hz e he)))
    have hcm := hInvD.maxEq d' hd'
    have hpos := hInvD.maxPos d' hd'
    rw [hkey, hmax0] at hcm
    omega

theorem C5_delent_witness :
    (hash_search sampleSt [97] = none → delent sampleSt [97] = sampleSt) ∧
    (∀ e0, hash_search sampleSt [97] = some e0 →
      ((∀ e' ∈ (delent sampleSt [97]).entities, e'.id ≠ [97]) ∧
       (∀ e' ∈ (delent sampleSt [97]).entities, ∀ d ∈ sampleSt.relTypes,
         [97] ∉ (lookupA d.key e'.rels).getD []) ∧
       (∀ ty : Ident,
         (∀ e ∈ sampleSt.entities, ∀ z ∈ (lookupA ty e.rels).getD [], z = [97]) →
         ∀ d' ∈ (delent sampleSt [97]).relTypes, d'.key ≠ ty))) :=
  C5_delent ⟨sampleCmds, rfl⟩ [97]

theorem specSortIds_sorted_id {l : List Ident} (h : Sorted l) : specSortIds l = l := by
  induction l with
  | nil => rfl
  | cons a rest ih =>
    rcases List.pairwise_cons.mp h with ⟨ha, hrest⟩
    show specInsertId a (specSortIds rest) = a :: rest
    rw [ih hrest]
    cases rest with
    | nil => rfl
    | cons b rest2 =>
      show (if strlt a b then a :: b :: rest2 else b :: specInsertId a rest2) = _
      rw [if_pos (ha b (List.mem_cons_self b rest2))]

theorem specSortRT_sorted_id {l : List RelType}
    (h : (l.map RelType.key).Pairwise (fun a b => strlt a b = true)) :
    specSortRT l = l := by
  induction l with
  | nil => rfl
  | cons d rest ih =>
    rw [List.map_cons, List.pairwise_cons] at h
    obtain ⟨hd, hrest⟩ := h
    show specInsertRT d (specSortRT rest) = d :: rest
    rw [ih hrest]
    cases rest with
    | nil => rfl
    | cons d2 rest2 =>
      show (if strlt d.key d2.key then d :: d2 :: rest2 else d2 :: specInsertRT d rest2) = _
      rw [if_pos (hd d2.key (List.mem_map_of_mem RelType.key (List.mem_cons_self d2 rest2)))]

theorem print_string_eq (x : Ident) : print_string x = quoted x ++ [32] := by
  simp [print_string, quoted]

theorem reportOne_eq_tokens {d : RelType} (hs : Sorted d.leaders) :
    ((reportSpecTokens d).map (fun tok => tok ++ [32])).flatten = reportOne d := by
  simp only [reportSpecTokens, reportOne, specSortIds_sorted_id hs, List.map_append,
    List.map_cons, List.map_nil, List.flatten_append, List.flatten_cons, List.flatten_nil,
    List.map_map, List.append_nil, List.append_assoc]
  have hmap : List.map ((fun tok => tok ++ [32]) ∘ quoted) d.leaders
      = List.map print_string d.leaders := by
    refine List.map_congr_left ?_
    intro x _
    show quoted x ++ [32] = print_string x
    simp [print_string, quoted]
  rw [hmap]
  simp [print_string, quoted]

theorem decDigits_range (n : Nat) : ∀ b ∈ decDigits n, 48 ≤ b ∧ b ≤ 57 := by
  induction n using Nat.strong_induction_on with
  | _ n ih =>
    intro b hb
    rw [decDigits] at hb
    by_cases h : n < 10
    · rw [dif_pos h] at hb
      rcases List.mem_cons.mp hb with h1 | h1
      · omega
      · simp at h1
    · rw [dif_neg h] at hb
      rcases List.mem_append.mp hb with h1 | h1
      · exact ih (n / 10) (Nat.div_lt_self (by omega) (by omega)) b h1
      · rcases List.mem_cons.mp h1 with h2 | h2
        · have : n % 10 < 10 := Nat.mod_lt n (by omega)
          omega
        · simp at h2

theorem ten_not_in_print_string {x : Ident} (h : ∀ b ∈ x, b ≠ 10) :
    10 ∉ print_string x := by
  intro hmem
  rcases List.mem_cons.mp hmem with h1 | h1
  · omega
  · rcases List.mem_append.mp h1 with h2 | h2
    · exact h 10 h2 rfl
    · rcases List.mem_cons.mp h2 with h3 | h3
      · omega
      · rcases List.mem_cons.mp h3 with h4 | h4
        · omega
        · exact List.not_mem_nil 10 h4

theorem ten_not_in_decpart (n : Nat) : 10 ∉ decDigits n ++ [59, 32] := by
  intro hmem
  rcases List.mem_append.mp hmem with h1 | h1
  · have := decDigits_range n 10 h1
    omega
  · rcases List.mem_cons.mp h1 with h2 | h2
    · omega
    · rcases List.mem_cons.mp h2 with h3 | h3
      · omega
      · exact List.not_mem_nil 10 h3

theorem ten_not_in_reportOne {s : St} (hnl : NoNl s) {d : RelType}
    (hd : d ∈ s.relTypes) : 10 ∉ reportOne d := by
  obtain ⟨hkey, hldr⟩ := hnl d hd
  intro hmem
  rcases List.mem_append.mp hmem with h1 | h1
  · rcases List.mem_append.mp h1 with h2 | h2
    · exact ten_not_in_print_string hkey h2
    · rcases List.mem_flatten.mp h2 with ⟨chunk, hchunk, h3⟩
      rcases List.mem_map.mp hchunk with ⟨x, hx, heq⟩
      subst heq
      exact ten_not_in_print_string (hldr x hx) h3
  · exact ten_not_in_decpart d.current_maximum h1

/-- C2. In every reachable state whose identifiers contain no newline
byte, `report` emits exactly the line the specification prescribes —
descriptors ascending by type name, leaders ascending, every token quoted
and followed by one space, the decimal maximum and `';'`, `none` when no
descriptor exists — and the output is a single line: it contains exactly
one newline byte, sitting at the very end. -/
theorem C2_report_format {s : St} (h : Reachable s) (hnl : NoNl s) :
    report s = reportSpec s ∧
    (report s).count 10 = 1 ∧
    (report s).getLast? = some 10 := by
  have hInv := inv_reachable h
  have hbody : (if s.relTypes.isEmpty then [110, 111, 110, 101]
      else (s.relTypes.map reportOne).flatten) =
      (if s.relTypes.isEmpty then [110, 111, 110, 101]
       else ((specSortRT s.relTypes).map
         (fun d => ((reportSpecTokens d).map (fun tok => tok ++ [32])).flatten)).flatten) := by
    by_cases he : s.relTypes.isEmpty
    · rw [if_pos he, if_pos he]
    · rw [if_neg he, if_neg he, specSortRT_sorted_id hInv.rtSorted]
      congr 1
      refine List.map_congr_left ?_
      intro d hd
      exact (reportOne_eq_tokens (hInv.ldrSorted d hd)).symm
  have hno10 : 10 ∉ (if s.relTypes.isEmpty then [110, 111, 110, 101]
      else (s.relTypes.map reportOne).flatten) := by
    by_cases he : s.relTypes.isEmpty
    · rw [if_pos he]
      decide
    · rw [if_neg he]
      intro hmem
      rcases List.mem_flatten.mp hmem with ⟨chunk, hchunk, h2⟩
      rcases List.mem_map.mp hchunk with ⟨d, hd, heq⟩
      subst heq
      exact ten_not_in_reportOne hnl hd h2
  refine ⟨?_, ?_, ?_⟩
  · show _ ++ [10] = _ ++ [10]
    rw [hbody]
  · show (_ ++ [10]).count 10 = 1
    rw [List.count_append, List.count_eq_zero.mpr hno10]
    rfl
  · show (_ ++ [10]).getLast? = some 10
    rw [List.getLast?_concat]

theorem C2_report_format_witness :
    NoNl sampleSt ∧
    (report sampleSt = reportSpec sampleSt ∧
     (report sampleSt).count 10 = 1 ∧
     (report sampleSt).getLast? = some 10) :=
  ⟨by decide, C2_report_format ⟨sampleCmds, rfl⟩ (by decide)⟩

theorem entEq_refl (e : Entity) : entEq e e := ⟨rfl, fun ty => rfl⟩

theorem stEq_refl (s : St) : stEq s s :=
  ⟨rfl, List.forall₂_same.mpr fun e _ => entEq_refl e⟩

theorem deg_congr {e1 e2 : Entity} (h : entEq e1 e2) (ty : Ident) :
    deg ty e1 = deg ty e2 := by
  show ((lookupA ty e1.rels).getD []).length = ((lookupA ty e2.rels).getD []).length
  rw [h.2 ty]

theorem maxDegL_congr2 {l1 l2 : List Entity} (h : List.Forall₂ entEq l1 l2) (ty : Ident) :
    maxDegL l1 ty = maxDegL l2 ty := by
  induction h with
  | nil => rfl
  | cons he _ ih =>
    show max _ (maxDegL _ ty) = max _ (maxDegL _ ty)
    rw [deg_congr he ty, ih]

theorem achiever_congr {l1 l2 : List Entity} (h : List.Forall₂ entEq l1 l2)
    (ty x : Ident) (m : Nat) :
    (∃ e ∈ l1, e.id = x ∧ deg ty e = m) ↔ (∃ e ∈ l2, e.id = x ∧ deg ty e = m) := by
  induction h with
  | nil => simp
  | cons he hrest ih =>
    constructor
    · rintro ⟨e, he2, hx, hm⟩
      rcases List.mem_cons.mp he2 with h1 | h1
      · subst h1
        exact ⟨_, List.mem_cons_self _ _, he.1.symm.trans hx, (deg_congr he ty).symm.trans hm⟩
      · obtain ⟨e2, he2m, hx2, hm2⟩ := ih.mp ⟨e, h1, hx, hm⟩
        exact ⟨e2, List.mem_cons_of_mem _ he2m, hx2, hm2⟩
    · rintro ⟨e, he2, hx, hm⟩
      rcases List.mem_cons.mp he2 with h1 | h1
      · subst h1
        exact ⟨_, List.mem_cons_self _ _, he.1.trans hx, (deg_congr he ty).trans hm⟩
      · obtain ⟨e1, he1m, hx1, hm1⟩ := ih.mpr ⟨e, h1, hx, hm⟩
        exact ⟨e1, List.mem_cons_of_mem _ he1m, hx1, hm1⟩

theorem hash_search_rel {l1 l2 : List Entity} (h : List.Forall₂ entEq l1 l2) (i : Ident) :
    (l1.find? (fun e => decide (e.id = i)) = none ∧
     l2.find? (fun e => decide (e.id = i)) = none) ∨
    (∃ e1 e2, l1.find? (fun e => decide (e.id = i)) = some e1 ∧
      l2.find? (fun e => decide (e.id = i)) = some e2 ∧ entEq e1 e2) := by
  induction h with
  | nil => exact Or.inl ⟨rfl, rfl⟩
  | @cons a1 a2 t1 t2 he hrest ih =>
    by_cases hid : a1.id = i
    · refine Or.inr ⟨a1, a2, ?_, ?_, he⟩
      · simp [List.find?, hid]
      · simp [List.find?, he.1 ▸ hid]
    · have hid2 : ¬ a2.id = i := fun hx => hid (he.1.trans hx)
      have e1 : t1.find? (fun e => decide (e.id = i))
          = (a1 :: t1).find? (fun e => decide (e.id = i)) := by
        simp [List.find?, hid]
      have e2 : t2.find? (fun e => decide (e.id = i))
          = (a2 :: t2).find? (fun e => decide (e.id = i)) := by
        simp [List.find?, hid2]
      rw [← e1, ← e2]
      exact ih

/-! Small algebraic helpers for the pair analysis. -/

theorem treeErase_treeInsert {x : Ident} {l : List Ident} (h : x ∉ l) :
    treeErase x (treeInsert x l) = l := by
  induction l with
  | nil =>
    show treeErase x [x] = []
    show (if x = x then [] else _) = []
    rw [if_pos rfl]
  | cons y ys ih =>
    have hxy : x ≠ y := fun hx => h (hx ▸ List.mem_cons_self y ys)
    show treeErase x (if strlt x y then x :: y :: ys else y :: treeInsert x ys) = y :: ys
    by_cases hs : strlt x y = true
    · rw [if_pos hs]
      show (if x = x then y :: ys else _) = y :: ys
      rw [if_pos rfl]
    · rw [if_neg hs]
      show (if x = y then treeInsert x ys else y :: treeErase x (treeInsert x ys)) = y :: ys
      rw [if_neg hxy, ih fun hx => h (List.mem_cons_of_mem y hx)]

theorem setA_setA (k : Ident) (v v' : List Ident) (l : List (Ident × List Ident)) :
    setA k v (setA k v' l) = setA k v l := by
  induction l with
  | nil => rfl
  | cons p rest ih =>
    obtain ⟨k', w⟩ := p
    by_cases hk : k = k'
    · subst hk
      simp [setA]
    · simp only [setA, if_neg hk]
      rw [ih]

theorem updEnt_updEnt {ents : List Entity} {t : Ident} {g w : Entity → Entity}
    (h : ∀ e, (g e).id = e.id) :
    updEnt (updEnt ents t g) t w = updEnt ents t (fun e => w (g e)) := by
  unfold updEnt
  rw [List.map_map]
  refine List.map_congr_left ?_
  intro e _
  by_cases he : e.id = t
  · simp only [Function.comp, if_pos he, h, if_pos he]
  · simp only [Function.comp, if_neg he]

theorem updRT_updRT {l : List RelType} {k : Ident} {g w : RelType → RelType}
    (h : ∀ d, (g d).key = d.key) :
    updRT (updRT l k g) k w = updRT l k (fun d => w (g d)) := by
  unfold updRT
  rw [List.map_map]
  refine List.map_congr_left ?_
  intro d _
  by_cases hd : d.key = k
  · simp only [Function.comp, if_pos hd, h, if_pos hd]
  · simp only [Function.comp, if_neg hd]

theorem updRT_fix {l : List RelType} {k : Ident} {f : RelType → RelType}
    (h : ∀ d ∈ l, d.key = k → f d = d) : updRT l k f = l := by
  induction l with
  | nil => rfl
  | cons d rest ih =>
    simp only [updRT, List.map_cons]
    have htl : updRT rest k f = rest := ih fun d' hd' => h d' (List.mem_cons_of_mem d hd')
    simp only [updRT] at htl
    rw [htl]
    by_cases hd : d.key = k
    · rw [if_pos hd, h d (List.mem_cons_self d rest) hd]
    · rw [if_neg hd]

theorem updEnt_forall₂_self {ents : List Entity} {t : Ident} {g : Entity → Entity}
    (h : ∀ e ∈ ents, e.id = t → entEq (g e) e) :
    List.Forall₂ entEq (updEnt ents t g) ents := by
  induction ents with
  | nil => exact List.Forall₂.nil
  | cons e rest ih =>
    show List.Forall₂ entEq ((if e.id = t then g e else e) :: _) (e :: rest)
    refine List.Forall₂.cons ?_ (ih fun e' he' => h e' (List.mem_cons_of_mem e he'))
    by_cases he : e.id = t
    · rw [if_pos he]
      exact h e (List.mem_cons_self e rest) he
    · rw [if_neg he]
      exact entEq_refl e

theorem list_delete_updRT {l : List RelType} {k : Ident} {g : RelType → RelType}
    (hg : ∀ d, (g d).key = d.key) (hnd : (l.map RelType.key).Nodup) :
    list_delete (updRT l k g) k = list_delete l k := by
  induction l with
  | nil => rfl
  | cons d rest ih =>
    rw [List.map_cons] at hnd
    rcases List.nodup_cons.mp hnd with ⟨h0, hrest⟩
    show list_delete ((if d.key = k then g d else d) :: updRT rest k g) k
      = (if d.key = k then rest else d :: list_delete rest k)
    by_cases hd : d.key = k
    · rw [if_pos hd, if_pos hd]
      show (if (g d).key = k then updRT rest k g else _) = rest
      rw [hg d, if_pos hd]
      refine updRT_id ?_
      intro d' hd' hk'
      exact h0 (by rw [hd, ← hk']; exact List.mem_map_of_mem RelType.key hd')
    · rw [if_neg hd, if_neg hd]
      show (if d.key = k then updRT rest k g else d :: list_delete (updRT rest k g) k)
        = d :: list_delete rest k
      rw [if_neg hd, ih hrest]

theorem list_delete_insert_roundtrip {l : List RelType} {k : Ident} {g : RelType → RelType}
    (hg : ∀ d, (g d).key = d.key) (habs : ∀ d ∈ l, d.key ≠ k) :
    list_delete (updRT (list_insert l k) k g) k = l := by
  induction l with
  | nil =>
    show list_delete (updRT [⟨k, [], 0⟩] k g) k = []
    show list_delete ((if (⟨k, [], 0⟩ : RelType).key = k then g ⟨k, [], 0⟩ else ⟨k, [], 0⟩) :: updRT [] k g) k = []
    rw [if_pos rfl]
    show (if (g ⟨k, [], 0⟩).key = k then updRT [] k g else _) = []
    rw [hg ⟨k, [], 0⟩, if_pos rfl]
    rfl
  | cons d rest ih =>
    have hdk : d.key ≠ k := habs d (List.mem_cons_self d rest)
    show list_delete (updRT (if strlt d.key k then d :: list_insert rest k
      else ⟨k, [], 0⟩ :: d :: rest) k g) k = d :: rest
    by_cases hs : strlt d.key k = true
    · rw [if_pos hs]
      show list_delete ((if d.key = k then g d else d) :: updRT (list_insert rest k) k g) k = d :: rest
      rw [if_neg hdk]
      show (if d.key = k then _ else d :: list_delete (updRT (list_insert rest k) k g) k) = d :: rest
      rw [if_neg hdk, ih fun d' hd' => habs d' (List.mem_cons_of_mem d hd')]
    · rw [if_neg hs]
      show list_delete ((if (⟨k, [], 0⟩ : RelType).key = k then g ⟨k, [], 0⟩ else ⟨k, [], 0⟩) :: updRT (d :: rest) k g) k = d :: rest
      rw [if_pos rfl]
      show (if (g ⟨k, [], 0⟩).key = k then updRT (d :: rest) k g else _) = d :: rest
      rw [hg ⟨k, [], 0⟩, if_pos rfl]
      exact updRT_id habs

theorem erelsEq_setA {r1 r2 : List (Ident × List Ident)} (h : erelsEq r1 r2)
    {ty : Ident} {v : List Ident}
    (h1 : (lookupA ty r1).isSome) (h2 : (lookupA ty r2).isSome) :
    erelsEq (setA ty v r1) (setA ty v r2) := by
  intro ty'
  by_cases hk : ty' = ty
  · subst hk
    rw [lookupA_setA_self h1, lookupA_setA_self h2]
  · rw [lookupA_setA_other hk, lookupA_setA_other hk]
    exact h ty'

theorem sweepEnt_congr {i ty : Ident} {e1 e2 : Entity} (h : entEq e1 e2) :
    entEq (sweepEnt i ty e1) (sweepEnt i ty e2) := by
  obtain ⟨hid, hr⟩ := h
  have hT := hr ty
  unfold sweepEnt
  cases h1 : lookupA ty e1.rels with
  | none =>
    cases h2 : lookupA ty e2.rels with
    | none => exact ⟨hid, hr⟩
    | some t2 =>
      dsimp only
      have ht2 : t2 = [] := by
        rw [h1, h2] at hT
        simpa using hT.symm
      subst ht2
      by_cases hei : e2.id = i
      · rw [if_pos hei]
        refine ⟨hid, ?_⟩
        intro ty'
        by_cases hk : ty' = ty
        · subst hk
          show (lookupA ty' e1.rels).getD [] = (lookupA ty' (setA ty' [] e2.rels)).getD []
          rw [h1, lookupA_setA_self (by rw [h2]; rfl)]
          rfl
        · show _ = (lookupA ty' (setA ty [] e2.rels)).getD []
          rw [lookupA_setA_other hk]
          exact hr ty'
      · rw [if_neg hei, if_neg (show ¬ memb i ([] : List Ident) = true by simp [memb])]
        exact ⟨hid, hr⟩
  | some t1 =>
    cases h2 : lookupA ty e2.rels with
    | none =>
      dsimp only
      have ht1 : t1 = [] := by
        rw [h1, h2] at hT
        simpa using hT
      subst ht1
      by_cases hei : e1.id = i
      · rw [if_pos hei]
        refine ⟨hid, ?_⟩
        intro ty'
        by_cases hk : ty' = ty
        · subst hk
          show (lookupA ty' (setA ty' [] e1.rels)).getD [] = (lookupA ty' e2.rels).getD []
          rw [h2, lookupA_setA_self (by rw [h1]; rfl)]
          rfl
        · show (lookupA ty' (setA ty [] e1.rels)).getD [] = _
          rw [lookupA_setA_other hk]
          exact hr ty'
      · rw [if_neg hei, if_neg (show ¬ memb i ([] : List Ident) = true by simp [memb])]
        exact ⟨hid, hr⟩
    | some t2 =>
      dsimp only
      have ht12 : t1 = t2 := by
        rw [h1, h2] at hT
        simpa using hT
      subst ht12
      rw [hid]
      by_cases hei : e2.id = i
      · rw [if_pos hei, if_pos hei]
        exact ⟨rfl, erelsEq_setA hr (by rw [h1]; rfl) (by rw [h2]; rfl)⟩
      · rw [if_neg hei, if_neg hei]
        by_cases hm : memb i t1 = true
        · rw [if_pos hm, if_pos hm]
          exact ⟨rfl, erelsEq_setA hr (by rw [h1]; rfl) (by rw [h2]; rfl)⟩
        · rw [if_neg hm, if_neg hm]
          exact ⟨hid, hr⟩

theorem restoreScan_congr (ty : Ident) : ∀ {l1 l2 : List Entity},
    List.Forall₂ entEq l1 l2 →
    ∀ cm ldr, restoreScan ty l1 cm ldr = restoreScan ty l2 cm ldr := by
  intro l1 l2 h
  induction h with
  | nil => intro cm ldr; rfl
  | @cons e1 e2 t1 t2 he hrest ih =>
    intro cm ldr
    have hT := he.2 ty
    show (match lookupA ty e1.rels with
      | none => restoreScan ty t1 cm ldr
      | some tree =>
        if tree.length > 0 ∧ tree.length = cm then restoreScan ty t1 cm (treeInsert e1.id ldr)
        else if tree.length > cm then restoreScan ty t1 tree.length [e1.id]
        else restoreScan ty t1 cm ldr)
      = (match lookupA ty e2.rels with
      | none => restoreScan ty t2 cm ldr
      | some tree =>
        if tree.length > 0 ∧ tree.length = cm then restoreScan ty t2 cm (treeInsert e2.id ldr)
        else if tree.length > cm then restoreScan ty t2 tree.length [e2.id]
        else restoreScan ty t2 cm ldr)
    cases h1 : lookupA ty e1.rels with
    | none =>
      cases h2 : lookupA ty e2.rels with
      | none => exact ih cm ldr
      | some u2 =>
        dsimp only
        have hu2 : u2 = [] := by
          rw [h1, h2] at hT
          simpa using hT.symm
        subst hu2
        rw [if_neg (by simp), if_neg (by simp)]
        exact ih cm ldr
    | some u1 =>
      dsimp only
      cases h2 : lookupA ty e2.rels with
      | none =>
        have hu1 : u1 = [] := by
          rw [h1, h2] at hT
          simpa using hT
        subst hu1
        rw [if_neg (by simp), if_neg (by simp)]
        exact ih cm ldr
      | some u2 =>
        dsimp only
        have hu12 : u1 = u2 := by
          rw [h1, h2] at hT
          simpa using hT
        subst hu12
        rw [he.1]
        by_cases c1 : u1.length > 0 ∧ u1.length = cm
        · rw [if_pos c1, if_pos c1]
          exact ih cm (treeInsert e2.id ldr)
        · rw [if_neg c1, if_neg c1]
          by_cases c2 : u1.length > cm
          · rw [if_pos c2, if_pos c2]
            exact ih u1.length [e2.id]
          · rw [if_neg c2, if_neg c2]
            exact ih cm ldr

theorem forall₂_app {l1 l2 u1 u2 : List Entity}
    (h : List.Forall₂ entEq l1 l2) (hu : List.Forall₂ entEq u1 u2) :
    List.Forall₂ entEq (l1 ++ u1) (l2 ++ u2) := by
  induction h with
  | nil => exact hu
  | cons he _ ih => exact List.Forall₂.cons he ih

theorem restore_congr {s1 s2 : St} (h : stEq s1 s2) (ty : Ident) :
    stEq (restore_data_maximum s1 ty) (restore_data_maximum s2 ty) := by
  obtain ⟨hrt, hents⟩ := h
  unfold restore_data_maximum
  rw [hrt]
  cases hd : list_search_rt s2.relTypes ty with
  | none => exact ⟨hrt, hents⟩
  | some d =>
    dsimp only
    rw [restoreScan_congr ty hents 0 d.leaders]
    by_cases hz : (restoreScan ty s2.entities 0 d.leaders).1 = 0
    · rw [if_pos hz, if_pos hz]
      exact ⟨rfl, hents⟩
    · rw [if_neg hz, if_neg hz]
      exact ⟨rfl, hents⟩

theorem addent_congr {s1 s2 : St} (h : stEq s1 s2) (i : Ident) :
    stEq (addent s1 i) (addent s2 i) := by
  obtain ⟨hrt, hents⟩ := h
  unfold addent
  rcases hash_search_rel hents i with ⟨h1, h2⟩ | ⟨e1, e2, h1, h2, _⟩
  · rw [show hash_search s1 i = none from h1, show hash_search s2 i = none from h2]
    exact ⟨hrt, forall₂_app hents
      (List.Forall₂.cons (entEq_refl ⟨i, []⟩) List.Forall₂.nil)⟩
  · rw [show hash_search s1 i = some e1 from h1, show hash_search s2 i = some e2 from h2]
    exact ⟨hrt, hents⟩

theorem updEnt_congr {l1 l2 : List Entity} {t : Ident} {g1 g2 : Entity → Entity}
    (h : List.Forall₂ entEq l1 l2)
    (hg : ∀ e1 e2, entEq e1 e2 → e1 ∈ l1 → e2 ∈ l2 → e1.id = t →
      entEq (g1 e1) (g2 e2)) :
    List.Forall₂ entEq (updEnt l1 t g1) (updEnt l2 t g2) := by
  induction h with
  | nil => exact List.Forall₂.nil
  | @cons a1 a2 t1 t2 he hrest ih =>
    show List.Forall₂ entEq ((if a1.id = t then g1 a1 else a1) :: _)
      ((if a2.id = t then g2 a2 else a2) :: _)
    refine List.Forall₂.cons ?_
      (ih fun e1 e2 hee h1 h2 hid =>
        hg e1 e2 hee (List.mem_cons_of_mem a1 h1) (List.mem_cons_of_mem a2 h2) hid)
    by_cases hid : a1.id = t
    · rw [if_pos hid, if_pos (he.1 ▸ hid)]
      exact hg a1 a2 he (List.mem_cons_self a1 t1) (List.mem_cons_self a2 t2) hid
    · rw [if_neg hid, if_neg (fun hx => hid (he.1.trans hx))]
      exact he

theorem addrel_congr {s1 s2 : St} (hInv1 : Inv s1) (hInv2 : Inv s2) (h : stEq s1 s2)
    (f t ty : Ident) : stEq (addrel s1 f t ty) (addrel s2 f t ty) := by
  obtain ⟨hrt, hents⟩ := h
  rcases hash_search_rel hents f with ⟨hf1, hf2⟩ | ⟨fe1, fe2, hf1, hf2, _⟩
  · rw [addrel_no_from hf1, addrel_no_from hf2]
    exact ⟨hrt, hents⟩
  rcases hash_search_rel hents t with ⟨ht1, ht2⟩ | ⟨te1, te2, ht1, ht2, hte⟩
  · rw [addrel_no_to ht1, addrel_no_to ht2]
    exact ⟨hrt, hents⟩
  by_cases hpres : memb f ((lookupA ty te2.rels).getD []) = true
  · have hpres1 : memb f ((lookupA ty te1.rels).getD []) = true := by
      rw [hte.2 ty]
      exact hpres
    rw [addrel_present hInv1 hf1 ht1 hpres1, addrel_present hInv2 hf2 ht2 hpres]
    exact ⟨hrt, hents⟩
  · have habs2 : memb f ((lookupA ty te2.rels).getD []) = false :=
      Bool.eq_false_iff.mpr hpres
    have habs1 : memb f ((lookupA ty te1.rels).getD []) = false := by
      rw [hte.2 ty]
      exact habs2
    have hr1 : erelsEq (match lookupA ty te1.rels with
        | some _ => setA ty (treeInsert f ((lookupA ty te2.rels).getD [])) te1.rels
        | none => (ty, treeInsert f []) :: te1.rels)
      (match lookupA ty te2.rels with
        | some _ => setA ty (treeInsert f ((lookupA ty te2.rels).getD [])) te2.rels
        | none => (ty, treeInsert f []) :: te2.rels) := by
      have hT := hte.2 ty
      cases hl1 : lookupA ty te1.rels with
      | none =>
        cases hl2 : lookupA ty te2.rels with
        | none =>
          dsimp only
          intro ty'
          show (if ty' = ty then some (treeInsert f []) else lookupA ty' te1.rels).getD []
            = (if ty' = ty then some (treeInsert f []) else lookupA ty' te2.rels).getD []
          by_cases hk : ty' = ty
          · rw [if_pos hk, if_pos hk]
          · rw [if_neg hk, if_neg hk]
            exact hte.2 ty'
        | some u2 =>
          have hu2 : u2 = [] := by
            rw [hl1, hl2] at hT
            simpa using hT.symm
          subst hu2
          dsimp only
          intro ty'
          by_cases hk : ty' = ty
          · subst hk
            show (if ty' = ty' then some (treeInsert f []) else lookupA ty' te1.rels).getD []
              = (lookupA ty' (setA ty' (treeInsert f []) te2.rels)).getD []
            rw [if_pos rfl, lookupA_setA_self (by rw [hl2]; rfl)]
          · show (if ty' = ty then some (treeInsert f []) else lookupA ty' te1.rels).getD []
              = (lookupA ty' (setA ty (treeInsert f []) te2.rels)).getD []
            rw [if_neg hk, lookupA_setA_other hk]
            exact hte.2 ty'
      | some u1 =>
        cases hl2 : lookupA ty te2.rels with
        | none =>
          have hu1 : u1 = [] := by
            rw [hl1, hl2] at hT
            simpa using hT
          subst hu1
          dsimp only
          intro ty'
          by_cases hk : ty' = ty
          · subst hk
            show (lookupA ty' (setA ty' (treeInsert f []) te1.rels)).getD []
              = (if ty' = ty' then some (treeInsert f []) else lookupA ty' te2.rels).getD []
            rw [if_pos rfl, lookupA_setA_self (by rw [hl1]; rfl)]
          · show (lookupA ty' (setA ty (treeInsert f []) te1.rels)).getD []
              = (if ty' = ty then some (treeInsert f []) else lookupA ty' te2.rels).getD []
            rw [if_neg hk, lookupA_setA_other hk]
            exact hte.2 ty'
        | some u2 =>
          dsimp only
          exact erelsEq_setA hte.2 (by rw [hl1]; rfl) (by rw [hl2]; rfl)
    have hentsU : List.Forall₂ entEq
        (updEnt s1.entities t (fun e => { e with rels := (match lookupA ty te1.rels with
          | some _ => setA ty (treeInsert f ((lookupA ty te2.rels).getD [])) te1.rels
          | none => (ty, treeInsert f []) :: te1.rels) }))
        (updEnt s2.entities t (fun e => { e with rels := (match lookupA ty te2.rels with
          | some _ => setA ty (treeInsert f ((lookupA ty te2.rels).getD [])) te2.rels
          | none => (ty, treeInsert f []) :: te2.rels) })) := by
      refine updEnt_congr hents ?_
      intro a1 a2 ha _ _ _
      exact ⟨ha.1, hr1⟩
    rw [addrel_eq_of hf1 ht1 habs1 rfl rfl, addrel_eq_of hf2 ht2 habs2 rfl rfl, hrt,
      hte.2 ty]
    cases list_search_rt s2.relTypes ty with
    | none => exact ⟨rfl, hentsU⟩
    | some d =>
      dsimp only
      split_ifs <;> exact ⟨rfl, hentsU⟩

theorem delrel_congr {s1 s2 : St} (hInv1 : Inv s1) (hInv2 : Inv s2) (h : stEq s1 s2)
    (f t ty : Ident) : stEq (delrel s1 f t ty) (delrel s2 f t ty) := by
  obtain ⟨hrt, hents⟩ := h
  rcases hash_search_rel hents f with ⟨hf1, hf2⟩ | ⟨fe1, fe2, hf1, hf2, _⟩
  · rw [delrel_no_from hf1, delrel_no_from hf2]
    exact ⟨hrt, hents⟩
  rcases hash_search_rel hents t with ⟨ht1, ht2⟩ | ⟨te1, te2, ht1, ht2, hte⟩
  · rw [delrel_no_to ht1, delrel_no_to ht2]
    exact ⟨hrt, hents⟩
  cases hd : list_search_rt s2.relTypes ty with
  | none =>
    have hd1 : list_search_rt s1.relTypes ty = none := by
      rw [hrt]
      exact hd
    rw [delrel_no_desc hf1 ht1 hd1, delrel_no_desc hf2 ht2 hd]
    exact ⟨hrt, hents⟩
  | some d =>
  have hd1 : list_search_rt s1.relTypes ty = some d := by
    rw [hrt]
    exact hd
  have hT := hte.2 ty
  cases h2 : lookupA ty te2.rels with
  | none =>
    cases h1 : lookupA ty te1.rels with
    | none =>
      rw [delrel_no_entry hf1 ht1 hd1 h1, delrel_no_entry hf2 ht2 hd h2]
      exact ⟨hrt, hents⟩
    | some u1 =>
      have hu1 : u1 = [] := by
        rw [h1, h2] at hT
        simpa using hT
      subst hu1
      rw [delrel_no_entry hf2 ht2 hd h2, delrel_no_rel hf1 ht1 hd1 h1 (by simp [memb])]
      exact ⟨hrt, hents⟩
  | some u2 =>
    cases h1 : lookupA ty te1.rels with
    | none =>
      have hu2 : u2 = [] := by
        rw [h1, h2] at hT
        simpa using hT.symm
      subst hu2
      rw [delrel_no_entry hf1 ht1 hd1 h1, delrel_no_rel hf2 ht2 hd h2 (by simp [memb])]
      exact ⟨hrt, hents⟩
    | some u1 =>
      have hu12 : u1 = u2 := by
        rw [h1, h2] at hT
        simpa using hT
      subst hu12
      by_cases hm : memb f u1 = true
      · rw [delrel_eq_of hf1 ht1 hd1 h1 hm, delrel_eq_of hf2 ht2 hd h2 hm]
        have hentsU : List.Forall₂ entEq
            (updEnt s1.entities t (fun e => { e with rels := setA ty (treeErase f u1) e.rels }))
            (updEnt s2.entities t (fun e => { e with rels := setA ty (treeErase f u1) e.rels })) := by
          refine updEnt_congr hents ?_
          intro a1 a2 ha ha1 ha2 hat
          have ha1te : a1 = te1 := entity_id_unique hInv1.entsNodup ha1
            (hash_search_eq_some ht1).1 (hat.trans (hash_search_eq_some ht1).2.symm)
          have ha2te : a2 = te2 := entity_id_unique hInv2.entsNodup ha2
            (hash_search_eq_some ht2).1
            ((ha.1.symm.trans hat).trans (hash_search_eq_some ht2).2.symm)
          subst ha1te
          subst ha2te
          exact ⟨hte.1, erelsEq_setA hte.2 (by rw [h1]; rfl) (by rw [h2]; rfl)⟩
        by_cases hc : (treeErase f u1).length + 1 = d.current_maximum
        · rw [if_pos hc, if_pos hc]
          by_cases hl : d.leaders.length > 1
          · rw [if_pos hl, if_pos hl]
            exact ⟨by rw [hrt], hentsU⟩
          · rw [if_neg hl, if_neg hl]
            refine restore_congr ?_ ty
            exact ⟨hrt, hentsU⟩
        · rw [if_neg hc, if_neg hc]
          exact ⟨hrt, hentsU⟩
      · rw [delrel_no_rel hf1 ht1 hd1 h1 (Bool.eq_false_iff.mpr hm),
          delrel_no_rel hf2 ht2 hd h2 (Bool.eq_false_iff.mpr hm)]
        exact ⟨hrt, hents⟩

theorem forall₂_map_entEq {g : Entity → Entity}
    (hg : ∀ a b, entEq a b → entEq (g a) (g b)) :
    ∀ {l1 l2 : List Entity}, List.Forall₂ entEq l1 l2 →
      List.Forall₂ entEq (l1.map g) (l2.map g) := by
  intro l1 l2 h
  induction h with
  | nil => exact List.Forall₂.nil
  | cons he _ ih => exact List.Forall₂.cons (hg _ _ he) ih

theorem delentOneType_congr {s1 s2 : St} (hInv1 : Inv s1) (hInv2 : Inv s2)
    (h : stEq s1 s2) (i ty : Ident) :
    stEq (delentOneType i ty s1) (delentOneType i ty s2) := by
  obtain ⟨hrt, hents⟩ := h
  have hsw : List.Forall₂ entEq (s1.entities.map (sweepEnt i ty))
      (s2.entities.map (sweepEnt i ty)) :=
    forall₂_map_entEq (fun a b hab => sweepEnt_congr hab) hents
  simp only [delentOneType]
  set R1 : List RelType := (if (match hash_search s1 i with
      | some e => (lookupA ty e.rels).isSome
      | none => false) = true then
    updRT s1.relTypes ty (fun d0 => { d0 with leaders := treeErase i d0.leaders })
    else s1.relTypes) with hR1def
  set R2 : List RelType := (if (match hash_search s2 i with
      | some e => (lookupA ty e.rels).isSome
      | none => false) = true then
    updRT s2.relTypes ty (fun d0 => { d0 with leaders := treeErase i d0.leaders })
    else s2.relTypes) with hR2def
  have hR1mem : R1 = updRT s1.relTypes ty
      (fun d0 => { d0 with leaders := treeErase i d0.leaders }) ∨ R1 = s1.relTypes := by
    rw [hR1def]
    split_ifs
    · exact Or.inl rfl
    · exact Or.inr rfl
  have hR2mem : R2 = updRT s2.relTypes ty
      (fun d0 => { d0 with leaders := treeErase i d0.leaders }) ∨ R2 = s2.relTypes := by
    rw [hR2def]
    split_ifs
    · exact Or.inl rfl
    · exact Or.inr rfl
  cases hdesc : list_search_rt s2.relTypes ty with
  | none =>
    have hdesc1 : list_search_rt s1.relTypes ty = none := by
      rw [hrt]
      exact hdesc
    have hA1 : R1 = s1.relTypes := by
      rcases hR1mem with h1 | h1
      · rw [h1, updRT_id (list_search_rt_eq_none hdesc1)]
      · exact h1
    have hA2 : R2 = s2.relTypes := by
      rcases hR2mem with h1 | h1
      · rw [h1, updRT_id (list_search_rt_eq_none hdesc)]
      · exact h1
    rw [hA1, hA2,
      restore_no_desc (s := St.mk (s1.entities.map (sweepEnt i ty)) s1.relTypes) hdesc1,
      restore_no_desc (s := St.mk (s2.entities.map (sweepEnt i ty)) s2.relTypes) hdesc]
    exact ⟨hrt, hsw⟩
  | some d =>
    have hdesc1 : list_search_rt s1.relTypes ty = some d := by
      rw [hrt]
      exact hdesc
    have huniform : ∀ (s0 : St), Inv s0 → list_search_rt s0.relTypes ty = some d →
        ∀ (R : List RelType),
        (R = updRT s0.relTypes ty (fun d0 => { d0 with leaders := treeErase i d0.leaders })
          ∨ R = s0.relTypes) →
        ∃ dR, list_search_rt R ty = some dR ∧ Sorted dR.leaders ∧
          list_delete R ty = list_delete s0.relTypes ty ∧
          (∀ M L, updRT R ty (fun d0 => { d0 with current_maximum := M, leaders := L })
            = updRT s0.relTypes ty
                (fun d0 => { d0 with current_maximum := M, leaders := L })) := by
      intro s0 hInv0 hd0 R hR
      rcases hR with hR | hR
      · subst hR
        refine ⟨{ d with leaders := treeErase i d.leaders }, ?_, ?_, ?_, ?_⟩
        · rw [list_search_rt_updRT_self
            (f := fun d0 => { d0 with leaders := treeErase i d0.leaders }) (fun d0 => rfl),
            hd0]
          rfl
        · exact treeErase_sorted (hInv0.ldrSorted d (list_search_rt_eq_some hd0).1)
        · exact list_delete_updRT (fun d0 => rfl) (rtKeysNodup hInv0)
        · intro M L
          rw [updRT_updRT (g := fun d0 => { d0 with leaders := treeErase i d0.leaders })
            (w := fun d0 => { d0 with current_maximum := M, leaders := L }) (fun d0 => rfl)]
      · subst hR
        exact ⟨d, hd0, hInv0.ldrSorted d (list_search_rt_eq_some hd0).1, rfl, fun M L => rfl⟩
    obtain ⟨d1, hsd1, hsort1, hdel1, hupd1⟩ := huniform s1 hInv1 hdesc1 R1 hR1mem
    obtain ⟨d2, hsd2, hsort2, hdel2, hupd2⟩ := huniform s2 hInv2 hdesc R2 hR2mem
    have hnd1 : ((List.map (sweepEnt i ty) s1.entities).map Entity.id).Nodup := by
      rw [map_sweep_ids]
      exact hInv1.entsNodup
    have hnd2 : ((List.map (sweepEnt i ty) s2.entities).map Entity.id).Nodup := by
      rw [map_sweep_ids]
      exact hInv2.entsNodup
    obtain ⟨hz0_1, hzpos_1⟩ := restore_spec
      (s := St.mk (s1.entities.map (sweepEnt i ty)) R1) hsd1 hnd1 hsort1
    obtain ⟨hz0_2, hzpos_2⟩ := restore_spec
      (s := St.mk (s2.entities.map (sweepEnt i ty)) R2) hsd2 hnd2 hsort2
    have hMeq : maxDeg (St.mk (s1.entities.map (sweepEnt i ty)) R1) ty
        = maxDeg (St.mk (s2.entities.map (sweepEnt i ty)) R2) ty := maxDegL_congr2 hsw ty
    by_cases hz : maxDeg (St.mk (s2.entities.map (sweepEnt i ty)) R2) ty = 0
    · have hz1 : maxDeg (St.mk (s1.entities.map (sweepEnt i ty)) R1) ty = 0 := by
        rw [hMeq]
        exact hz
      rw [hz0_1 hz1, hz0_2 hz]
      refine ⟨?_, hsw⟩
      show list_delete R1 ty = list_delete R2 ty
      rw [hdel1, hdel2, hrt]
    · have hz1 : ¬ maxDeg (St.mk (s1.entities.map (sweepEnt i ty)) R1) ty = 0 := by
        rw [hMeq]
        exact hz
      obtain ⟨L1, hL1s, hL1c, heq1⟩ := hzpos_1 hz1
      obtain ⟨L2, hL2s, hL2c, heq2⟩ := hzpos_2 hz
      have hL12 : L1 = L2 := by
        refine sorted_ext hL1s hL2s ?_
        intro x
        rw [hL1c x, hL2c x]
        show (∃ e ∈ s1.entities.map (sweepEnt i ty), e.id = x ∧ deg ty e
            = maxDeg (St.mk (s1.entities.map (sweepEnt i ty)) R1) ty) ↔ _
        rw [hMeq]
        exact achiever_congr hsw ty x _
      rw [heq1, heq2]
      refine ⟨?_, hsw⟩
      show updRT R1 ty _ = updRT R2 ty _
      rw [hupd1, hupd2, hrt, hL12, hMeq]

theorem delentTypes_congr (i : Ident) : ∀ (ks : List Ident) {s1 s2 : St},
    Inv s1 → Inv s2 → stEq s1 s2 → stEq (delentTypes i ks s1) (delentTypes i ks s2) := by
  intro ks
  induction ks with
  | nil =>
    intro s1 s2 _ _ h
    exact h
  | cons ty rest ih =>
    intro s1 s2 hInv1 hInv2 h
    exact ih (delentOneType_spec hInv1 i ty).1 (delentOneType_spec hInv2 i ty).1
      (delentOneType_congr hInv1 hInv2 h i ty)

theorem filter_congr_entEq {i : Ident} : ∀ {l1 l2 : List Entity},
    List.Forall₂ entEq l1 l2 →
    List.Forall₂ entEq (l1.filter (fun e => decide (e.id ≠ i)))
      (l2.filter (fun e => decide (e.id ≠ i))) := by
  intro l1 l2 h
  induction h with
  | nil => exact List.Forall₂.nil
  | @cons a1 a2 t1 t2 he hrest ih =>
    rw [List.filter_cons, List.filter_cons]
    by_cases hid : a1.id ≠ i
    · rw [if_pos (decide_eq_true hid), if_pos (decide_eq_true (he.1 ▸ hid))]
      exact List.Forall₂.cons he ih
    · rw [if_neg (by simpa using hid), if_neg (by rw [← he.1]; simpa using hid)]
      exact ih

theorem delent_congr {s1 s2 : St} (hInv1 : Inv s1) (hInv2 : Inv s2) (h : stEq s1 s2)
    (i : Ident) : stEq (delent s1 i) (delent s2 i) := by
  obtain ⟨hrt, hents⟩ := h
  rcases hash_search_rel hents i with ⟨h1, h2⟩ | ⟨e1, e2, h1, h2, _⟩
  · rw [delent_no h1, delent_no h2]
    exact ⟨hrt, hents⟩
  · rw [delent_eq h1, delent_eq h2, hrt]
    obtain ⟨hrt', hents'⟩ := delentTypes_congr i (s2.relTypes.map RelType.key)
      hInv1 hInv2 ⟨hrt, hents⟩
    exact ⟨hrt', filter_congr_entEq hents'⟩

theorem exec_congr {s1 s2 : St} (hInv1 : Inv s1) (hInv2 : Inv s2) (h : stEq s1 s2) :
    ∀ c : Cmd, stEq (exec s1 c) (exec s2 c)
  | .addent i => addent_congr h i
  | .delent i => delent_congr hInv1 hInv2 h i
  | .addrel f t ty => addrel_congr hInv1 hInv2 h f t ty
  | .delrel f t ty => delrel_congr hInv1 hInv2 h f t ty
  | .report => h

theorem run_report_congr : ∀ (cs : List Cmd) {s1 s2 : St}, Inv s1 → Inv s2 → stEq s1 s2 →
    report (run s1 cs) = report (run s2 cs) := by
  intro cs
  induction cs with
  | nil =>
    intro s1 s2 _ _ h
    show report s1 = report s2
    unfold report
    rw [h.1]
  | cons c rest ih =>
    intro s1 s2 hInv1 hInv2 h
    exact ih (inv_exec hInv1 c) (inv_exec hInv2 c) (exec_congr hInv1 hInv2 h c)

/-- What `delrel` does right after a fresh `addrel` whose target entity was
`te`: it finds the freshly inserted relation, erases it back to the old
tree, and updates the descriptor table from the (unchanged) old in-degree
plus one. -/
theorem pair_core {s : St} (hInv : Inv s) {f t ty : Ident} {te : Entity}
    (ht : hash_search s t = some te)
    (hmemF : memb f ((lookupA ty te.rels).getD []) = false)
    {RT1 : List RelType} {d1 : RelType}
    (hd1 : list_search_rt RT1 ty = some d1)
    (hf1 : (hash_search (St.mk (updEnt s.entities t (fun e => { e with rels := (match lookupA ty te.rels with
      | some _ => setA ty (treeInsert f ((lookupA ty te.rels).getD [])) te.rels
      | none => (ty, treeInsert f []) :: te.rels) })) RT1) f).isSome) :
    delrel (St.mk (updEnt s.entities t (fun e => { e with rels := (match lookupA ty te.rels with
      | some _ => setA ty (treeInsert f ((lookupA ty te.rels).getD [])) te.rels
      | none => (ty, treeInsert f []) :: te.rels) })) RT1) f t ty
      = (if ((lookupA ty te.rels).getD []).length + 1 = d1.current_maximum then
           if d1.leaders.length > 1 then
             St.mk (updEnt s.entities t
                 (fun e => { e with rels := setA ty ((lookupA ty te.rels).getD []) (match lookupA ty te.rels with
      | some _ => setA ty (treeInsert f ((lookupA ty te.rels).getD [])) te.rels
      | none => (ty, treeInsert f []) :: te.rels) }))
               (updRT RT1 ty (fun d0 => { d0 with leaders := treeErase t d0.leaders }))
           else restore_data_maximum
             (St.mk (updEnt s.entities t
                 (fun e => { e with rels := setA ty ((lookupA ty te.rels).getD []) (match lookupA ty te.rels with
      | some _ => setA ty (treeInsert f ((lookupA ty te.rels).getD [])) te.rels
      | none => (ty, treeInsert f []) :: te.rels) })) RT1) ty
         else St.mk (updEnt s.entities t
             (fun e => { e with rels := setA ty ((lookupA ty te.rels).getD []) (match lookupA ty te.rels with
      | some _ => setA ty (treeInsert f ((lookupA ty te.rels).getD [])) te.rels
      | none => (ty, treeInsert f []) :: te.rels) })) RT1) := by
  obtain ⟨hte, hteid⟩ := hash_search_eq_some ht
  obtain ⟨R1, R2, R3, R4⟩ :=
    rels2_facts rfl (hInv.relKeysNodup te hte) (hInv.treesSorted te hte) hmemF
  have hfnot : f ∉ (lookupA ty te.rels).getD [] := memb_eq_false_iff.mp hmemF
  have ht1 : hash_search (St.mk (updEnt s.entities t
      (fun e => { e with rels := (match lookupA ty te.rels with
      | some _ => setA ty (treeInsert f ((lookupA ty te.rels).getD [])) te.rels
      | none => (ty, treeInsert f []) :: te.rels) })) RT1) t
      = some ({ te with rels := (match lookupA ty te.rels with
      | some _ => setA ty (treeInsert f ((lookupA ty te.rels).getD [])) te.rels
      | none => (ty, treeInsert f []) :: te.rels) } : Entity) :=
    hash_search_updEnt (g := fun e => { e with rels := (match lookupA ty te.rels with
      | some _ => setA ty (treeInsert f ((lookupA ty te.rels).getD [])) te.rels
      | none => (ty, treeInsert f []) :: te.rels) })
      hInv.entsNodup hte hteid (fun e => rfl)
  cases hf1eq : hash_search (St.mk (updEnt s.entities t
      (fun e => { e with rels := (match lookupA ty te.rels with
      | some _ => setA ty (treeInsert f ((lookupA ty te.rels).getD [])) te.rels
      | none => (ty, treeInsert f []) :: te.rels) })) RT1) f with
  | none =>
    rw [hf1eq] at hf1
    simp at hf1
  | some fe1 =>
  have hrl1 : lookupA ty (Entity.rels ({ te with rels := (match lookupA ty te.rels with
      | some _ => setA ty (treeInsert f ((lookupA ty te.rels).getD [])) te.rels
      | none => (ty, treeInsert f []) :: te.rels) } : Entity))
      = some (treeInsert f ((lookupA ty te.rels).getD [])) := R1
  have hm1 : memb f (treeInsert f ((lookupA ty te.rels).getD [])) = true :=
    memb_iff.mpr (treeInsert_mem.mpr (Or.inl rfl))
  rw [delrel_eq_of hf1eq ht1 hd1 hrl1 hm1, treeErase_treeInsert hfnot]
  dsimp only
  rw [updEnt_updEnt (g := fun e => { e with rels := (match lookupA ty te.rels with
      | some _ => setA ty (treeInsert f ((lookupA ty te.rels).getD [])) te.rels
      | none => (ty, treeInsert f []) :: te.rels) }) (fun e => rfl)]

/-- After a fresh `addrel`, the immediately following `delrel` of the same
triple yields a state observationally equivalent to the original one. -/
theorem pair_stEq {s : St} (hInv : Inv s) (f t ty : Ident)
    (habs : ∀ te, hash_search s t = some te →
      memb f ((lookupA ty te.rels).getD []) = false) :
    stEq (delrel (addrel s f t ty) f t ty) s := by
  cases hf : hash_search s f with
  | none =>
    rw [@addrel_no_from s f t ty hf, delrel_no_from hf]
    exact stEq_refl s
  | some fe =>
  cases ht : hash_search s t with
  | none =>
    rw [@addrel_no_to s f t ty ht, delrel_no_to ht]
    exact stEq_refl s
  | some te =>
  have hmemF := habs te ht
  obtain ⟨hte, hteid⟩ := hash_search_eq_some ht
  obtain ⟨R1, R2, R3, R4⟩ :=
    rels2_facts rfl (hInv.relKeysNodup te hte) (hInv.treesSorted te hte) hmemF
  have hfnot : f ∉ (lookupA ty te.rels).getD [] := memb_eq_false_iff.mp hmemF
  have hentsPair : List.Forall₂ entEq (updEnt s.entities t (fun e => { e with rels := setA ty ((lookupA ty te.rels).getD []) (match lookupA ty te.rels with
      | some _ => setA ty (treeInsert f ((lookupA ty te.rels).getD [])) te.rels
      | none => (ty, treeInsert f []) :: te.rels) })) s.entities := by
    refine updEnt_forall₂_self ?_
    intro e he hid
    have hete : e = te := entity_id_unique hInv.entsNodup he hte (hid.trans hteid.symm)
    subst hete
    refine ⟨rfl, ?_⟩
    show erelsEq (setA ty ((lookupA ty e.rels).getD []) (match lookupA ty e.rels with
      | some _ => setA ty (treeInsert f ((lookupA ty e.rels).getD [])) e.rels
      | none => (ty, treeInsert f []) :: e.rels)) e.rels
    cases hrl : lookupA ty e.rels with
    | some u =>
      dsimp only [Option.getD]
      rw [setA_setA, setA_same hrl]
      exact fun ty' => rfl
    | none =>
      dsimp only [Option.getD]
      rw [show setA ty [] ((ty, treeInsert f []) :: e.rels) = (ty, []) :: e.rels from
        by show (if ty = ty then (ty, ([] : List Ident)) :: e.rels else _) = _; rw [if_pos rfl]]
      intro ty'
      show (if ty' = ty then some ([] : List Ident) else lookupA ty' e.rels).getD []
        = (lookupA ty' e.rels).getD []
      by_cases hk : ty' = ty
      · rw [if_pos hk, hk, hrl]
        rfl
      · rw [if_neg hk]
  have hids1 : ∀ RT1 : List RelType,
      (St.mk (updEnt s.entities t (fun e => { e with rels := (match lookupA ty te.rels with
      | some _ => setA ty (treeInsert f ((lookupA ty te.rels).getD [])) te.rels
      | none => (ty, treeInsert f []) :: te.rels) })) RT1).entities.map Entity.id
        = s.entities.map Entity.id :=
    fun RT1 => updEnt_map_id (f := fun e => { e with rels := (match lookupA ty te.rels with
      | some _ => setA ty (treeInsert f ((lookupA ty te.rels).getD [])) te.rels
      | none => (ty, treeInsert f []) :: te.rels) }) (fun e => rfl)
  have hf1 : ∀ RT1 : List RelType,
      (hash_search (St.mk (updEnt s.entities t
        (fun e => { e with rels := (match lookupA ty te.rels with
      | some _ => setA ty (treeInsert f ((lookupA ty te.rels).getD [])) te.rels
      | none => (ty, treeInsert f []) :: te.rels) })) RT1) f).isSome :=
    fun RT1 => hash_search_isSome_of_ids (hids1 RT1) hf
  have hdegGte : deg ty ((fun e => { e with rels := setA ty ((lookupA ty te.rels).getD []) (match lookupA ty te.rels with
      | some _ => setA ty (treeInsert f ((lookupA ty te.rels).getD [])) te.rels
      | none => (ty, treeInsert f []) :: te.rels) }) te) = deg ty te := by
    show ((lookupA ty (setA ty ((lookupA ty te.rels).getD []) (match lookupA ty te.rels with
      | some _ => setA ty (treeInsert f ((lookupA ty te.rels).getD [])) te.rels
      | none => (ty, treeInsert f []) :: te.rels))).getD []).length = _
    rw [lookupA_setA_self (by rw [R1]; rfl)]
    rfl
  have hMG : maxDegL (updEnt s.entities t (fun e => { e with rels := setA ty ((lookupA ty te.rels).getD []) (match lookupA ty te.rels with
      | some _ => setA ty (treeInsert f ((lookupA ty te.rels).getD [])) te.rels
      | none => (ty, treeInsert f []) :: te.rels) })) ty = maxDeg s ty := by
    show maxDegL (s.entities.map (fun e => if e.id = t then (fun e => { e with rels := setA ty ((lookupA ty te.rels).getD []) (match lookupA ty te.rels with
      | some _ => setA ty (treeInsert f ((lookupA ty te.rels).getD [])) te.rels
      | none => (ty, treeInsert f []) :: te.rels) }) e else e)) ty
      = maxDegL s.entities ty
    refine maxDegL_map_congr ?_
    intro e he
    by_cases hid : e.id = t
    · rw [if_pos hid]
      have hete : e = te := entity_id_unique hInv.entsNodup he hte (hid.trans hteid.symm)
      rw [hete]
      exact hdegGte
    · rw [if_neg hid]
  have hAch : ∀ x m, (∃ e' ∈ updEnt s.entities t (fun e => { e with rels := setA ty ((lookupA ty te.rels).getD []) (match lookupA ty te.rels with
      | some _ => setA ty (treeInsert f ((lookupA ty te.rels).getD [])) te.rels
      | none => (ty, treeInsert f []) :: te.rels) }), e'.id = x ∧ deg ty e' = m)
      ↔ (∃ e ∈ s.entities, e.id = x ∧ deg ty e = m) :=
    fun x m => achiever_updEnt_iff hInv.entsNodup hte hteid rfl hdegGte
  rw [addrel_eq_of hf ht hmemF rfl rfl]
  cases hsrt : list_search_rt s.relTypes ty with
  | some d =>
    dsimp only
    obtain ⟨hdmem, hdkey⟩ := list_search_rt_eq_some hsrt
    have hldrne : d.leaders ≠ [] := by
      have hcm1 : 1 ≤ d.current_maximum := hInv.maxPos d hdmem
      have hmx : maxDeg s d.key ≠ 0 := by
        rw [← hInv.maxEq d hdmem]
        omega
      obtain ⟨e0, he0, hdeg0⟩ := maxDeg_attained hmx
      have hmem0 : e0.id ∈ d.leaders := by
        rw [hInv.ldrChar d hdmem e0.id]
        exact ⟨e0, he0, rfl, by rw [hdeg0, hInv.maxEq d hdmem]⟩
      intro hnil
      rw [hnil] at hmem0
      exact List.not_mem_nil e0.id hmem0
    by_cases hk : ((lookupA ty te.rels).getD []).length + 1 = d.current_maximum
    · rw [if_pos hk]
      have htld : memb t d.leaders = false := by
        rw [memb_eq_false_iff]
        intro hmem
        rw [hInv.ldrChar d hdmem t] at hmem
        obtain ⟨e0, he0, hid0, hdeg0⟩ := hmem
        have hete : e0 = te := entity_id_unique hInv.entsNodup he0 hte (hid0.trans hteid.symm)
        subst hete
        rw [hdkey] at hdeg0
        have hdd : deg ty e0 = ((lookupA ty e0.rels).getD []).length := rfl
        omega
      rw [if_neg (by rw [htld]; exact Bool.false_ne_true)]
      have hd1 : list_search_rt (updRT s.relTypes ty (fun d0 => { d0 with leaders := treeInsert t d0.leaders })) ty = some ({ d with leaders := treeInsert t d.leaders } : RelType) := by
        rw [list_search_rt_updRT_self (f := fun d0 => { d0 with leaders := treeInsert t d0.leaders }) (fun d0 => rfl), hsrt]
        rfl
      rw [pair_core hInv ht hmemF hd1 (hf1 _)]
      rw [if_pos (show ((lookupA ty te.rels).getD []).length + 1 = (({ d with leaders := treeInsert t d.leaders } : RelType)).current_maximum from hk)]
      rw [if_pos (show (({ d with leaders := treeInsert t d.leaders } : RelType)).leaders.length > 1 from by
        show (treeInsert t d.leaders).length > 1
        rw [treeInsert_length]
        cases hld : d.leaders with
        | nil => exact absurd hld hldrne
        | cons a rest => simp)]
      refine ⟨?_, hentsPair⟩
      show updRT (updRT s.relTypes ty (fun d0 => { d0 with leaders := treeInsert t d0.leaders })) ty (fun d0 => { d0 with leaders := treeErase t d0.leaders }) = s.relTypes
      rw [updRT_updRT (g := fun d0 => { d0 with leaders := treeInsert t d0.leaders }) (fun d0 => rfl)]
      refine updRT_fix ?_
      intro d0 hd0 hk0
      have hd0d : d0 = d := list_search_rt_unique (rtKeysNodup hInv) hsrt hd0 hk0
      subst hd0d
      show ({ d0 with leaders := treeErase t (treeInsert t d0.leaders) } : RelType) = d0
      rw [treeErase_treeInsert (memb_eq_false_iff.mp htld)]
    · rw [if_neg hk]
      by_cases hgt : ((lookupA ty te.rels).getD []).length + 1 > d.current_maximum
      · rw [if_pos hgt]
        have hd1 : list_search_rt (updRT s.relTypes ty (fun d0 => { d0 with leaders := [t], current_maximum := ((lookupA ty te.rels).getD []).length + 1 })) ty = some ({ d with leaders := [t], current_maximum := ((lookupA ty te.rels).getD []).length + 1 } : RelType) := by
          rw [list_search_rt_updRT_self (f := (fun d0 => { d0 with leaders := [t], current_maximum := ((lookupA ty te.rels).getD []).length + 1 })) (fun d0 => rfl), hsrt]
          rfl
        rw [pair_core hInv ht hmemF hd1 (hf1 _)]
        rw [if_pos (show ((lookupA ty te.rels).getD []).length + 1 = (({ d with leaders := [t], current_maximum := ((lookupA ty te.rels).getD []).length + 1 } : RelType)).current_maximum from rfl)]
        rw [if_neg (show ¬ ((({ d with leaders := [t], current_maximum := ((lookupA ty te.rels).getD []).length + 1 } : RelType)).leaders.length > 1) from by simp)]
        have hnds : ((updEnt s.entities t (fun e => { e with rels := setA ty ((lookupA ty te.rels).getD []) (match lookupA ty te.rels with
      | some _ => setA ty (treeInsert f ((lookupA ty te.rels).getD [])) te.rels
      | none => (ty, treeInsert f []) :: te.rels) })).map Entity.id).Nodup := by
          rw [updEnt_map_id (f := (fun e => { e with rels := setA ty ((lookupA ty te.rels).getD []) (match lookupA ty te.rels with
      | some _ => setA ty (treeInsert f ((lookupA ty te.rels).getD [])) te.rels
      | none => (ty, treeInsert f []) :: te.rels) })) (fun e => rfl)]
          exact hInv.entsNodup
        obtain ⟨hz0, hzpos⟩ := restore_spec (s := St.mk (updEnt s.entities t (fun e => { e with rels := setA ty ((lookupA ty te.rels).getD []) (match lookupA ty te.rels with
      | some _ => setA ty (treeInsert f ((lookupA ty te.rels).getD [])) te.rels
      | none => (ty, treeInsert f []) :: te.rels) })) (updRT s.relTypes ty (fun d0 => { d0 with leaders := [t], current_maximum := ((lookupA ty te.rels).getD []).length + 1 }))) hd1 hnds (List.pairwise_singleton _ t)
        have hM : maxDeg (St.mk (updEnt s.entities t (fun e => { e with rels := setA ty ((lookupA ty te.rels).getD []) (match lookupA ty te.rels with
      | some _ => setA ty (treeInsert f ((lookupA ty te.rels).getD [])) te.rels
      | none => (ty, treeInsert f []) :: te.rels) })) (updRT s.relTypes ty (fun d0 => { d0 with leaders := [t], current_maximum := ((lookupA ty te.rels).getD []).length + 1 }))) ty = maxDeg s ty := hMG
        have hMne : ¬ maxDeg (St.mk (updEnt s.entities t (fun e => { e with rels := setA ty ((lookupA ty te.rels).getD []) (match lookupA ty te.rels with
      | some _ => setA ty (treeInsert f ((lookupA ty te.rels).getD [])) te.rels
      | none => (ty, treeInsert f []) :: te.rels) })) (updRT s.relTypes ty (fun d0 => { d0 with leaders := [t], current_maximum := ((lookupA ty te.rels).getD []).length + 1 }))) ty = 0 := by
          rw [hM, ← hdkey, ← hInv.maxEq d hdmem]
          have hp := hInv.maxPos d hdmem
          omega
        obtain ⟨L, hLs, hLc, heq⟩ := hzpos hMne
        rw [heq]
        have hLld : L = d.leaders := by
          refine sorted_ext hLs (hInv.ldrSorted d hdmem) ?_
          intro x
          rw [hLc x]
          show (∃ e' ∈ updEnt s.entities t (fun e => { e with rels := setA ty ((lookupA ty te.rels).getD []) (match lookupA ty te.rels with
      | some _ => setA ty (treeInsert f ((lookupA ty te.rels).getD [])) te.rels
      | none => (ty, treeInsert f []) :: te.rels) }), e'.id = x ∧ deg ty e' = maxDeg (St.mk (updEnt s.entities t (fun e => { e with rels := setA ty ((lookupA ty te.rels).getD []) (match lookupA ty te.rels with
      | some _ => setA ty (treeInsert f ((lookupA ty te.rels).getD [])) te.rels
      | none => (ty, treeInsert f []) :: te.rels) })) (updRT s.relTypes ty (fun d0 => { d0 with leaders := [t], current_maximum := ((lookupA ty te.rels).getD []).length + 1 }))) ty) ↔ _
          rw [hM]
          constructor
          · intro hx
            rw [hInv.ldrChar d hdmem x]
            obtain ⟨e0, he0, hx0, hm0⟩ := (hAch x (maxDeg s ty)).mp hx
            exact ⟨e0, he0, hx0, by rw [hdkey, hm0, ← hdkey]; exact (hInv.maxEq d hdmem).symm⟩
          · intro hx
            rw [hInv.ldrChar d hdmem x] at hx
            obtain ⟨e0, he0, hx0, hm0⟩ := hx
            exact (hAch x (maxDeg s ty)).mpr ⟨e0, he0, hx0, by rw [← hdkey, hm0]; exact hInv.maxEq d hdmem⟩
        refine ⟨?_, hentsPair⟩
        show updRT (updRT s.relTypes ty (fun d0 => { d0 with leaders := [t], current_maximum := ((lookupA ty te.rels).getD []).length + 1 })) ty (fun d0 => { d0 with current_maximum := maxDeg (St.mk (updEnt s.entities t (fun e => { e with rels := setA ty ((lookupA ty te.rels).getD []) (match lookupA ty te.rels with
      | some _ => setA ty (treeInsert f ((lookupA ty te.rels).getD [])) te.rels
      | none => (ty, treeInsert f []) :: te.rels) })) (updRT s.relTypes ty (fun d0 => { d0 with leaders := [t], current_maximum := ((lookupA ty te.rels).getD []).length + 1 }))) ty, leaders := L }) = s.relTypes
        rw [updRT_updRT (g := (fun d0 => { d0 with leaders := [t], current_maximum := ((lookupA ty te.rels).getD []).length + 1 })) (fun d0 => rfl)]
        refine updRT_fix ?_
        intro d0 hd0 hk0
        have hd0d : d0 = d := list_search_rt_unique (rtKeysNodup hInv) hsrt hd0 hk0
        subst hd0d
        show ({ d0 with current_maximum := maxDeg (St.mk (updEnt s.entities t (fun e => { e with rels := setA ty ((lookupA ty te.rels).getD []) (match lookupA ty te.rels with
      | some _ => setA ty (treeInsert f ((lookupA ty te.rels).getD [])) te.rels
      | none => (ty, treeInsert f []) :: te.rels) })) (updRT s.relTypes ty (fun d0 => { d0 with leaders := [t], current_maximum := ((lookupA ty te.rels).getD []).length + 1 }))) ty, leaders := L } : RelType) = d0
        rw [hLld, hM, ← hdkey, ← hInv.maxEq d0 hdmem]
      · rw [if_neg hgt]
        rw [pair_core hInv ht hmemF hsrt (hf1 _)]
        rw [if_neg hk]
        exact ⟨rfl, hentsPair⟩
  | none =>
    dsimp only
    have hkeys : ∀ d0 ∈ s.relTypes, d0.key ≠ ty := list_search_rt_eq_none hsrt
    have hd1 : list_search_rt (updRT (list_insert s.relTypes ty) ty (fun d0 => { d0 with leaders := [t], current_maximum := ((lookupA ty te.rels).getD []).length + 1 })) ty = some (⟨ty, [t], ((lookupA ty te.rels).getD []).length + 1⟩ : RelType) := by
      rw [list_search_rt_updRT_self (f := (fun d0 => { d0 with leaders := [t], current_maximum := ((lookupA ty te.rels).getD []).length + 1 })) (fun d0 => rfl), list_search_rt_list_insert_self hkeys]
      rfl
    rw [pair_core hInv ht hmemF hd1 (hf1 _)]
    rw [if_pos (show ((lookupA ty te.rels).getD []).length + 1 = ((⟨ty, [t], ((lookupA ty te.rels).getD []).length + 1⟩ : RelType)).current_maximum from rfl)]
    rw [if_neg (show ¬ (((⟨ty, [t], ((lookupA ty te.rels).getD []).length + 1⟩ : RelType)).leaders.length > 1) from by simp)]
    have hnds : ((updEnt s.entities t (fun e => { e with rels := setA ty ((lookupA ty te.rels).getD []) (match lookupA ty te.rels with
      | some _ => setA ty (treeInsert f ((lookupA ty te.rels).getD [])) te.rels
      | none => (ty, treeInsert f []) :: te.rels) })).map Entity.id).Nodup := by
      rw [updEnt_map_id (f := (fun e => { e with rels := setA ty ((lookupA ty te.rels).getD []) (match lookupA ty te.rels with
      | some _ => setA ty (treeInsert f ((lookupA ty te.rels).getD [])) te.rels
      | none => (ty, treeInsert f []) :: te.rels) })) (fun e => rfl)]
      exact hInv.entsNodup
    obtain ⟨hz0, hzpos⟩ := restore_spec (s := St.mk (updEnt s.entities t (fun e => { e with rels := setA ty ((lookupA ty te.rels).getD []) (match lookupA ty te.rels with
      | some _ => setA ty (treeInsert f ((lookupA ty te.rels).getD [])) te.rels
      | none => (ty, treeInsert f []) :: te.rels) })) (updRT (list_insert s.relTypes ty) ty (fun d0 => { d0 with leaders := [t], current_maximum := ((lookupA ty te.rels).getD []).length + 1 }))) hd1 hnds (List.pairwise_singleton _ t)
    have hM0 : maxDeg (St.mk (updEnt s.entities t (fun e => { e with rels := setA ty ((lookupA ty te.rels).getD []) (match lookupA ty te.rels with
      | some _ => setA ty (treeInsert f ((lookupA ty te.rels).getD [])) te.rels
      | none => (ty, treeInsert f []) :: te.rels) })) (updRT (list_insert s.relTypes ty) ty (fun d0 => { d0 with leaders := [t], current_maximum := ((lookupA ty te.rels).getD []).length + 1 }))) ty = 0 := by
      have h1 : maxDeg s ty = 0 := by
        refine Nat.le_zero.mp (maxDeg_le ?_)
        intro e he
        rw [hInv.orphan ty hkeys e he]
      show maxDegL (updEnt s.entities t (fun e => { e with rels := setA ty ((lookupA ty te.rels).getD []) (match lookupA ty te.rels with
      | some _ => setA ty (treeInsert f ((lookupA ty te.rels).getD [])) te.rels
      | none => (ty, treeInsert f []) :: te.rels) })) ty = 0
      rw [hMG]
      exact h1
    rw [hz0 hM0]
    refine ⟨?_, hentsPair⟩
    show list_delete (updRT (list_insert s.relTypes ty) ty (fun d0 => { d0 with leaders := [t], current_maximum := ((lookupA ty te.rels).getD []).length + 1 })) ty = s.relTypes
    exact list_delete_insert_roundtrip (fun d0 => rfl) hkeys


/-- C8 counterexample. A line whose first token is `foo` is not skipped:
it terminates processing, so a following `report` line prints nothing —
while skipping it (the claimed behaviour, `process_lines_spec`) would print
`none`. -/
theorem C8_counterexample :
    process_lines initSt [[[102, 111, 111]], [reportTok]]
      ≠ process_lines_spec initSt [[[102, 111, 111]], [reportTok]] := by
  decide

/-- C8 (amended). The dispatcher recognises exactly the six commands:
`addent`, `delent`, `addrel` and `delrel` run their handler and continue,
`report` prints and continues — but an unrecognised first token returns
the same code -1 as `end` does, so it terminates processing (cleanly, with
no output for that line) instead of being skipped. -/
theorem C8_dispatch (s : St) (toks : List Ident) (rest : List (List Ident)) :
    (toks.getD 0 [] ∉ [addentTok, delentTok, addrelTok, delrelTok, reportTok, endTok] →
      process_lines s (toks :: rest) = []) ∧
    (toks.getD 0 [] = endTok → process_lines s (toks :: rest) = []) ∧
    (toks.getD 0 [] = reportTok →
      process_lines s (toks :: rest) = report s ++ process_lines s rest) ∧
    (toks.getD 0 [] = addentTok →
      process_lines s (toks :: rest) = process_lines (addent s (toks.getD 1 [])) rest) ∧
    (toks.getD 0 [] = delentTok →
      process_lines s (toks :: rest) = process_lines (delent s (toks.getD 1 [])) rest) ∧
    (toks.getD 0 [] = addrelTok →
      process_lines s (toks :: rest)
        = process_lines (addrel s (toks.getD 1 []) (toks.getD 2 []) (toks.getD 3 [])) rest) ∧
    (toks.getD 0 [] = delrelTok →
      process_lines s (toks :: rest)
        = process_lines (delrel s (toks.getD 1 []) (toks.getD 2 []) (toks.getD 3 [])) rest) := by
  refine ⟨?_, ?_, ?_, ?_, ?_, ?_, ?_⟩
  · intro hun
    simp only [List.mem_cons, List.mem_singleton, not_or] at hun
    obtain ⟨h1, h2, h3, h4, h5, h6, -⟩ := hun
    show (if _ = -1 then _ else _) = []
    rw [show process_arguments s (toks.getD 0 []) (toks.getD 1 []) (toks.getD 2 [])
        (toks.getD 3 []) = (s, -1) from by
      simp only [process_arguments, if_neg h1, if_neg h2, if_neg h3, if_neg h4, if_neg h5,
        if_neg h6]]
    rw [if_pos rfl, if_neg h5]
  · intro hc
    show (if _ = -1 then _ else _) = []
    rw [show process_arguments s (toks.getD 0 []) (toks.getD 1 []) (toks.getD 2 [])
        (toks.getD 3 []) = (s, -1) from by
      simp only [process_arguments, hc]
      rfl]
    rw [if_pos rfl, if_neg (by rw [hc]; decide)]
  · intro hc
    show (if _ = -1 then _ else _) = _
    rw [show process_arguments s (toks.getD 0 []) (toks.getD 1 []) (toks.getD 2 [])
        (toks.getD 3 []) = (s, 4) from by
      simp only [process_arguments, hc]
      rfl]
    dsimp only
    rw [if_neg (by decide), if_pos hc]
  · intro hc
    show (if _ = -1 then _ else _) = _
    rw [show process_arguments s (toks.getD 0 []) (toks.getD 1 []) (toks.getD 2 [])
        (toks.getD 3 []) = (addent s (toks.getD 1 []), 0) from by
      simp only [process_arguments, hc]
      rfl]
    dsimp only
    rw [if_neg (by decide), if_neg (by rw [hc]; decide)]
    rfl
  · intro hc
    show (if _ = -1 then _ else _) = _
    rw [show process_arguments s (toks.getD 0 []) (toks.getD 1 []) (toks.getD 2 [])
        (toks.getD 3 []) = (delent s (toks.getD 1 []), 1) from by
      simp only [process_arguments, hc]
      rfl]
    dsimp only
    rw [if_neg (by decide), if_neg (by rw [hc]; decide)]
    rfl
  · intro hc
    show (if _ = -1 then _ else _) = _
    rw [show process_arguments s (toks.getD 0 []) (toks.getD 1 []) (toks.getD 2 [])
        (toks.getD 3 []) = (addrel s (toks.getD 1 []) (toks.getD 2 []) (toks.getD 3 []), 2) from by
      simp only [process_arguments, hc]
      rfl]
    dsimp only
    rw [if_neg (by decide), if_neg (by rw [hc]; decide)]
    rfl
  · intro hc
    show (if _ = -1 then _ else _) = _
    rw [show process_arguments s (toks.getD 0 []) (toks.getD 1 []) (toks.getD 2 [])
        (toks.getD 3 []) = (delrel s (toks.getD 1 []) (toks.getD 2 []) (toks.getD 3 []), 3) from by
      simp only [process_arguments, hc]
      rfl]
    dsimp only
    rw [if_neg (by decide), if_neg (by rw [hc]; decide)]
    rfl

theorem C8_dispatch_witness :
    ([102, 111, 111] : Ident) ∉ [addentTok, delentTok, addrelTok, delrelTok, reportTok, endTok] ∧
    process_lines initSt [[[102, 111, 111]], [reportTok]] = [] :=
  ⟨by decide, (C8_dispatch initSt [[102, 111, 111]] [[reportTok]]).1 (by decide)⟩

theorem shift_char_value_nonneg {c : Int} (h : 0 ≤ c) : 0 ≤ shift_char_value c := by
  unfold shift_char_value
  split_ifs <;> omega

theorem hsum_nonneg : ∀ (x : List Nat) (i : Nat), (∀ b ∈ x, b < 128) → 0 ≤ hsum x i := by
  intro x
  induction x with
  | nil => intro i _; exact le_refl 0
  | cons b rest ih =>
    intro i hb
    have hb0 : b < 128 := hb b (List.mem_cons_self b rest)
    have h1 : signedChar b = (b : Int) := if_pos hb0
    have h2 : 0 ≤ shift_char_value (signedChar b) := by
      refine shift_char_value_nonneg ?_
      rw [h1]
      exact Int.ofNat_nonneg b
    have h3 : 0 ≤ hsum rest (i + 1) := ih (i + 1) fun b' hb' => hb b' (List.mem_cons_of_mem b hb')
    have h4 : (0 : Int) ≤ (i : Int) * (i : Int) :=
      mul_nonneg (Int.ofNat_nonneg i) (Int.ofNat_nonneg i)
    have h5 : (0 : Int) ≤ (i : Int) * (i : Int) * shift_char_value (signedChar b) :=
      mul_nonneg h4 h2
    show 0 ≤ (i : Int) * (i : Int) * shift_char_value (signedChar b) + hsum rest (i + 1)
    omega

theorem hash_string_range {x : List Nat} (h : ∀ b ∈ x, b < 128) :
    0 ≤ hash_string x ∧ hash_string x < 10000 := by
  have h0 : 0 ≤ hsum x 0 := hsum_nonneg x 0 h
  show 0 ≤ Int.tmod (hsum x 0) 10000 ∧ Int.tmod (hsum x 0) 10000 < 10000
  rw [Int.tmod_eq_emod h0 (by omega)]
  constructor
  · exact Int.emod_nonneg _ (by omega)
  · exact Int.emod_lt_of_pos _ (by omega)

/-- A single token's bytes keep the writes in bounds provided the stored
(non-quote) byte count fits before column 100. -/
theorem tokWrites_token_bound : ∀ (tk : List Nat) (rest : List Nat) (argc charc : Nat),
    (∀ b ∈ tk, b ≠ 32 ∧ b ≠ 10) →
    charc + (tk.filter (fun b => decide (b ≠ 34))).length ≤ 99 →
    argc < 4 →
    (∀ p ∈ tokWrites rest argc (charc + (tk.filter (fun b => decide (b ≠ 34))).length),
      p.1 < 4 ∧ p.2 < 100) →
    ∀ p ∈ tokWrites (tk ++ rest) argc charc, p.1 < 4 ∧ p.2 < 100 := by
  intro tk
  induction tk with
  | nil =>
    intro rest argc charc _ _ _ hrest
    simpa using hrest
  | cons b bs ih =>
    intro rest argc charc hgood hlen hargc hrest
    have hb := hgood b (List.mem_cons_self b bs)
    have hgood' : ∀ b' ∈ bs, b' ≠ 32 ∧ b' ≠ 10 :=
      fun b' hb' => hgood b' (List.mem_cons_of_mem b hb')
    show ∀ p ∈ tokWrites (b :: (bs ++ rest)) argc charc, p.1 < 4 ∧ p.2 < 100
    intro p hp
    rw [show tokWrites (b :: (bs ++ rest)) argc charc
        = if b = 32 then (argc, charc) :: tokWrites (bs ++ rest) (argc + 1) 0
          else if b = 10 then (argc, charc) :: tokWrites (bs ++ rest) 0 0
          else if b = 34 then tokWrites (bs ++ rest) argc charc
          else (argc, charc) :: tokWrites (bs ++ rest) argc (charc + 1) from rfl] at hp
    rw [if_neg hb.1, if_neg hb.2] at hp
    by_cases h34 : b = 34
    · rw [if_pos h34] at hp
      have hlen' : charc + (bs.filter (fun b0 => decide (b0 ≠ 34))).length ≤ 99 := by
        have : (List.filter (fun b0 => decide (b0 ≠ 34)) (b :: bs)).length
            = (bs.filter (fun b0 => decide (b0 ≠ 34))).length := by
          rw [List.filter_cons, if_neg (by simp [h34])]
        omega
      refine ih rest argc charc hgood' hlen' hargc ?_ p hp
      intro q hq
      refine hrest q ?_
      have : (List.filter (fun b0 => decide (b0 ≠ 34)) (b :: bs)).length
          = (bs.filter (fun b0 => decide (b0 ≠ 34))).length := by
        rw [List.filter_cons, if_neg (by simp [h34])]
      rw [this]
      exact hq
    · rw [if_neg h34] at hp
      have hflen : (List.filter (fun b0 => decide (b0 ≠ 34)) (b :: bs)).length
          = (bs.filter (fun b0 => decide (b0 ≠ 34))).length + 1 := by
        rw [List.filter_cons, if_pos (by simp [h34])]
        rfl
      rcases List.mem_cons.mp hp with hp1 | hp1
      · subst hp1
        refine ⟨hargc, ?_⟩
        show charc < 100
        omega
      · have hlen' : (charc + 1) + (bs.filter (fun b0 => decide (b0 ≠ 34))).length ≤ 99 := by
          omega
        refine ih rest argc (charc + 1) hgood' hlen' hargc ?_ p hp1
        intro q hq
        refine hrest q ?_
        have harith : charc + 1 + (List.filter (fun b0 => decide (b0 ≠ 34)) bs).length
            = charc + (List.filter (fun b0 => decide (b0 ≠ 34)) (b :: bs)).length := by
          omega
        rw [← harith]
        exact hq

/-- One whole line keeps the writes in bounds when it has at most four
tokens (and at least one) each storing at most 99 bytes. -/
theorem tokWrites_line_bound : ∀ (toks : List Ident) (rest : List Nat) (argc : Nat),
    argc + toks.length ≤ 4 → argc < 4 →
    (∀ tk ∈ toks, (∀ b ∈ tk, b ≠ 32 ∧ b ≠ 10) ∧
      (tk.filter (fun b => decide (b ≠ 34))).length ≤ 99) →
    (∀ p ∈ tokWrites rest 0 0, p.1 < 4 ∧ p.2 < 100) →
    ∀ p ∈ tokWrites (lineRaw toks ++ rest) argc 0, p.1 < 4 ∧ p.2 < 100 := by
  intro toks
  induction toks with
  | nil =>
    intro rest argc _ hargc _ hrest p hp
    rw [show lineRaw [] ++ rest = 10 :: rest from rfl] at hp
    rw [show tokWrites (10 :: rest) argc 0
        = (argc, 0) :: tokWrites rest 0 0 from by
      show (if (10 : Nat) = 32 then _ else if (10 : Nat) = 10 then _ else _) = _
      rw [if_neg (by decide), if_pos rfl]] at hp
    rcases List.mem_cons.mp hp with hp1 | hp1
    · subst hp1
      exact ⟨hargc, by omega⟩
    · exact hrest p hp1
  | cons tk tks ih =>
    intro rest argc hcount hargc hgood hrest p hp
    obtain ⟨htk1, htk2⟩ := hgood tk (List.mem_cons_self tk tks)
    cases tks with
    | nil =>
      rw [show lineRaw [tk] ++ rest = tk ++ (10 :: rest) from by
        show (tk ++ [10]) ++ rest = _
        rw [List.append_assoc]
        rfl] at hp
      refine tokWrites_token_bound tk (10 :: rest) argc 0 htk1 (by omega) hargc ?_ p hp
      intro q hq
      rw [show tokWrites (10 :: rest) argc
          (0 + (tk.filter (fun b => decide (b ≠ 34))).length)
          = (argc, (0 + (tk.filter (fun b => decide (b ≠ 34))).length))
            :: tokWrites rest 0 0 from by
        show (if (10 : Nat) = 32 then _ else if (10 : Nat) = 10 then _ else _) = _
        rw [if_neg (by decide), if_pos rfl]] at hq
      rcases List.mem_cons.mp hq with hq1 | hq1
      · subst hq1
        exact ⟨hargc, by omega⟩
      · exact hrest q hq1
    | cons tk2 tks2 =>
      rw [show lineRaw (tk :: tk2 :: tks2) ++ rest
          = tk ++ (32 :: (lineRaw (tk2 :: tks2) ++ rest)) from by
        show (tk ++ 32 :: lineRaw (tk2 :: tks2)) ++ rest = _
        rw [List.append_assoc]
        rfl] at hp
      refine tokWrites_token_bound tk (32 :: (lineRaw (tk2 :: tks2) ++ rest)) argc 0 htk1
        (by omega) hargc ?_ p hp
      intro q hq
      rw [show tokWrites (32 :: (lineRaw (tk2 :: tks2) ++ rest)) argc
          (0 + (tk.filter (fun b => decide (b ≠ 34))).length)
          = (argc, (0 + (tk.filter (fun b => decide (b ≠ 34))).length))
            :: tokWrites (lineRaw (tk2 :: tks2) ++ rest) (argc + 1) 0 from by
        show (if (32 : Nat) = 32 then _ else _) = _
        rw [if_pos rfl]] at hq
      rcases List.mem_cons.mp hq with hq1 | hq1
      · subst hq1
        exact ⟨hargc, by omega⟩
      · refine ih rest (argc + 1) ?_ ?_ ?_ hrest q hq1
        · have hc : (tk :: tk2 :: tks2).length = (tk2 :: tks2).length + 1 := rfl
          omega
        · have hc : (tk :: tk2 :: tks2).length = (tk2 :: tks2).length + 1 := rfl
          have hc2 : 1 ≤ (tk2 :: tks2).length := by
            show 1 ≤ tks2.length + 1
            omega
          omega
        · intro tk' htk'
          exact hgood tk' (List.mem_cons_of_mem tk htk')

/-- C9 counterexample. Identifiers are not safe at arbitrary length or
byte values: a 100-byte identifier makes the tokenizer write the
terminating 0 at column 100 of a 100-column buffer, and `hash_string` of
the two bytes 97, 233 is -23 — a negative index, contradicting the range
0..9999 (the `char` read back from the buffer is signed, so byte 233 hashes
as -23). -/
theorem C9_counterexample :
    ((0 : Nat), (100 : Nat)) ∈ tokWrites (List.replicate 100 97 ++ [10]) 0 0 ∧
    hash_string [97, 233] = -23 := by
  decide

/-- C9 (amended). For command lines of at most four tokens whose
identifiers store at most 99 non-quote bytes and contain neither space nor
newline, every tokenizer write stays inside `arguments[4][100]`; and for
identifiers of ASCII bytes (below 128) `hash_string` yields a bucket index
in 0..9999. -/
theorem C9_bounds (lines : List (List Ident))
    (hwf : ∀ toks ∈ lines, 1 ≤ toks.length ∧ toks.length ≤ 4 ∧
      ∀ tk ∈ toks, (∀ b ∈ tk, b ≠ 32 ∧ b ≠ 10) ∧
        (tk.filter (fun b => decide (b ≠ 34))).length ≤ 99) :
    (∀ p ∈ tokWrites ((lines.map lineRaw).flatten) 0 0, p.1 < 4 ∧ p.2 < 100) ∧
    (∀ x : Ident, (∀ b ∈ x, b < 128) → 0 ≤ hash_string x ∧ hash_string x < 10000) := by
  refine ⟨?_, fun x hx => hash_string_range hx⟩
  induction lines with
  | nil =>
    intro p hp
    simp [tokWrites] at hp
  | cons toks restL ih =>
    obtain ⟨h1, h2, h3⟩ := hwf toks (List.mem_cons_self toks restL)
    rw [show ((toks :: restL).map lineRaw).flatten
        = lineRaw toks ++ (restL.map lineRaw).flatten from rfl]
    refine tokWrites_line_bound toks ((restL.map lineRaw).flatten) 0 (by omega) (by omega)
      h3 ?_
    exact ih fun toks' htoks' => hwf toks' (List.mem_cons_of_mem toks htoks')

theorem C9_bounds_witness :
    (∀ toks ∈ [[[97, 100, 100, 101, 110, 116], [120]]], 1 ≤ (toks : List Ident).length
      ∧ toks.length ≤ 4 ∧ ∀ tk ∈ toks, (∀ b ∈ tk, b ≠ 32 ∧ b ≠ 10) ∧
        (tk.filter (fun b => decide (b ≠ 34))).length ≤ 99) ∧
    ((∀ p ∈ tokWrites (([[[97, 100, 100, 101, 110, 116], [120]]].map lineRaw).flatten) 0 0,
        p.1 < 4 ∧ p.2 < 100) ∧
     (∀ x : Ident, (∀ b ∈ x, b < 128) → 0 ≤ hash_string x ∧ hash_string x < 10000)) :=
  ⟨by decide, C9_bounds [[[97, 100, 100, 101, 110, 116], [120]]] (by decide)⟩

end PolimiApi2019
